import Mathlib

/-!
A shallow embedding of the ssosync reconciliation engine
(`SyncUsers`, `SyncGroups`, `SyncMembershipsForGroup`, `RemoveUsers`, `DoSync`,
`ignoreUser`, `ignoreGroup`) together with the AWS identity-store client it
drives (`CreateUser`, `DeleteUser`, `CreateGroup`, `DeleteGroup`,
`AddUserToGroup`, `RemoveGroupMembership`).

Modelling decisions:
* Go maps are association lists; iteration is determinized to insertion order.
* Opaque target-assigned identifiers (UserId, GroupId, MembershipId) are `Nat`;
  the code only ever compares them for equality.  Fresh identifiers are drawn
  from a counter that starts above every identifier in the initial snapshot.
* The remote listings are infallible and read from the threaded store; the
  fallible mutations consult an `Env` that decides, per entity, whether the
  call fails.  A successful mutation updates the store the way the identity
  store does: creation appends (`CreateUser` persists only the four fields the
  client sends), deletion removes by identifier, and deleting a user or a group
  also removes the memberships that reference it (the identity store cascades).
* A nil-pointer dereference in the Go code is modelled as the `panic` error.
-/

namespace SSOSync

/-! ## Association-list model of Go maps -/

def lookupA {κ α : Type} [DecidableEq κ] : List (κ × α) → κ → Option α
  | [], _ => none
  | (k', v) :: rest, k => if k' = k then some v else lookupA rest k

def insertA {κ α : Type} [DecidableEq κ] : List (κ × α) → κ → α → List (κ × α)
  | [], k, v => [(k, v)]
  | (k', v') :: rest, k, v =>
    if k' = k then (k, v) :: rest else (k', v') :: insertA rest k v

def eraseA {κ α : Type} [DecidableEq κ] (m : List (κ × α)) (k : κ) : List (κ × α) :=
  m.filter (fun p => decide (p.1 ≠ k))

def valuesA {κ α : Type} (m : List (κ × α)) : List α := m.map Prod.snd

def keysA {κ α : Type} (m : List (κ × α)) : List κ := m.map Prod.fst

section GoMapLemmas

variable {κ α : Type} [DecidableEq κ]

@[simp] theorem lookupA_nil (k : κ) : lookupA ([] : List (κ × α)) k = none := rfl

theorem lookupA_cons (k' : κ) (v : α) (rest : List (κ × α)) (k : κ) :
    lookupA ((k', v) :: rest) k = if k' = k then some v else lookupA rest k := rfl

theorem eraseA_cons_self (k : κ) (v : α) (rest : List (κ × α)) :
    eraseA ((k, v) :: rest) k = eraseA rest k := by
  simp [eraseA, List.filter_cons]

theorem eraseA_cons_ne (k k' : κ) (v : α) (rest : List (κ × α)) (h : k' ≠ k) :
    eraseA ((k', v) :: rest) k = (k', v) :: eraseA rest k := by
  simp [eraseA, List.filter_cons, h]

@[simp] theorem lookupA_insertA_self (m : List (κ × α)) (k : κ) (v : α) :
    lookupA (insertA m k v) k = some v := by
  induction m with
  | nil => simp [insertA, lookupA]
  | cons p rest ih =>
    obtain ⟨k', v'⟩ := p
    by_cases h : k' = k
    · simp [insertA, h, lookupA]
    · simp [insertA, h, lookupA, ih]

theorem lookupA_insertA_ne (m : List (κ × α)) (k k' : κ) (v : α) (h : k' ≠ k) :
    lookupA (insertA m k v) k' = lookupA m k' := by
  have h' : ¬ (k = k') := fun hh => h hh.symm
  induction m with
  | nil => simp [insertA, lookupA, h']
  | cons p rest ih =>
    obtain ⟨k₀, v₀⟩ := p
    by_cases h0 : k₀ = k
    · subst h0
      simp [insertA, lookupA, h']
    · simp only [insertA, if_neg h0, lookupA]
      by_cases h1 : k₀ = k'
      · simp [h1]
      · simp [h1, ih]

@[simp] theorem lookupA_eraseA_self (m : List (κ × α)) (k : κ) :
    lookupA (eraseA m k) k = none := by
  induction m with
  | nil => simp [eraseA]
  | cons p rest ih =>
    obtain ⟨k', v'⟩ := p
    by_cases h : k' = k
    · subst h
      rw [eraseA_cons_self]
      exact ih
    · rw [eraseA_cons_ne _ _ _ _ h, lookupA_cons, if_neg h]
      exact ih

theorem lookupA_eraseA_ne (m : List (κ × α)) (k k' : κ) (h : k' ≠ k) :
    lookupA (eraseA m k) k' = lookupA m k' := by
  induction m with
  | nil => simp [eraseA]
  | cons p rest ih =>
    obtain ⟨k₀, v₀⟩ := p
    by_cases h0 : k₀ = k
    · subst h0
      have h2 : ¬ (k₀ = k') := fun hh => h (hh.symm)
      rw [eraseA_cons_self, lookupA_cons, if_neg h2]
      exact ih
    · rw [eraseA_cons_ne _ _ _ _ h0, lookupA_cons, lookupA_cons]
      by_cases h1 : k₀ = k'
      · simp [h1]
      · simp only [if_neg h1]
        exact ih

theorem mem_of_lookupA {m : List (κ × α)} {k : κ} {v : α}
    (h : lookupA m k = some v) : (k, v) ∈ m := by
  induction m with
  | nil => simp [lookupA] at h
  | cons p rest ih =>
    obtain ⟨k', v'⟩ := p
    by_cases h0 : k' = k
    · subst h0
      rw [lookupA_cons, if_pos rfl, Option.some.injEq] at h
      subst h
      exact List.mem_cons_self _ _
    · rw [lookupA_cons, if_neg h0] at h
      exact List.mem_cons_of_mem _ (ih h)

theorem lookupA_eq_none_iff {m : List (κ × α)} {k : κ} :
    lookupA m k = none ↔ k ∉ keysA m := by
  induction m with
  | nil => simp [lookupA, keysA]
  | cons p rest ih =>
    obtain ⟨k', v'⟩ := p
    by_cases h0 : k' = k
    · subst h0
      simp [lookupA, keysA]
    · rw [lookupA_cons, if_neg h0]
      simp only [keysA, List.map_cons, List.mem_cons]
      rw [ih]
      simp only [keysA]
      constructor
      · intro hk hor
        rcases hor with h1 | h1
        · exact h0 h1.symm
        · exact hk h1
      · intro hk
        push_neg at hk
        exact hk.2

theorem lookupA_isSome_of_mem {m : List (κ × α)} {p : κ × α}
    (h : p ∈ m) : (lookupA m p.1).isSome := by
  induction m with
  | nil => simp at h
  | cons q rest ih =>
    obtain ⟨k', v'⟩ := q
    rcases List.mem_cons.mp h with h1 | h1
    · subst h1
      simp [lookupA]
    · by_cases h0 : k' = p.1
      · simp [lookupA, h0]
      · rw [lookupA_cons, if_neg h0]
        exact ih h1

theorem eraseA_sub (m : List (κ × α)) (k : κ) : ∀ p ∈ eraseA m k, p ∈ m := by
  intro p hp
  exact List.mem_of_mem_filter hp

theorem insertA_cons_self (k : κ) (v v' : α) (rest : List (κ × α)) :
    insertA ((k, v') :: rest) k v = (k, v) :: rest := by
  simp [insertA]

theorem insertA_cons_ne (k k' : κ) (v v' : α) (rest : List (κ × α)) (h : k' ≠ k) :
    insertA ((k', v') :: rest) k v = (k', v') :: insertA rest k v := by
  simp [insertA, h]

theorem insertA_forall {m : List (κ × α)} {k : κ} {v : α} {P : κ × α → Prop}
    (hm : ∀ p ∈ m, P p) (hv : P (k, v)) : ∀ p ∈ insertA m k v, P p := by
  induction m with
  | nil =>
    intro p hp
    simp only [insertA, List.mem_singleton] at hp
    subst hp
    exact hv
  | cons q rest ih =>
    obtain ⟨k', v'⟩ := q
    intro p hp
    by_cases h0 : k' = k
    · subst h0
      rw [insertA_cons_self] at hp
      rcases List.mem_cons.mp hp with h1 | h1
      · subst h1
        exact hv
      · exact hm p (List.mem_cons_of_mem _ h1)
    · rw [insertA_cons_ne _ _ _ _ _ h0] at hp
      rcases List.mem_cons.mp hp with h1 | h1
      · subst h1
        exact hm _ (List.mem_cons_self _ _)
      · exact ih (fun q hq => hm q (List.mem_cons_of_mem _ hq)) p h1

theorem mem_keysA_iff_lookupA {m : List (κ × α)} {k : κ} :
    k ∈ keysA m ↔ lookupA m k ≠ none := by
  rw [Ne, lookupA_eq_none_iff]
  tauto

theorem mem_keysA_insertA {m : List (κ × α)} {k k' : κ} {v : α} :
    k' ∈ keysA (insertA m k v) ↔ k' = k ∨ k' ∈ keysA m := by
  by_cases h : k' = k
  · subst h
    simp [mem_keysA_iff_lookupA]
  · rw [mem_keysA_iff_lookupA, lookupA_insertA_ne m k k' v h, ← mem_keysA_iff_lookupA]
    tauto

theorem keysA_insertA_nodup {m : List (κ × α)} {k : κ} {v : α}
    (h : (keysA m).Nodup) : (keysA (insertA m k v)).Nodup := by
  induction m with
  | nil => simp [insertA, keysA]
  | cons q rest ih =>
    obtain ⟨k', v'⟩ := q
    simp only [keysA, List.map_cons, List.nodup_cons] at h
    by_cases h0 : k' = k
    · subst h0
      rw [insertA_cons_self]
      simp only [keysA, List.map_cons, List.nodup_cons]
      exact ⟨h.1, h.2⟩
    · rw [insertA_cons_ne _ _ _ _ _ h0]
      simp only [keysA, List.map_cons, List.nodup_cons]
      refine ⟨?_, ih h.2⟩
      intro hmem
      rcases mem_keysA_insertA.mp hmem with h1 | h1
      · exact h0 h1
      · exact h.1 h1

theorem keysA_eraseA_nodup {m : List (κ × α)} {k : κ}
    (h : (keysA m).Nodup) : (keysA (eraseA m k)).Nodup := by
  have hsub : List.Sublist (eraseA m k) m := List.filter_sublist m
  exact h.sublist (hsub.map Prod.fst)

theorem eraseA_of_not_mem {m : List (κ × α)} {k : κ}
    (h : k ∉ keysA m) : eraseA m k = m := by
  induction m with
  | nil => simp [eraseA]
  | cons q rest ih =>
    obtain ⟨k', v'⟩ := q
    simp only [keysA, List.map_cons, List.mem_cons] at h
    push_neg at h
    have h1 : k' ≠ k := fun hh => h.1 hh.symm
    rw [eraseA_cons_ne _ _ _ _ h1, ih h.2]

theorem valuesA_perm_of_lookup {m : List (κ × α)} {k : κ} {v : α}
    (hn : (keysA m).Nodup) (h : lookupA m k = some v) :
    List.Perm (valuesA m) (v :: valuesA (eraseA m k)) := by
  induction m with
  | nil => simp [lookupA] at h
  | cons q rest ih =>
    obtain ⟨k', v'⟩ := q
    simp only [keysA, List.map_cons, List.nodup_cons] at hn
    by_cases h0 : k' = k
    · subst h0
      rw [lookupA_cons, if_pos rfl, Option.some.injEq] at h
      subst h
      rw [eraseA_cons_self, eraseA_of_not_mem hn.1]
      simp [valuesA]
    · rw [lookupA_cons, if_neg h0] at h
      rw [eraseA_cons_ne _ _ _ _ h0]
      have hperm := List.Perm.cons v' (ih hn.2 h)
      refine hperm.trans ?_
      exact List.Perm.swap v v' _

end GoMapLemmas

/-! ## Data model -/

/-- `types.Email` of the identity store. -/
structure AwsEmail where
  primary : Bool
  type : String
  value : String
deriving DecidableEq, Repr

/-- `types.ExternalId` of the identity store. -/
structure AwsExternalId where
  id : String
  issuer : String
deriving DecidableEq, Repr

/-- `types.User` of the identity store (the fields the program uses). -/
structure AwsUser where
  userName : String
  userId : Nat
  displayName : String
  givenName : String
  familyName : String
  emails : List AwsEmail
  externalIds : List AwsExternalId
deriving DecidableEq, Repr

/-- `types.Group` of the identity store. -/
structure AwsGroup where
  groupId : Nat
  displayName : String
  description : String
deriving DecidableEq, Repr

/-- The `types.MemberId` union: the expected user-id variant or any other
variant (e.g. `UnknownUnionMember`). -/
inductive MemberId where
  | userId : Nat → MemberId
  | other : MemberId
deriving DecidableEq, Repr

/-- `types.GroupMembership` of the identity store. -/
structure GroupMembership where
  membershipId : Nat
  groupId : Nat
  memberId : MemberId
deriving DecidableEq, Repr

/-- The target (identity-store) snapshot: what `GetUsers`, `GetGroups` and
`GetGroupMembers` drain. -/
structure TargetSnapshot where
  users : List AwsUser
  groups : List AwsGroup
  memberships : List GroupMembership
deriving DecidableEq, Repr

/-- `admin.User` of the Google directory (the fields the program uses). -/
structure GoogleUser where
  primaryEmail : String
  givenName : String
  familyName : String
  suspended : Bool
  id : String
deriving DecidableEq, Repr

/-- `admin.Group` of the Google directory. -/
structure AdminGroup where
  name : String
  email : String
  description : String
deriving DecidableEq, Repr

/-- The source (Google Workspace) snapshot.  Group members are keyed by the
group's email, which is how the directory API addresses a group. -/
structure SourceSnapshot where
  deletedUsers : List GoogleUser
  users : List GoogleUser
  groups : List AdminGroup
  members : List (String × String)
deriving DecidableEq, Repr

/-- The configuration the reconciler consults. -/
structure Config where
  ignoreUsers : List String
  ignoreGroups : List String
deriving DecidableEq, Repr

/-- Per-entity outcomes of the fallible mutating calls. -/
structure Env where
  createUserFails : String → Bool
  createGroupFails : String → Bool
  addMemberFails : Nat → Nat → Bool
  removeMembershipFails : Nat → Bool
  deleteUserFails : Nat → Bool
  deleteGroupFails : Nat → Bool

/-- The environment in which every mutation succeeds. -/
def envOk : Env :=
  { createUserFails := fun _ => false
    createGroupFails := fun _ => false
    addMemberFails := fun _ _ => false
    removeMembershipFails := fun _ => false
    deleteUserFails := fun _ => false
    deleteGroupFails := fun _ => false }

/-- One mutating call to the target adapter, as issued. -/
inductive Op where
  | createUser : AwsUser → Op
  | deleteUser : AwsUser → Op
  | createGroup : String → String → Op
  | deleteGroup : AwsGroup → Op
  | addUserToGroup : AwsUser → AwsGroup → Op
  | removeGroupMembership : GroupMembership → Op
deriving DecidableEq, Repr

/-- The ways a run aborts.  `panic` models a nil-pointer dereference. -/
inductive SyncErr where
  | panic : SyncErr
  | removeMemberFailed : SyncErr
  | addMemberFailed : SyncErr
  | deleteGroupFailed : SyncErr
  | deleteUserFailed : SyncErr
deriving DecidableEq, Repr

/-! ## Fresh identifiers -/

def memberIdVal : MemberId → Nat
  | MemberId.userId v => v
  | MemberId.other => 0

/-- Every identifier occurring in a target snapshot. -/
def targetIds (T : TargetSnapshot) : List Nat :=
  T.users.map (fun u => u.userId) ++ T.groups.map (fun g => g.groupId) ++
  T.memberships.map (fun m => m.membershipId) ++ T.memberships.map (fun m => memberIdVal m.memberId)

/-- First identifier strictly above everything in the snapshot. -/
def freshBase (T : TargetSnapshot) : Nat :=
  (targetIds T).foldr max 0 + 1

/-! ## The interpreter -/

/-- Threaded run state: the live target store, the trace of mutating calls
issued so far, and the next fresh identifier. -/
structure St where
  store : TargetSnapshot
  ops : List Op
  nextId : Nat
deriving Repr

/-- `syncGSuite.ignoreUser`: exact string comparison against the ignore list. -/
def ignoreUser (cfg : Config) (name : String) : Bool :=
  cfg.ignoreUsers.contains name

/-- `syncGSuite.ignoreGroup`: exact string comparison against the ignore list. -/
def ignoreGroup (cfg : Config) (name : String) : Bool :=
  cfg.ignoreGroups.contains name

/-- The `UserSyncResult` record of the program. -/
structure UserSyncResult where
  index : List (String × AwsUser)
  toDelete : List AwsUser
  indexByUserId : List (Nat × AwsUser)
deriving DecidableEq, Repr

/-- The initial index build of `SyncUsers`: every listed target user is put in
`index` under its username and in `indexByUserId` under its id. -/
def buildUserIndex (awsUsers : List AwsUser) : UserSyncResult :=
  awsUsers.foldl
    (fun r u =>
      { r with
        index := insertA r.index u.userName u
        indexByUserId := insertA r.indexByUserId u.userId u })
    { index := [], toDelete := [], indexByUserId := [] }

/-- One iteration of the tombstone loop of `SyncUsers`: a deleted source user
whose primary email is in the index marks that target user for deletion. -/
def tombstoneStep (r : UserSyncResult) (d : GoogleUser) : UserSyncResult :=
  match lookupA r.index d.primaryEmail with
  | some userInAWS => { r with toDelete := r.toDelete ++ [userInAWS] }
  | none => r

/-- The `types.User` that `SyncUsers` constructs for a new source user. -/
def newUserFor (u : GoogleUser) : AwsUser :=
  { userName := u.primaryEmail
    userId := 0
    displayName := u.givenName ++ " " ++ u.familyName
    givenName := u.givenName
    familyName := u.familyName
    emails := [{ primary := true, type := "work", value := u.primaryEmail }]
    externalIds := [{ id := u.id, issuer := "Google" }] }

/-- State threaded through the active-user loop of `SyncUsers`. -/
structure UserPhaseState where
  r : UserSyncResult
  st : St
deriving Repr

/-- The user as the store persists it: `CreateUser` sends only display name,
username, name and emails, not the external ids. -/
def storedUser (added : AwsUser) : AwsUser :=
  { added with externalIds := [] }

/-- One iteration of the active-user loop of `SyncUsers`. -/
def activeStep (cfg : Config) (env : Env) (s : UserPhaseState) (u : GoogleUser) :
    UserPhaseState :=
  if ignoreUser cfg u.primaryEmail then s
  else
    match lookupA s.r.index u.primaryEmail with
    | some userInAWS =>
      if u.suspended then
        { s with r := { s.r with toDelete := s.r.toDelete ++ [userInAWS] } }
      else s
    | none =>
      if u.suspended then s
      else
        let userToAdd := newUserFor u
        let st1 : St := { s.st with ops := s.st.ops ++ [Op.createUser userToAdd] }
        if env.createUserFails u.primaryEmail then { s with st := st1 }
        else
          let added : AwsUser := { userToAdd with userId := st1.nextId }
          { r := { s.r with
                    index := insertA s.r.index u.primaryEmail added
                    indexByUserId := insertA s.r.indexByUserId added.userId added }
            st := { store := { st1.store with users := st1.store.users ++ [storedUser added] }
                    ops := st1.ops
                    nextId := st1.nextId + 1 } }

/-- `syncGSuite.SyncUsers`. -/
def syncUsers (cfg : Config) (env : Env) (S : SourceSnapshot) (st : St) :
    UserPhaseState :=
  let r0 := buildUserIndex st.store.users
  let r1 := S.deletedUsers.foldl tombstoneStep r0
  S.users.foldl (activeStep cfg env) { r := r1, st := st }

/-- The target-group index of `SyncGroups`, keyed by display name. -/
def buildGroupsIndex (awsGroups : List AwsGroup) : List (String × AwsGroup) :=
  awsGroups.foldl (fun m g => insertA m g.displayName g) []

/-- State threaded through the Google-group loop of `SyncGroups`. -/
structure GroupPhaseState where
  gIndex : List (String × AwsGroup)
  ggIndex : List (String × AdminGroup)
  st : St
deriving Repr

/-- One iteration of the Google-group loop of `SyncGroups`: skip groups whose
email is ignored, record the rest by name, and create the ones missing from
the target index. -/
def groupCreateStep (cfg : Config) (env : Env) (s : GroupPhaseState)
    (g : AdminGroup) : GroupPhaseState :=
  if ignoreGroup cfg g.email then s
  else
    let s' : GroupPhaseState := { s with ggIndex := insertA s.ggIndex g.name g }
    match lookupA s'.gIndex g.name with
    | some _ => s'
    | none =>
      let st1 : St := { s'.st with ops := s'.st.ops ++ [Op.createGroup g.name g.description] }
      if env.createGroupFails g.name then { s' with st := st1 }
      else
        let gg : AwsGroup := { groupId := st1.nextId, displayName := g.name, description := g.description }
        { gIndex := insertA s'.gIndex gg.displayName gg
          ggIndex := s'.ggIndex
          st := { store := { st1.store with groups := st1.store.groups ++ [gg] }
                  ops := st1.ops
                  nextId := st1.nextId + 1 } }

/-- The Google-group loop of `SyncGroups` over the whole source listing. -/
def groupCreatePhase (cfg : Config) (env : Env) (S : SourceSnapshot)
    (gIndex0 : List (String × AwsGroup)) (st : St) : GroupPhaseState :=
  S.groups.foldl (groupCreateStep cfg env) { gIndex := gIndex0, ggIndex := [], st := st }

/-- One iteration of the deletion loop of `SyncGroups`: a listed target group
whose display name is not in the Google-group index is marked for deletion and
removed from the working index. -/
def deletionStep (ggIndex : List (String × AdminGroup))
    (s : List AwsGroup × List (String × AwsGroup)) (g : AwsGroup) :
    List AwsGroup × List (String × AwsGroup) :=
  match lookupA ggIndex g.displayName with
  | some _ => s
  | none => (s.1 ++ [g], eraseA s.2 g.displayName)

/-- The deletion loop of `SyncGroups` over the whole target listing. -/
def deletionPhase (ggIndex : List (String × AdminGroup)) (awsGroups : List AwsGroup)
    (gIndex : List (String × AwsGroup)) :
    List AwsGroup × List (String × AwsGroup) :=
  awsGroups.foldl (deletionStep ggIndex) ([], gIndex)

/-- The desired-membership map of `SyncMembershipsForGroup`: source members of
the group that resolve in the reconciled username index. -/
def buildMemberList (S : SourceSnapshot) (usr : UserSyncResult) (gg : AdminGroup) :
    List (String × AwsUser) :=
  ((S.members.filter (fun p => p.1 == gg.email)).map Prod.snd).foldl
    (fun ml m =>
      match lookupA usr.index m with
      | some val => insertA ml m val
      | none => ml)
    []

/-- One iteration of the diff loop of `SyncMembershipsForGroup`.  `none` is the
panic state: a member id of an unexpected variant fails the type assertion and
the subsequent dereference of the nil result panics. -/
def diffStep (usr : UserSyncResult)
    (acc : Option (List GroupMembership × List (String × AwsUser)))
    (m : GroupMembership) :
    Option (List GroupMembership × List (String × AwsUser)) :=
  match acc with
  | none => none
  | some (toDel, ml) =>
    match m.memberId with
    | MemberId.other => none
    | MemberId.userId v =>
      match lookupA usr.indexByUserId v with
      | none => some (toDel ++ [m], ml)
      | some user =>
        let toDel' := if (lookupA ml user.userName).isNone then toDel ++ [m] else toDel
        some (toDel', eraseA ml user.userName)

/-- The removal loop of `SyncMembershipsForGroup`: each removal is issued, and
a failure aborts the group's reconciliation. -/
def applyRemovals (env : Env) : List GroupMembership → St → St × Option SyncErr
  | [], st => (st, none)
  | m :: rest, st =>
    let st1 : St := { st with ops := st.ops ++ [Op.removeGroupMembership m] }
    if env.removeMembershipFails m.membershipId then (st1, some SyncErr.removeMemberFailed)
    else
      let st2 : St :=
        { st1 with
          store := { st1.store with
            memberships := st1.store.memberships.filter
              (fun x => decide (x.membershipId ≠ m.membershipId)) } }
      applyRemovals env rest st2

/-- The addition loop of `SyncMembershipsForGroup`: each addition is issued,
and a failure aborts the group's reconciliation. -/
def applyAdditions (env : Env) (awsGroup : AwsGroup) :
    List AwsUser → St → St × Option SyncErr
  | [], st => (st, none)
  | u :: rest, st =>
    let st1 : St := { st with ops := st.ops ++ [Op.addUserToGroup u awsGroup] }
    if env.addMemberFails awsGroup.groupId u.userId then (st1, some SyncErr.addMemberFailed)
    else
      let st2 : St :=
        { st1 with
          store := { st1.store with
            memberships := st1.store.memberships ++
              [{ membershipId := st1.nextId, groupId := awsGroup.groupId,
                 memberId := MemberId.userId u.userId }] }
          nextId := st1.nextId + 1 }
      applyAdditions env awsGroup rest st2

/-- `syncGSuite.SyncMembershipsForGroup`.  A `none` source group is
dereferenced immediately (`log.WithField("group", googleGroup.Name)`), which
panics. -/
def syncMembershipsForGroup (env : Env) (S : SourceSnapshot) (usr : UserSyncResult)
    (googleGroup : Option AdminGroup) (awsGroup : AwsGroup) (st : St) :
    St × Option SyncErr :=
  match googleGroup with
  | none => (st, some SyncErr.panic)
  | some gg =>
    let ml0 := buildMemberList S usr gg
    let awsMembers := st.store.memberships.filter (fun m => m.groupId == awsGroup.groupId)
    match awsMembers.foldl (diffStep usr) (some ([], ml0)) with
    | none => (st, some SyncErr.panic)
    | some (toDel, remaining) =>
      match applyRemovals env toDel st with
      | (st', some e) => (st', some e)
      | (st', none) => applyAdditions env awsGroup (valuesA remaining) st'

/-- The per-group membership loop of `SyncGroups`: each surviving group is
reconciled against the Google group found under its display name. -/
def membershipLoop (env : Env) (S : SourceSnapshot) (usr : UserSyncResult)
    (ggIndex : List (String × AdminGroup)) :
    List (String × AwsGroup) → St → St × Option SyncErr
  | [], st => (st, none)
  | (_, g) :: rest, st =>
    match syncMembershipsForGroup env S usr (lookupA ggIndex g.displayName) g st with
    | (st', some e) => (st', some e)
    | (st', none) => membershipLoop env S usr ggIndex rest st'

/-- The group-deletion loop of `SyncGroups`: each deletion is issued, and a
failure aborts the run. -/
def groupDeleteLoop (env : Env) : List AwsGroup → St → St × Option SyncErr
  | [], st => (st, none)
  | g :: rest, st =>
    let st1 : St := { st with ops := st.ops ++ [Op.deleteGroup g] }
    if env.deleteGroupFails g.groupId then (st1, some SyncErr.deleteGroupFailed)
    else
      let st2 : St :=
        { st1 with
          store := { st1.store with
            groups := st1.store.groups.filter (fun x => decide (x.groupId ≠ g.groupId))
            memberships := st1.store.memberships.filter (fun m => decide (m.groupId ≠ g.groupId)) } }
      groupDeleteLoop env rest st2

/-- `syncGSuite.SyncGroups`. -/
def syncGroups (cfg : Config) (env : Env) (S : SourceSnapshot) (usr : UserSyncResult)
    (st : St) : St × Option SyncErr :=
  let awsGroups := st.store.groups
  let s1 := groupCreatePhase cfg env S (buildGroupsIndex awsGroups) st
  let del := deletionPhase s1.ggIndex awsGroups s1.gIndex
  match membershipLoop env S usr s1.ggIndex del.2 s1.st with
  | (st', some e) => (st', some e)
  | (st', none) => groupDeleteLoop env del.1 st'

/-- `syncGSuite.RemoveUsers`. -/
def removeUsers (env : Env) : List AwsUser → St → St × Option SyncErr
  | [], st => (st, none)
  | u :: rest, st =>
    let st1 : St := { st with ops := st.ops ++ [Op.deleteUser u] }
    if env.deleteUserFails u.userId then (st1, some SyncErr.deleteUserFailed)
    else
      let st2 : St :=
        { st1 with
          store := { st1.store with
            users := st1.store.users.filter (fun x => decide (x.userId ≠ u.userId))
            memberships := st1.store.memberships.filter
              (fun m => decide (m.memberId ≠ MemberId.userId u.userId)) } }
      removeUsers env rest st2

/-- The filtered Google-group index: the value the `googleGroupsIndex` map of
`SyncGroups` has after its Google-group loop (groups with ignored emails are
skipped; the rest are recorded under their name). -/
def filteredIdx (cfg : Config) (S : SourceSnapshot) : List (String × AdminGroup) :=
  S.groups.foldl (fun m g => if ignoreGroup cfg g.email then m else insertA m g.name g) []

/-- The outcome of a full `DoSync` run. -/
structure RunResult where
  usr : UserSyncResult
  ops : List Op
  store : TargetSnapshot
  err : Option SyncErr
deriving DecidableEq, Repr

/-- `DoSync`: user reconciliation, then group (and per-group membership)
reconciliation, then the pending user deletions. -/
def doSync (cfg : Config) (env : Env) (S : SourceSnapshot) (T : TargetSnapshot) :
    RunResult :=
  let ust := syncUsers cfg env S { store := T, ops := [], nextId := freshBase T }
  match syncGroups cfg env S ust.r ust.st with
  | (st', some e) => { usr := ust.r, ops := st'.ops, store := st'.store, err := some e }
  | (st', none) =>
    match removeUsers env ust.r.toDelete st' with
    | (st2, e) => { usr := ust.r, ops := st2.ops, store := st2.store, err := e }

/-- Modelled from the spec: "any target group whose display name has no entry
in the *unfiltered* source-group index" -- the index of every source group by
display name, with no ignore-list filtering.  Used only to compare the spec's
deletion rule with the implemented one. -/
def specUnfilteredGroupIndex (S : SourceSnapshot) : List (String × AdminGroup) :=
  S.groups.foldl (fun m g => insertA m g.name g) []

/-- The key of every index entry is the entry's username, and every
`indexByUserId` entry is keyed by its user id. -/
def IndexKV (r : UserSyncResult) : Prop :=
  (∀ k w, lookupA r.index k = some w → w.userName = k) ∧
  (∀ k w, lookupA r.indexByUserId k = some w → w.userId = k)

/-- The two user indexes are keyed correctly and agree with each other. -/
def PerfectIdx (r : UserSyncResult) : Prop :=
  IndexKV r ∧
  (∀ k w, lookupA r.index k = some w → lookupA r.indexByUserId w.userId = some w) ∧
  (∀ v w, lookupA r.indexByUserId v = some w → lookupA r.index w.userName = some w)

/-- Every entry of a group index is keyed by its display name. -/
def GroupKV (m : List (String × AwsGroup)) : Prop :=
  ∀ k g, lookupA m k = some g → g.displayName = k

/-- Every membership carries the expected user-id member variant. -/
def AllUserId (ms : List GroupMembership) : Prop :=
  ∀ m ∈ ms, ∃ v, m.memberId = MemberId.userId v

/-- The memberships a target snapshot holds for one group id. -/
def msOf (T : TargetSnapshot) (i : Nat) : List GroupMembership :=
  T.memberships.filter (fun m => m.groupId == i)

/-- The member-id values a desired-membership map asks for. -/
def mlIds (ml : List (String × AwsUser)) : List Nat :=
  (valuesA ml).map (fun u => u.userId)

def userNames (l : List AwsUser) : List String := l.map (fun u => u.userName)

def userIds (l : List AwsUser) : List Nat := l.map (fun u => u.userId)

def groupNames (l : List AwsGroup) : List String := l.map (fun g => g.displayName)

/-- The member emails the source lists for one group. -/
def memberEmails (S : SourceSnapshot) (gg : AdminGroup) : List String :=
  (S.members.filter (fun p => p.1 == gg.email)).map Prod.snd

def midsOf (ms : List GroupMembership) : List MemberId :=
  ms.map (fun m => m.memberId)

/-- The memberships a target snapshot holds for group `i` agree, as a multiset
of member identifiers, with the desired member list of the source group. -/
def MsMatch (S : SourceSnapshot) (usr : UserSyncResult) (gg : AdminGroup)
    (ms : List GroupMembership) : Prop :=
  List.Perm (midsOf ms)
    ((valuesA (buildMemberList S usr gg)).map (fun u => MemberId.userId u.userId))

/-- Every desired-membership entry is an index entry at its key. -/
def MLGood (usr : UserSyncResult) (ml : List (String × AwsUser)) : Prop :=
  ∀ n u, lookupA ml n = some u → lookupA usr.index n = some u


def groupIds (l : List AwsGroup) : List Nat := l.map (fun g => g.groupId)

/-- A username appears among the source tombstones. -/
def Tombstoned (S : SourceSnapshot) (n : String) : Prop :=
  ∃ d ∈ S.deletedUsers, d.primaryEmail = n

/-- A username is listed by the source as a suspended, non-ignored user. -/
def SuspListed (cfg : Config) (S : SourceSnapshot) (n : String) : Prop :=
  ∃ gu ∈ S.users, ignoreUser cfg gu.primaryEmail = false ∧ gu.suspended = true ∧
    gu.primaryEmail = n

/-- A username is listed by the source as an active, non-ignored user. -/
def ActiveListed (cfg : Config) (S : SourceSnapshot) (n : String) : Prop :=
  ∃ gu ∈ S.users, ignoreUser cfg gu.primaryEmail = false ∧ gu.suspended = false ∧
    gu.primaryEmail = n

/-- The username index and a user listing agree name-for-name on user ids. -/
def IdxStore (r : UserSyncResult) (us : List AwsUser) : Prop :=
  (∀ n w, lookupA r.index n = some w → ∃ u ∈ us, u.userName = n ∧ u.userId = w.userId) ∧
  (∀ u ∈ us, ∃ w, lookupA r.index u.userName = some w ∧ w.userId = u.userId)

/-- A working group index and a group listing agree entry-for-entry. -/
def GIdxStore (m : List (String × AwsGroup)) (gs : List AwsGroup) : Prop :=
  (∀ k g, lookupA m k = some g → g ∈ gs) ∧
  (∀ g ∈ gs, lookupA m g.displayName = some g)

/-! ## Trace structure: the user phase -/

/-- Case analysis of one active-user iteration. -/
theorem activeStep_cases (cfg : Config) (env : Env) (s : UserPhaseState) (u : GoogleUser) :
    (ignoreUser cfg u.primaryEmail = true ∧ activeStep cfg env s u = s) ∨
    (ignoreUser cfg u.primaryEmail = false ∧ ∃ w, lookupA s.r.index u.primaryEmail = some w ∧
        ((u.suspended = true ∧ activeStep cfg env s u =
            { s with r := { s.r with toDelete := s.r.toDelete ++ [w] } }) ∨
         (u.suspended = false ∧ activeStep cfg env s u = s))) ∨
    (ignoreUser cfg u.primaryEmail = false ∧ lookupA s.r.index u.primaryEmail = none ∧
        ((u.suspended = true ∧ activeStep cfg env s u = s) ∨
         (u.suspended = false ∧ env.createUserFails u.primaryEmail = true ∧
            activeStep cfg env s u =
              { s with st := { s.st with ops := s.st.ops ++ [Op.createUser (newUserFor u)] } }) ∨
         (u.suspended = false ∧ env.createUserFails u.primaryEmail = false ∧
            activeStep cfg env s u =
              { r := { s.r with
                        index := insertA s.r.index u.primaryEmail
                          { newUserFor u with userId := s.st.nextId }
                        indexByUserId := insertA s.r.indexByUserId s.st.nextId
                          { newUserFor u with userId := s.st.nextId } }
                st := { store := { s.st.store with
                          users := s.st.store.users ++
                            [storedUser { newUserFor u with userId := s.st.nextId }] }
                        ops := s.st.ops ++ [Op.createUser (newUserFor u)]
                        nextId := s.st.nextId + 1 } }))) := by
  by_cases hig : ignoreUser cfg u.primaryEmail
  · exact Or.inl ⟨hig, by simp [activeStep, hig]⟩
  · cases hlk : lookupA s.r.index u.primaryEmail with
    | some w =>
      refine Or.inr (Or.inl ⟨by simpa using hig, w, rfl, ?_⟩)
      by_cases hs : u.suspended
      · exact Or.inl ⟨hs, by simp [activeStep, hig, hlk, hs]⟩
      · exact Or.inr ⟨by simpa using hs, by simp [activeStep, hig, hlk, hs]⟩
    | none =>
      refine Or.inr (Or.inr ⟨by simpa using hig, rfl, ?_⟩)
      by_cases hs : u.suspended
      · exact Or.inl ⟨hs, by simp [activeStep, hig, hlk, hs]⟩
      · by_cases hf : env.createUserFails u.primaryEmail
        · exact Or.inr (Or.inl ⟨by simpa using hs, hf, by simp [activeStep, hig, hlk, hs, hf]⟩)
        · refine Or.inr (Or.inr ⟨by simpa using hs, by simpa using hf, ?_⟩)
          simp [activeStep, hig, hlk, hs, hf]

/-- The active-user loop only appends `CreateUser` calls, for non-ignored,
non-suspended source users. -/
theorem activeLoop_ops (cfg : Config) (env : Env) (us : List GoogleUser)
    (s : UserPhaseState) :
    ∃ δ, (us.foldl (activeStep cfg env) s).st.ops = s.st.ops ++ δ ∧
      ∀ op ∈ δ, ∃ u ∈ us, op = Op.createUser (newUserFor u) ∧
        ignoreUser cfg u.primaryEmail = false ∧ u.suspended = false := by
  induction us generalizing s with
  | nil => exact ⟨[], by simp, by simp⟩
  | cons u rest ih =>
    have hstep : ∃ δ₀, (activeStep cfg env s u).st.ops = s.st.ops ++ δ₀ ∧
        ∀ op ∈ δ₀, op = Op.createUser (newUserFor u) ∧
          ignoreUser cfg u.primaryEmail = false ∧ u.suspended = false := by
      rcases activeStep_cases cfg env s u with ⟨_, he⟩ | ⟨hig, w, _, ⟨_, he⟩ | ⟨_, he⟩⟩ |
        ⟨hig, _, ⟨_, he⟩ | ⟨hs, hf, he⟩ | ⟨hs, hf, he⟩⟩
      · exact ⟨[], by simp [he], by simp⟩
      · exact ⟨[], by simp [he], by simp⟩
      · exact ⟨[], by simp [he], by simp⟩
      · exact ⟨[], by simp [he], by simp⟩
      · exact ⟨[Op.createUser (newUserFor u)], by simp [he], by simp [hig, hs]⟩
      · exact ⟨[Op.createUser (newUserFor u)], by simp [he], by simp [hig, hs]⟩
    obtain ⟨δ₀, he₀, hp₀⟩ := hstep
    obtain ⟨δ₁, he₁, hp₁⟩ := ih (activeStep cfg env s u)
    refine ⟨δ₀ ++ δ₁, ?_, ?_⟩
    · simp only [List.foldl_cons, he₁, he₀, List.append_assoc]
    · intro op hop
      rcases List.mem_append.mp hop with h | h
      · obtain ⟨h1, h2, h3⟩ := hp₀ op h
        exact ⟨u, List.mem_cons_self _ _, h1, h2, h3⟩
      · obtain ⟨v, hv, h1⟩ := hp₁ op h
        exact ⟨v, List.mem_cons_of_mem _ hv, h1⟩

/-- The active-user loop never removes or overwrites an index entry. -/
theorem activeLoop_index_mono (cfg : Config) (env : Env) (us : List GoogleUser)
    (s : UserPhaseState) (k : String) (w : AwsUser)
    (h : lookupA s.r.index k = some w) :
    lookupA ((us.foldl (activeStep cfg env) s).r.index) k = some w := by
  induction us generalizing s with
  | nil => simpa using h
  | cons u rest ih =>
    have hstep : lookupA ((activeStep cfg env s u).r.index) k = some w := by
      rcases activeStep_cases cfg env s u with ⟨_, he⟩ | ⟨_, w', _, ⟨_, he⟩ | ⟨_, he⟩⟩ |
        ⟨_, hlk, ⟨_, he⟩ | ⟨_, _, he⟩ | ⟨_, _, he⟩⟩
      · rw [he]; exact h
      · rw [he]; exact h
      · rw [he]; exact h
      · rw [he]; exact h
      · rw [he]; exact h
      · rw [he]
        simp only
        have hk : k ≠ u.primaryEmail := by
          intro hkk
          subst hkk
          rw [h] at hlk
          exact Option.noConfusion hlk
        rw [lookupA_insertA_ne _ _ _ _ hk]
        exact h
    simpa using ih (activeStep cfg env s u) hstep

theorem lookupA_of_kv {m : List (String × AwsUser)} {k : String} {w : AwsUser}
    (hkv : ∀ k' w', lookupA m k' = some w' → w'.userName = k')
    (h : lookupA m k = some w) : w.userName = k := hkv k w h

theorem buildUserIndex_kv (l : List AwsUser) : IndexKV (buildUserIndex l) := by
  suffices h : ∀ r : UserSyncResult, IndexKV r →
      IndexKV (l.foldl (fun r u =>
        { r with index := insertA r.index u.userName u
                 indexByUserId := insertA r.indexByUserId u.userId u }) r) by
    refine h _ ?_
    constructor <;> intro k w hw <;> simp [lookupA] at hw
  induction l with
  | nil => intro r hr; simpa using hr
  | cons u rest ih =>
    intro r hr
    refine ih _ ⟨?_, ?_⟩
    · intro k w hw
      by_cases hk : k = u.userName
      · subst hk
        simp only [lookupA_insertA_self, Option.some.injEq] at hw
        subst hw; rfl
      · rw [lookupA_insertA_ne _ _ _ _ (by simpa using hk)] at hw
        exact hr.1 k w hw
    · intro k w hw
      by_cases hk : k = u.userId
      · subst hk
        simp only [lookupA_insertA_self, Option.some.injEq] at hw
        subst hw; rfl
      · rw [lookupA_insertA_ne _ _ _ _ (by simpa using hk)] at hw
        exact hr.2 k w hw

theorem activeStep_kv (cfg : Config) (env : Env) (s : UserPhaseState) (u : GoogleUser)
    (h : IndexKV s.r) : IndexKV (activeStep cfg env s u).r := by
  rcases activeStep_cases cfg env s u with ⟨_, he⟩ | ⟨_, w', _, ⟨_, he⟩ | ⟨_, he⟩⟩ |
    ⟨_, hlk, ⟨_, he⟩ | ⟨_, _, he⟩ | ⟨_, _, he⟩⟩ <;> rw [he]
  · exact h
  · exact ⟨h.1, h.2⟩
  · exact h
  · exact h
  · exact h
  · constructor
    · intro k w hw
      simp only at hw
      by_cases hk : k = u.primaryEmail
      · subst hk
        simp only [lookupA_insertA_self, Option.some.injEq] at hw
        subst hw
        simp [newUserFor]
      · rw [lookupA_insertA_ne _ _ _ _ (by simpa using hk)] at hw
        exact h.1 k w hw
    · intro k w hw
      simp only at hw
      by_cases hk : k = s.st.nextId
      · subst hk
        simp only [lookupA_insertA_self, Option.some.injEq] at hw
        subst hw
        simp
      · rw [lookupA_insertA_ne _ _ _ _ (by simpa using hk)] at hw
        exact h.2 k w hw

theorem activeLoop_kv (cfg : Config) (env : Env) (us : List GoogleUser)
    (s : UserPhaseState) (h : IndexKV s.r) :
    IndexKV ((us.foldl (activeStep cfg env) s).r) := by
  induction us generalizing s with
  | nil => simpa using h
  | cons u rest ih => exact ih _ (activeStep_kv cfg env s u h)

/-- Pending deletions accumulated by the active-user loop come from non-ignored
suspended source users whose email matched the index. -/
theorem activeLoop_toDelete (cfg : Config) (env : Env) (us : List GoogleUser)
    (s : UserPhaseState) (hkv : IndexKV s.r) :
    ∃ δ, (us.foldl (activeStep cfg env) s).r.toDelete = s.r.toDelete ++ δ ∧
      ∀ w ∈ δ, ∃ u ∈ us, ignoreUser cfg u.primaryEmail = false ∧ u.suspended = true ∧
        w.userName = u.primaryEmail := by
  induction us generalizing s with
  | nil => exact ⟨[], by simp, by simp⟩
  | cons u rest ih =>
    have hstep : ∃ δ₀, (activeStep cfg env s u).r.toDelete = s.r.toDelete ++ δ₀ ∧
        ∀ w ∈ δ₀, ignoreUser cfg u.primaryEmail = false ∧ u.suspended = true ∧
          w.userName = u.primaryEmail := by
      rcases activeStep_cases cfg env s u with ⟨_, he⟩ | ⟨hig, w', hlk, ⟨hs, he⟩ | ⟨_, he⟩⟩ |
        ⟨_, _, ⟨_, he⟩ | ⟨_, _, he⟩ | ⟨_, _, he⟩⟩
      · exact ⟨[], by simp [he], by simp⟩
      · refine ⟨[w'], by simp [he], ?_⟩
        intro w hw
        rcases List.mem_singleton.mp hw with rfl
        exact ⟨hig, hs, hkv.1 _ _ hlk⟩
      · exact ⟨[], by simp [he], by simp⟩
      · exact ⟨[], by simp [he], by simp⟩
      · exact ⟨[], by simp [he], by simp⟩
      · exact ⟨[], by simp [he], by simp⟩
    obtain ⟨δ₀, he₀, hp₀⟩ := hstep
    obtain ⟨δ₁, he₁, hp₁⟩ := ih (activeStep cfg env s u) (activeStep_kv cfg env s u hkv)
    refine ⟨δ₀ ++ δ₁, ?_, ?_⟩
    · simp only [List.foldl_cons, he₁, he₀, List.append_assoc]
    · intro w hw
      rcases List.mem_append.mp hw with h | h
      · obtain ⟨h1, h2, h3⟩ := hp₀ w h
        exact ⟨u, List.mem_cons_self _ _, h1, h2, h3⟩
      · obtain ⟨v, hv, h1⟩ := hp₁ w h
        exact ⟨v, List.mem_cons_of_mem _ hv, h1⟩

/-- Every user marked for deletion remains in the username index. -/
theorem activeLoop_toDelete_in_index (cfg : Config) (env : Env) (us : List GoogleUser)
    (s : UserPhaseState)
    (h : ∀ w ∈ s.r.toDelete, ∃ k, lookupA s.r.index k = some w) :
    ∀ w ∈ (us.foldl (activeStep cfg env) s).r.toDelete,
      ∃ k, lookupA ((us.foldl (activeStep cfg env) s).r.index) k = some w := by
  induction us generalizing s with
  | nil => simpa using h
  | cons u rest ih =>
    refine ih (activeStep cfg env s u) ?_
    intro w hw
    rcases activeStep_cases cfg env s u with ⟨_, he⟩ | ⟨_, w', hlk, ⟨_, he⟩ | ⟨_, he⟩⟩ |
      ⟨_, hlk, ⟨_, he⟩ | ⟨_, _, he⟩ | ⟨_, _, he⟩⟩ <;> rw [he] at hw ⊢
    · exact h w hw
    · simp only at hw
      rcases List.mem_append.mp hw with h1 | h1
      · exact h w h1
      · rcases List.mem_singleton.mp h1 with rfl
        exact ⟨u.primaryEmail, hlk⟩
    · exact h w hw
    · exact h w hw
    · exact h w hw
    · obtain ⟨k, hk⟩ := h w hw
      simp only
      refine ⟨k, ?_⟩
      have hkne : k ≠ u.primaryEmail := by
        intro hkk
        subst hkk
        rw [hk] at hlk
        exact Option.noConfusion hlk
      rw [lookupA_insertA_ne _ _ _ _ hkne]
      exact hk

/-- The active-user loop leaves the groups and memberships of the store
untouched and only appends to the user listing. -/
theorem activeLoop_store (cfg : Config) (env : Env) (us : List GoogleUser)
    (s : UserPhaseState) :
    (us.foldl (activeStep cfg env) s).st.store.groups = s.st.store.groups ∧
    (us.foldl (activeStep cfg env) s).st.store.memberships = s.st.store.memberships := by
  induction us generalizing s with
  | nil => simp
  | cons u rest ih =>
    have hstep : (activeStep cfg env s u).st.store.groups = s.st.store.groups ∧
        (activeStep cfg env s u).st.store.memberships = s.st.store.memberships := by
      rcases activeStep_cases cfg env s u with ⟨_, he⟩ | ⟨_, w', _, ⟨_, he⟩ | ⟨_, he⟩⟩ |
        ⟨_, _, ⟨_, he⟩ | ⟨_, _, he⟩ | ⟨_, _, he⟩⟩ <;> rw [he] <;> simp
    obtain ⟨h1, h2⟩ := ih (activeStep cfg env s u)
    simp only [List.foldl_cons]
    rw [h1, h2, hstep.1, hstep.2]
    exact ⟨rfl, rfl⟩

/-- The tombstone loop changes only `toDelete`; each appended user was found in
the index under the tombstone's email. -/
theorem tombstoneLoop_spec (ds : List GoogleUser) (r : UserSyncResult) :
    (ds.foldl tombstoneStep r).index = r.index ∧
    (ds.foldl tombstoneStep r).indexByUserId = r.indexByUserId ∧
    ∃ δ, (ds.foldl tombstoneStep r).toDelete = r.toDelete ++ δ ∧
      ∀ w ∈ δ, ∃ d ∈ ds, lookupA r.index d.primaryEmail = some w := by
  induction ds generalizing r with
  | nil => exact ⟨rfl, rfl, [], by simp, by simp⟩
  | cons d rest ih =>
    have hstep : (tombstoneStep r d).index = r.index ∧
        (tombstoneStep r d).indexByUserId = r.indexByUserId ∧
        ∃ δ₀, (tombstoneStep r d).toDelete = r.toDelete ++ δ₀ ∧
          ∀ w ∈ δ₀, lookupA r.index d.primaryEmail = some w := by
      unfold tombstoneStep
      cases hlk : lookupA r.index d.primaryEmail with
      | some w =>
        refine ⟨rfl, rfl, [w], by simp, ?_⟩
        intro w' hw'
        rcases List.mem_singleton.mp hw' with rfl
        rfl
      | none => exact ⟨rfl, rfl, [], by simp, by simp⟩
    obtain ⟨hi, hb, δ₀, ht, hp₀⟩ := hstep
    obtain ⟨hi₁, hb₁, δ₁, ht₁, hp₁⟩ := ih (tombstoneStep r d)
    refine ⟨by simp [hi₁, hi], by simp [hb₁, hb], δ₀ ++ δ₁, ?_, ?_⟩
    · simp only [List.foldl_cons, ht₁, ht, List.append_assoc]
    · intro w hw
      rcases List.mem_append.mp hw with h | h
      · exact ⟨d, List.mem_cons_self _ _, hp₀ w h⟩
      · obtain ⟨d', hd', h1⟩ := hp₁ w h
        rw [hi] at h1
        exact ⟨d', List.mem_cons_of_mem _ hd', h1⟩

/-! ## Trace structure: the group phase -/

/-- Case analysis of one Google-group iteration. -/
theorem groupCreateStep_cases (cfg : Config) (env : Env) (s : GroupPhaseState)
    (g : AdminGroup) :
    (ignoreGroup cfg g.email = true ∧ groupCreateStep cfg env s g = s) ∨
    (ignoreGroup cfg g.email = false ∧ (∃ w, lookupA s.gIndex g.name = some w) ∧
      groupCreateStep cfg env s g = { s with ggIndex := insertA s.ggIndex g.name g }) ∨
    (ignoreGroup cfg g.email = false ∧ lookupA s.gIndex g.name = none ∧
      env.createGroupFails g.name = true ∧
      groupCreateStep cfg env s g =
        { gIndex := s.gIndex
          ggIndex := insertA s.ggIndex g.name g
          st := { s.st with ops := s.st.ops ++ [Op.createGroup g.name g.description] } }) ∨
    (ignoreGroup cfg g.email = false ∧ lookupA s.gIndex g.name = none ∧
      env.createGroupFails g.name = false ∧
      groupCreateStep cfg env s g =
        { gIndex := insertA s.gIndex g.name
            { groupId := s.st.nextId, displayName := g.name, description := g.description }
          ggIndex := insertA s.ggIndex g.name g
          st := { store := { s.st.store with
                    groups := s.st.store.groups ++
                      [{ groupId := s.st.nextId, displayName := g.name,
                         description := g.description }] }
                  ops := s.st.ops ++ [Op.createGroup g.name g.description]
                  nextId := s.st.nextId + 1 } }) := by
  by_cases hig : ignoreGroup cfg g.email
  · exact Or.inl ⟨hig, by simp [groupCreateStep, hig]⟩
  · cases hlk : lookupA s.gIndex g.name with
    | some w =>
      exact Or.inr (Or.inl ⟨by simpa using hig, ⟨w, rfl⟩,
        by simp [groupCreateStep, hig, hlk]⟩)
    | none =>
      by_cases hf : env.createGroupFails g.name
      · exact Or.inr (Or.inr (Or.inl ⟨by simpa using hig, rfl, hf,
          by simp [groupCreateStep, hig, hlk, hf]⟩))
      · exact Or.inr (Or.inr (Or.inr ⟨by simpa using hig, rfl, by simpa using hf,
          by simp [groupCreateStep, hig, hlk, hf]⟩))

/-- The `googleGroupsIndex` component evolves independently: it is the
ignore-filtered index of the source groups seen so far. -/
theorem groupCreateLoop_ggIndex (cfg : Config) (env : Env) (gs : List AdminGroup)
    (s : GroupPhaseState) :
    (gs.foldl (groupCreateStep cfg env) s).ggIndex =
      gs.foldl (fun m g => if ignoreGroup cfg g.email then m else insertA m g.name g)
        s.ggIndex := by
  induction gs generalizing s with
  | nil => rfl
  | cons g rest ih =>
    have hstep : (groupCreateStep cfg env s g).ggIndex =
        if ignoreGroup cfg g.email then s.ggIndex else insertA s.ggIndex g.name g := by
      rcases groupCreateStep_cases cfg env s g with ⟨hig, he⟩ | ⟨hig, _, he⟩ |
        ⟨hig, _, _, he⟩ | ⟨hig, _, _, he⟩ <;> rw [he] <;> simp [hig]
    simp only [List.foldl_cons]
    rw [ih, hstep]

theorem groupCreatePhase_ggIndex (cfg : Config) (env : Env) (S : SourceSnapshot)
    (gIndex0 : List (String × AwsGroup)) (st : St) :
    (groupCreatePhase cfg env S gIndex0 st).ggIndex = filteredIdx cfg S := by
  unfold groupCreatePhase filteredIdx
  exact groupCreateLoop_ggIndex cfg env S.groups _

/-- The Google-group loop only appends `CreateGroup` calls, for source groups
whose email is not ignored. -/
theorem groupCreateLoop_ops (cfg : Config) (env : Env) (gs : List AdminGroup)
    (s : GroupPhaseState) :
    ∃ δ, (gs.foldl (groupCreateStep cfg env) s).st.ops = s.st.ops ++ δ ∧
      ∀ op ∈ δ, ∃ g ∈ gs, op = Op.createGroup g.name g.description ∧
        ignoreGroup cfg g.email = false := by
  induction gs generalizing s with
  | nil => exact ⟨[], by simp, by simp⟩
  | cons g rest ih =>
    have hstep : ∃ δ₀, (groupCreateStep cfg env s g).st.ops = s.st.ops ++ δ₀ ∧
        ∀ op ∈ δ₀, op = Op.createGroup g.name g.description ∧
          ignoreGroup cfg g.email = false := by
      rcases groupCreateStep_cases cfg env s g with ⟨hig, he⟩ | ⟨hig, _, he⟩ |
        ⟨hig, _, _, he⟩ | ⟨hig, _, _, he⟩ <;> rw [he]
      · exact ⟨[], by simp, by simp⟩
      · exact ⟨[], by simp, by simp⟩
      · exact ⟨[Op.createGroup g.name g.description], by simp, by simp [hig]⟩
      · exact ⟨[Op.createGroup g.name g.description], by simp, by simp [hig]⟩
    obtain ⟨δ₀, he₀, hp₀⟩ := hstep
    obtain ⟨δ₁, he₁, hp₁⟩ := ih (groupCreateStep cfg env s g)
    refine ⟨δ₀ ++ δ₁, ?_, ?_⟩
    · simp only [List.foldl_cons, he₁, he₀, List.append_assoc]
    · intro op hop
      rcases List.mem_append.mp hop with h | h
      · obtain ⟨h1, h2⟩ := hp₀ op h
        exact ⟨g, List.mem_cons_self _ _, h1, h2⟩
      · obtain ⟨v, hv, h1⟩ := hp₁ op h
        exact ⟨v, List.mem_cons_of_mem _ hv, h1⟩

/-- The Google-group loop leaves users and memberships of the store untouched. -/
theorem groupCreateLoop_store (cfg : Config) (env : Env) (gs : List AdminGroup)
    (s : GroupPhaseState) :
    (gs.foldl (groupCreateStep cfg env) s).st.store.users = s.st.store.users ∧
    (gs.foldl (groupCreateStep cfg env) s).st.store.memberships = s.st.store.memberships := by
  induction gs generalizing s with
  | nil => exact ⟨rfl, rfl⟩
  | cons g rest ih =>
    have hstep : (groupCreateStep cfg env s g).st.store.users = s.st.store.users ∧
        (groupCreateStep cfg env s g).st.store.memberships = s.st.store.memberships := by
      rcases groupCreateStep_cases cfg env s g with ⟨_, he⟩ | ⟨_, _, he⟩ |
        ⟨_, _, _, he⟩ | ⟨_, _, _, he⟩ <;> rw [he] <;> exact ⟨rfl, rfl⟩
    obtain ⟨h1, h2⟩ := ih (groupCreateStep cfg env s g)
    simp only [List.foldl_cons]
    rw [h1, h2, hstep.1, hstep.2]
    exact ⟨rfl, rfl⟩

theorem buildGroupsIndex_kv (l : List AwsGroup) : GroupKV (buildGroupsIndex l) := by
  suffices h : ∀ m, GroupKV m → GroupKV (l.foldl (fun m g => insertA m g.displayName g) m) by
    refine h [] ?_
    intro k g hg
    simp [lookupA] at hg
  induction l with
  | nil => intro m hm; simpa using hm
  | cons g rest ih =>
    intro m hm
    refine ih _ ?_
    intro k w hw
    by_cases hk : k = g.displayName
    · subst hk
      simp only [lookupA_insertA_self, Option.some.injEq] at hw
      subst hw; rfl
    · rw [lookupA_insertA_ne _ _ _ _ (by simpa using hk)] at hw
      exact hm k w hw

theorem lookupA_insertA_ne_none {κ α : Type} [DecidableEq κ]
    {m : List (κ × α)} {k : κ} (k' : κ) (v : α)
    (h : lookupA m k ≠ none) : lookupA (insertA m k' v) k ≠ none := by
  by_cases hk : k = k'
  · subst hk
    simp
  · rw [lookupA_insertA_ne _ _ _ _ hk]
    exact h

/-- The working index stays keyed by display name, and every key it holds is a
key of the initial target index or of the Google-group index. -/
theorem groupCreateLoop_gIndex (cfg : Config) (env : Env) (gs : List AdminGroup)
    (gi0 : List (String × AwsGroup)) (s : GroupPhaseState)
    (hkv : GroupKV s.gIndex)
    (horigin : ∀ k, lookupA s.gIndex k ≠ none →
      lookupA gi0 k ≠ none ∨ lookupA s.ggIndex k ≠ none) :
    GroupKV (gs.foldl (groupCreateStep cfg env) s).gIndex ∧
    ∀ k, lookupA (gs.foldl (groupCreateStep cfg env) s).gIndex k ≠ none →
      lookupA gi0 k ≠ none ∨
      lookupA (gs.foldl (groupCreateStep cfg env) s).ggIndex k ≠ none := by
  induction gs generalizing s with
  | nil => exact ⟨hkv, horigin⟩
  | cons g rest ih =>
    have hgg : ∀ k, lookupA s.ggIndex k ≠ none →
        lookupA (groupCreateStep cfg env s g).ggIndex k ≠ none := by
      intro k hk
      rcases groupCreateStep_cases cfg env s g with ⟨_, he⟩ | ⟨_, _, he⟩ |
        ⟨_, _, _, he⟩ | ⟨_, _, _, he⟩ <;> rw [he]
      · exact hk
      · exact lookupA_insertA_ne_none _ _ hk
      · exact lookupA_insertA_ne_none _ _ hk
      · exact lookupA_insertA_ne_none _ _ hk
    have hkv' : GroupKV (groupCreateStep cfg env s g).gIndex := by
      rcases groupCreateStep_cases cfg env s g with ⟨_, he⟩ | ⟨_, _, he⟩ |
        ⟨_, _, _, he⟩ | ⟨_, _, _, he⟩ <;> rw [he]
      · exact hkv
      · exact hkv
      · exact hkv
      · intro k w hw
        simp only at hw
        by_cases hk : k = g.name
        · subst hk
          simp only [lookupA_insertA_self, Option.some.injEq] at hw
          subst hw; rfl
        · rw [lookupA_insertA_ne _ _ _ _ (by simpa using hk)] at hw
          exact hkv k w hw
    have horigin' : ∀ k, lookupA (groupCreateStep cfg env s g).gIndex k ≠ none →
        lookupA gi0 k ≠ none ∨ lookupA (groupCreateStep cfg env s g).ggIndex k ≠ none := by
      intro k hk
      rcases groupCreateStep_cases cfg env s g with ⟨_, he⟩ | ⟨_, _, he⟩ |
        ⟨_, _, _, he⟩ | ⟨_, _, _, he⟩ <;> rw [he] at hk ⊢
      · exact horigin k hk
      · simp only at hk ⊢
        rcases horigin k hk with h | h
        · exact Or.inl h
        · exact Or.inr (lookupA_insertA_ne_none _ _ h)
      · simp only at hk ⊢
        rcases horigin k hk with h | h
        · exact Or.inl h
        · exact Or.inr (lookupA_insertA_ne_none _ _ h)
      · simp only at hk ⊢
        by_cases hkg : k = g.name
        · subst hkg
          refine Or.inr ?_
          simp
        · rw [lookupA_insertA_ne _ _ _ _ hkg] at hk
          rcases horigin k hk with h | h
          · exact Or.inl h
          · exact Or.inr (lookupA_insertA_ne_none _ _ h)
    exact ih (groupCreateStep cfg env s g) hkv' horigin'

/-- Membership in the deletion set: exactly the listed target groups whose
display name is absent from the Google-group index. -/
theorem deletionPhase_mem (ggIndex : List (String × AdminGroup))
    (aws : List AwsGroup) (gi : List (String × AwsGroup)) (g : AwsGroup) :
    g ∈ (deletionPhase ggIndex aws gi).1 ↔
      g ∈ aws ∧ lookupA ggIndex g.displayName = none := by
  suffices h : ∀ acc : List AwsGroup × List (String × AwsGroup),
      g ∈ (aws.foldl (deletionStep ggIndex) acc).1 ↔
        g ∈ acc.1 ∨ (g ∈ aws ∧ lookupA ggIndex g.displayName = none) by
    have := h ([], gi)
    simpa [deletionPhase] using this
  induction aws with
  | nil => intro acc; simp
  | cons a rest ih =>
    intro acc
    have hstep : (deletionStep ggIndex acc a).1 =
        if lookupA ggIndex a.displayName = none then acc.1 ++ [a] else acc.1 := by
      unfold deletionStep
      cases hlk : lookupA ggIndex a.displayName with
      | some w => simp
      | none => simp
    simp only [List.foldl_cons]
    rw [ih (deletionStep ggIndex acc a)]
    by_cases hlk : lookupA ggIndex a.displayName = none
    · rw [hstep]
      simp only [hlk, if_pos rfl]
      constructor
      · rintro (h | h)
        · rcases List.mem_append.mp h with h1 | h1
          · exact Or.inl h1
          · rcases List.mem_singleton.mp h1 with rfl
            exact Or.inr ⟨List.mem_cons_self _ _, hlk⟩
        · exact Or.inr ⟨List.mem_cons_of_mem _ h.1, h.2⟩
      · rintro (h | h)
        · exact Or.inl (List.mem_append.mpr (Or.inl h))
        · rcases List.mem_cons.mp h.1 with h1 | h1
          · subst h1
            exact Or.inl (List.mem_append.mpr (Or.inr (List.mem_singleton.mpr rfl)))
          · exact Or.inr ⟨h1, h.2⟩
    · rw [hstep]
      simp only [hlk, if_neg (by simpa using hlk)]
      constructor
      · rintro (h | h)
        · exact Or.inl h
        · exact Or.inr ⟨List.mem_cons_of_mem _ h.1, h.2⟩
      · rintro (h | h)
        · exact Or.inl h
        · rcases List.mem_cons.mp h.1 with h1 | h1
          · subst h1
            exact absurd h.2 hlk
          · exact Or.inr ⟨h1, h.2⟩

/-- The deletion loop never adds index entries: an absent key stays absent. -/
theorem deletionLoop_none_mono (ggIndex : List (String × AdminGroup))
    (aws : List AwsGroup) (k : String) :
    ∀ acc : List AwsGroup × List (String × AwsGroup),
      lookupA acc.2 k = none → lookupA (aws.foldl (deletionStep ggIndex) acc).2 k = none := by
  induction aws with
  | nil => intro acc hacc; exact hacc
  | cons a rest ih =>
    intro acc hacc
    refine ih (deletionStep ggIndex acc a) ?_
    unfold deletionStep
    cases hlk : lookupA ggIndex a.displayName with
    | some w => exact hacc
    | none =>
      simp only
      by_cases hk : k = a.displayName
      · subst hk
        simp
      · rw [lookupA_eraseA_ne _ _ _ hk]
        exact hacc

theorem deletionPhase_idx_none (ggIndex : List (String × AdminGroup))
    (aws : List AwsGroup) (gi : List (String × AwsGroup)) (k : String)
    (h : lookupA gi k = none) :
    lookupA (deletionPhase ggIndex aws gi).2 k = none :=
  deletionLoop_none_mono ggIndex aws k ([], gi) h

/-- Keys whose display name the Google-group index does hold are untouched by
the deletion loop. -/
theorem deletionPhase_idx_kept (ggIndex : List (String × AdminGroup))
    (aws : List AwsGroup) (gi : List (String × AwsGroup)) (k : String)
    (h : lookupA ggIndex k ≠ none) :
    lookupA (deletionPhase ggIndex aws gi).2 k = lookupA gi k := by
  suffices hh : ∀ acc : List AwsGroup × List (String × AwsGroup),
      lookupA (aws.foldl (deletionStep ggIndex) acc).2 k = lookupA acc.2 k by
    exact hh ([], gi)
  induction aws with
  | nil => intro acc; rfl
  | cons a rest ih =>
    intro acc
    simp only [List.foldl_cons]
    rw [ih (deletionStep ggIndex acc a)]
    unfold deletionStep
    cases hlk : lookupA ggIndex a.displayName with
    | some w => rfl
    | none =>
      simp only
      have hk : k ≠ a.displayName := by
        intro hkk
        subst hkk
        exact h hlk
      rw [lookupA_eraseA_ne _ _ _ hk]

/-- Every target group erased by the deletion loop (name absent from the
Google-group index) is indeed gone from the working index afterwards. -/
theorem deletionPhase_idx_erased (ggIndex : List (String × AdminGroup))
    (aws : List AwsGroup) (gi : List (String × AwsGroup)) (g : AwsGroup)
    (hg : g ∈ aws) (h : lookupA ggIndex g.displayName = none) :
    lookupA (deletionPhase ggIndex aws gi).2 g.displayName = none := by
  suffices hh : ∀ (l : List AwsGroup) (acc : List AwsGroup × List (String × AwsGroup)),
      g ∈ l → lookupA (l.foldl (deletionStep ggIndex) acc).2 g.displayName = none by
    exact hh aws ([], gi) hg
  intro l
  induction l with
  | nil => intro acc hmem; simp at hmem
  | cons a rest ih =>
    intro acc hmem
    rcases List.mem_cons.mp hmem with h1 | h1
    · subst h1
      simp only [List.foldl_cons]
      refine deletionLoop_none_mono ggIndex rest g.displayName _ ?_
      unfold deletionStep
      rw [h]
      simp
    · exact ih (deletionStep ggIndex acc a) h1

/-! ## Trace structure: memberships and the deletion loops -/

/-- The removal loop emits only `RemoveGroupMembership` calls, one per
processed entry of its input. -/
theorem applyRemovals_ops (env : Env) (l : List GroupMembership) (st : St) :
    ∃ rems : List GroupMembership,
      (applyRemovals env l st).1.ops = st.ops ++ rems.map Op.removeGroupMembership ∧
      ∀ m ∈ rems, m ∈ l := by
  induction l generalizing st with
  | nil => exact ⟨[], by simp [applyRemovals], by simp⟩
  | cons m rest ih =>
    unfold applyRemovals
    by_cases hf : env.removeMembershipFails m.membershipId
    · refine ⟨[m], ?_, ?_⟩
      · simp [hf]
      · intro x hx
        rcases List.mem_singleton.mp hx with rfl
        exact List.mem_cons_self _ _
    · simp only [Bool.not_eq_true] at hf
      simp only [hf, Bool.false_eq_true, if_false]
      obtain ⟨rems, hops, hmem⟩ := ih _
      refine ⟨m :: rems, ?_, ?_⟩
      · rw [hops]
        simp
      · intro x hx
        rcases List.mem_cons.mp hx with h1 | h1
        · subst h1; exact List.mem_cons_self _ _
        · exact List.mem_cons_of_mem _ (hmem x h1)

/-- The addition loop emits only `AddUserToGroup` calls into the given group,
one per processed entry of its input. -/
theorem applyAdditions_ops (env : Env) (g : AwsGroup) (l : List AwsUser) (st : St) :
    ∃ adds : List AwsUser,
      (applyAdditions env g l st).1.ops =
        st.ops ++ adds.map (fun u => Op.addUserToGroup u g) ∧
      ∀ u ∈ adds, u ∈ l := by
  induction l generalizing st with
  | nil => exact ⟨[], by simp [applyAdditions], by simp⟩
  | cons u rest ih =>
    unfold applyAdditions
    by_cases hf : env.addMemberFails g.groupId u.userId
    · refine ⟨[u], ?_, ?_⟩
      · simp [hf]
      · intro x hx
        rcases List.mem_singleton.mp hx with rfl
        exact List.mem_cons_self _ _
    · simp only [Bool.not_eq_true] at hf
      simp only [hf, Bool.false_eq_true, if_false]
      obtain ⟨adds, hops, hmem⟩ := ih _
      refine ⟨u :: adds, ?_, ?_⟩
      · rw [hops]
        simp
      · intro x hx
        rcases List.mem_cons.mp hx with h1 | h1
        · subst h1; exact List.mem_cons_self _ _
        · exact List.mem_cons_of_mem _ (hmem x h1)

/-- Reconciling one group emits all its removals strictly before all its
additions, and nothing else. -/
theorem syncMembershipsForGroup_ops (env : Env) (S : SourceSnapshot)
    (usr : UserSyncResult) (gg : Option AdminGroup) (g : AwsGroup) (st : St) :
    ∃ (rems : List GroupMembership) (adds : List AwsUser),
      (syncMembershipsForGroup env S usr gg g st).1.ops =
        st.ops ++ rems.map Op.removeGroupMembership ++
          adds.map (fun u => Op.addUserToGroup u g) := by
  unfold syncMembershipsForGroup
  cases gg with
  | none => exact ⟨[], [], by simp⟩
  | some gg0 =>
    simp only
    cases hdiff : (st.store.memberships.filter
        (fun m => m.groupId == g.groupId)).foldl (diffStep usr)
        (some ([], buildMemberList S usr gg0)) with
    | none => exact ⟨[], [], by simp⟩
    | some pr =>
      obtain ⟨toDel, remaining⟩ := pr
      simp only
      cases hrem : applyRemovals env toDel st with
      | mk st' e =>
        cases e with
        | some err =>
          obtain ⟨rems, hops, _⟩ := applyRemovals_ops env toDel st
          rw [hrem] at hops
          exact ⟨rems, [], by simpa using hops⟩
        | none =>
          obtain ⟨rems, hops, _⟩ := applyRemovals_ops env toDel st
          rw [hrem] at hops
          obtain ⟨adds, hops2, _⟩ := applyAdditions_ops env g (valuesA remaining) st'
          simp only at hops
          refine ⟨rems, adds, ?_⟩
          rw [hops2, hops, List.append_assoc]

/-- The per-group membership loop emits only membership removals and
additions. -/
theorem membershipLoop_ops (env : Env) (S : SourceSnapshot) (usr : UserSyncResult)
    (ggIndex : List (String × AdminGroup)) (l : List (String × AwsGroup)) (st : St) :
    ∃ δ, (membershipLoop env S usr ggIndex l st).1.ops = st.ops ++ δ ∧
      ∀ op ∈ δ, (∃ m, op = Op.removeGroupMembership m) ∨
        (∃ u g, op = Op.addUserToGroup u g) := by
  induction l generalizing st with
  | nil => exact ⟨[], by simp [membershipLoop], by simp⟩
  | cons p rest ih =>
    obtain ⟨k, g⟩ := p
    unfold membershipLoop
    obtain ⟨rems, adds, hops⟩ :=
      syncMembershipsForGroup_ops env S usr (lookupA ggIndex g.displayName) g st
    cases hcall : syncMembershipsForGroup env S usr (lookupA ggIndex g.displayName) g st with
    | mk st' e =>
      rw [hcall] at hops
      simp only at hops
      cases e with
      | some err =>
        refine ⟨rems.map Op.removeGroupMembership ++
          adds.map (fun u => Op.addUserToGroup u g), by simpa using hops, ?_⟩
        intro op hop
        rcases List.mem_append.mp hop with h | h
        · obtain ⟨m, _, rfl⟩ := List.mem_map.mp h
          exact Or.inl ⟨m, rfl⟩
        · obtain ⟨u, _, rfl⟩ := List.mem_map.mp h
          exact Or.inr ⟨u, g, rfl⟩
      | none =>
        obtain ⟨δ, hops2, hkinds⟩ := ih st'
        refine ⟨rems.map Op.removeGroupMembership ++
          adds.map (fun u => Op.addUserToGroup u g) ++ δ, ?_, ?_⟩
        · simp only
          rw [hops2, hops]
          simp
        · intro op hop
          rcases List.mem_append.mp hop with h | h
          · rcases List.mem_append.mp h with h1 | h1
            · obtain ⟨m, _, rfl⟩ := List.mem_map.mp h1
              exact Or.inl ⟨m, rfl⟩
            · obtain ⟨u, _, rfl⟩ := List.mem_map.mp h1
              exact Or.inr ⟨u, g, rfl⟩
          · exact hkinds op h

/-- The group-deletion loop emits only `DeleteGroup` calls for groups of its
input list. -/
theorem groupDeleteLoop_ops (env : Env) (l : List AwsGroup) (st : St) :
    ∃ δ, (groupDeleteLoop env l st).1.ops = st.ops ++ δ ∧
      ∀ op ∈ δ, ∃ g ∈ l, op = Op.deleteGroup g := by
  induction l generalizing st with
  | nil => exact ⟨[], by simp [groupDeleteLoop], by simp⟩
  | cons g rest ih =>
    unfold groupDeleteLoop
    by_cases hf : env.deleteGroupFails g.groupId
    · refine ⟨[Op.deleteGroup g], by simp [hf], ?_⟩
      intro op hop
      rcases List.mem_singleton.mp hop with rfl
      exact ⟨g, List.mem_cons_self _ _, rfl⟩
    · simp only [Bool.not_eq_true] at hf
      simp only [hf, Bool.false_eq_true, if_false]
      obtain ⟨δ, hops, hmem⟩ := ih _
      refine ⟨Op.deleteGroup g :: δ, ?_, ?_⟩
      · rw [hops]
        simp
      · intro op hop
        rcases List.mem_cons.mp hop with h1 | h1
        · subst h1
          exact ⟨g, List.mem_cons_self _ _, rfl⟩
        · obtain ⟨g', hg', rfl⟩ := hmem op h1
          exact ⟨g', List.mem_cons_of_mem _ hg', rfl⟩

/-- The final pass emits only `DeleteUser` calls for users of its input list. -/
theorem removeUsers_ops (env : Env) (l : List AwsUser) (st : St) :
    ∃ δ, (removeUsers env l st).1.ops = st.ops ++ δ ∧
      ∀ op ∈ δ, ∃ u ∈ l, op = Op.deleteUser u := by
  induction l generalizing st with
  | nil => exact ⟨[], by simp [removeUsers], by simp⟩
  | cons u rest ih =>
    unfold removeUsers
    by_cases hf : env.deleteUserFails u.userId
    · refine ⟨[Op.deleteUser u], by simp [hf], ?_⟩
      intro op hop
      rcases List.mem_singleton.mp hop with rfl
      exact ⟨u, List.mem_cons_self _ _, rfl⟩
    · simp only [Bool.not_eq_true] at hf
      simp only [hf, Bool.false_eq_true, if_false]
      obtain ⟨δ, hops, hmem⟩ := ih _
      refine ⟨Op.deleteUser u :: δ, ?_, ?_⟩
      · rw [hops]
        simp
      · intro op hop
        rcases List.mem_cons.mp hop with h1 | h1
        · subst h1
          exact ⟨u, List.mem_cons_self _ _, rfl⟩
        · obtain ⟨u', hu', rfl⟩ := hmem op h1
          exact ⟨u', List.mem_cons_of_mem _ hu', rfl⟩

/-! ## Assembled phase specifications -/

theorem buildUserIndex_toDelete (l : List AwsUser) : (buildUserIndex l).toDelete = [] := by
  suffices h : ∀ r : UserSyncResult, (l.foldl (fun r u =>
      { r with index := insertA r.index u.userName u
               indexByUserId := insertA r.indexByUserId u.userId u }) r).toDelete =
      r.toDelete by
    exact h _
  induction l with
  | nil => intro r; rfl
  | cons u rest ih => intro r; exact ih _

theorem syncUsers_eq (cfg : Config) (env : Env) (S : SourceSnapshot) (st : St) :
    syncUsers cfg env S st =
      S.users.foldl (activeStep cfg env)
        { r := S.deletedUsers.foldl tombstoneStep (buildUserIndex st.store.users)
          st := st } := rfl

/-- `SyncUsers` issues only `CreateUser` calls, one per non-ignored,
non-suspended source user it decided to create. -/
theorem syncUsers_ops (cfg : Config) (env : Env) (S : SourceSnapshot) (st : St) :
    ∃ δ, (syncUsers cfg env S st).st.ops = st.ops ++ δ ∧
      ∀ op ∈ δ, ∃ u ∈ S.users, op = Op.createUser (newUserFor u) ∧
        ignoreUser cfg u.primaryEmail = false ∧ u.suspended = false := by
  rw [syncUsers_eq]
  exact activeLoop_ops cfg env S.users _

theorem syncUsers_store (cfg : Config) (env : Env) (S : SourceSnapshot) (st : St) :
    (syncUsers cfg env S st).st.store.groups = st.store.groups ∧
    (syncUsers cfg env S st).st.store.memberships = st.store.memberships := by
  rw [syncUsers_eq]
  exact activeLoop_store cfg env S.users _

theorem syncUsers_kv (cfg : Config) (env : Env) (S : SourceSnapshot) (st : St) :
    IndexKV (syncUsers cfg env S st).r := by
  rw [syncUsers_eq]
  refine activeLoop_kv cfg env S.users _ ?_
  obtain ⟨hi, hb, _⟩ := tombstoneLoop_spec S.deletedUsers (buildUserIndex st.store.users)
  constructor
  · intro k w hw
    rw [hi] at hw
    exact (buildUserIndex_kv st.store.users).1 k w hw
  · intro k w hw
    rw [hb] at hw
    exact (buildUserIndex_kv st.store.users).2 k w hw

/-- Provenance of pending deletions: every user `SyncUsers` marks was matched
by a tombstone, or is a non-ignored suspended source user found in the index.
The tombstone path does not consult the ignore list. -/
theorem syncUsers_toDelete (cfg : Config) (env : Env) (S : SourceSnapshot) (st : St) :
    ∀ w ∈ (syncUsers cfg env S st).r.toDelete,
      (∃ d ∈ S.deletedUsers, w.userName = d.primaryEmail) ∨
      (∃ u ∈ S.users, ignoreUser cfg u.primaryEmail = false ∧ u.suspended = true ∧
        w.userName = u.primaryEmail) := by
  rw [syncUsers_eq]
  obtain ⟨hi, hb, δt, ht, hpt⟩ := tombstoneLoop_spec S.deletedUsers (buildUserIndex st.store.users)
  have hkv1 : IndexKV (S.deletedUsers.foldl tombstoneStep (buildUserIndex st.store.users)) := by
    constructor
    · intro k w hw
      rw [hi] at hw
      exact (buildUserIndex_kv st.store.users).1 k w hw
    · intro k w hw
      rw [hb] at hw
      exact (buildUserIndex_kv st.store.users).2 k w hw
  obtain ⟨δa, ha, hpa⟩ := activeLoop_toDelete cfg env S.users
    { r := S.deletedUsers.foldl tombstoneStep (buildUserIndex st.store.users), st := st } hkv1
  intro w hw
  rw [ha] at hw
  simp only at hw
  rcases List.mem_append.mp hw with h | h
  · rw [ht, buildUserIndex_toDelete] at h
    simp only [List.nil_append] at h
    obtain ⟨d, hd, hlk⟩ := hpt w h
    exact Or.inl ⟨d, hd, (buildUserIndex_kv st.store.users).1 _ _ hlk⟩
  · obtain ⟨u, hu, h1, h2, h3⟩ := hpa w h
    exact Or.inr ⟨u, hu, h1, h2, h3⟩

/-- Every user pending deletion is still present in the username index that
group and membership reconciliation consume. -/
theorem syncUsers_toDelete_in_index (cfg : Config) (env : Env) (S : SourceSnapshot)
    (st : St) :
    ∀ w ∈ (syncUsers cfg env S st).r.toDelete,
      ∃ k, lookupA (syncUsers cfg env S st).r.index k = some w := by
  rw [syncUsers_eq]
  obtain ⟨hi, hb, δt, ht, hpt⟩ := tombstoneLoop_spec S.deletedUsers (buildUserIndex st.store.users)
  refine activeLoop_toDelete_in_index cfg env S.users _ ?_
  intro w hw
  simp only at hw
  rw [ht, buildUserIndex_toDelete] at hw
  simp only [List.nil_append] at hw
  obtain ⟨d, _, hlk⟩ := hpt w hw
  refine ⟨d.primaryEmail, ?_⟩
  simp only [hi]
  exact hlk

/-- `SyncGroups` issues only group creations (for non-ignored source groups),
membership removals and additions, and group deletions (for listed target
groups absent from the filtered Google-group index). -/
theorem syncGroups_eq (cfg : Config) (env : Env) (S : SourceSnapshot)
    (usr : UserSyncResult) (st : St) :
    syncGroups cfg env S usr st =
      match membershipLoop env S usr
          (groupCreatePhase cfg env S (buildGroupsIndex st.store.groups) st).ggIndex
          (deletionPhase (groupCreatePhase cfg env S (buildGroupsIndex st.store.groups) st).ggIndex
            st.store.groups
            (groupCreatePhase cfg env S (buildGroupsIndex st.store.groups) st).gIndex).2
          (groupCreatePhase cfg env S (buildGroupsIndex st.store.groups) st).st with
      | (st', some e) => (st', some e)
      | (st', none) =>
        groupDeleteLoop env
          (deletionPhase (groupCreatePhase cfg env S (buildGroupsIndex st.store.groups) st).ggIndex
            st.store.groups
            (groupCreatePhase cfg env S (buildGroupsIndex st.store.groups) st).gIndex).1 st' := rfl

theorem syncGroups_ops (cfg : Config) (env : Env) (S : SourceSnapshot)
    (usr : UserSyncResult) (st : St) :
    ∃ δ, (syncGroups cfg env S usr st).1.ops = st.ops ++ δ ∧
      ∀ op ∈ δ,
        (∃ g ∈ S.groups, ignoreGroup cfg g.email = false ∧
          op = Op.createGroup g.name g.description) ∨
        (∃ m, op = Op.removeGroupMembership m) ∨
        (∃ u g, op = Op.addUserToGroup u g) ∨
        (∃ g, g ∈ st.store.groups ∧ lookupA (filteredIdx cfg S) g.displayName = none ∧
          op = Op.deleteGroup g) := by
  rw [syncGroups_eq]
  obtain ⟨δc, hc, hpc⟩ := groupCreateLoop_ops cfg env S.groups
    { gIndex := buildGroupsIndex st.store.groups, ggIndex := [], st := st }
  obtain ⟨δm, hm, hpm⟩ := membershipLoop_ops env S usr
    (groupCreatePhase cfg env S (buildGroupsIndex st.store.groups) st).ggIndex
    (deletionPhase (groupCreatePhase cfg env S (buildGroupsIndex st.store.groups) st).ggIndex
      st.store.groups
      (groupCreatePhase cfg env S (buildGroupsIndex st.store.groups) st).gIndex).2
    (groupCreatePhase cfg env S (buildGroupsIndex st.store.groups) st).st
  have hgg := groupCreatePhase_ggIndex cfg env S (buildGroupsIndex st.store.groups) st
  have hcops : (groupCreatePhase cfg env S (buildGroupsIndex st.store.groups) st).st.ops =
      st.ops ++ δc := hc
  cases hml : membershipLoop env S usr
      (groupCreatePhase cfg env S (buildGroupsIndex st.store.groups) st).ggIndex
      (deletionPhase (groupCreatePhase cfg env S (buildGroupsIndex st.store.groups) st).ggIndex
        st.store.groups
        (groupCreatePhase cfg env S (buildGroupsIndex st.store.groups) st).gIndex).2
      (groupCreatePhase cfg env S (buildGroupsIndex st.store.groups) st).st with
  | mk st' e =>
    rw [hml] at hm
    simp only at hm
    have hkinds : ∀ op ∈ δc ++ δm,
        (∃ g ∈ S.groups, ignoreGroup cfg g.email = false ∧
          op = Op.createGroup g.name g.description) ∨
        (∃ m, op = Op.removeGroupMembership m) ∨
        (∃ u g, op = Op.addUserToGroup u g) ∨
        (∃ g, g ∈ st.store.groups ∧ lookupA (filteredIdx cfg S) g.displayName = none ∧
          op = Op.deleteGroup g) := by
      intro op hop
      rcases List.mem_append.mp hop with h | h
      · obtain ⟨g, hg, h1, h2⟩ := hpc op h
        exact Or.inl ⟨g, hg, h2, h1⟩
      · rcases hpm op h with h1 | h1
        · exact Or.inr (Or.inl h1)
        · exact Or.inr (Or.inr (Or.inl h1))
    cases e with
    | some err =>
      refine ⟨δc ++ δm, ?_, hkinds⟩
      simp only
      rw [hm, hcops, List.append_assoc]
    | none =>
      simp only
      obtain ⟨δd, hd, hpd⟩ := groupDeleteLoop_ops env
        (deletionPhase (groupCreatePhase cfg env S (buildGroupsIndex st.store.groups) st).ggIndex
          st.store.groups
          (groupCreatePhase cfg env S (buildGroupsIndex st.store.groups) st).gIndex).1 st'
      refine ⟨δc ++ δm ++ δd, ?_, ?_⟩
      · rw [hd, hm, hcops]
        simp [List.append_assoc]
      · intro op hop
        rcases List.mem_append.mp hop with h | h
        · exact hkinds op h
        · obtain ⟨g, hg, rfl⟩ := hpd op h
          rw [deletionPhase_mem] at hg
          rw [hgg] at hg
          exact Or.inr (Or.inr (Or.inr ⟨g, hg.1, hg.2, rfl⟩))

theorem doSync_eq (cfg : Config) (env : Env) (S : SourceSnapshot) (T : TargetSnapshot) :
    doSync cfg env S T =
      match syncGroups cfg env S (syncUsers cfg env S ⟨T, [], freshBase T⟩).r
          (syncUsers cfg env S ⟨T, [], freshBase T⟩).st with
      | (st', some e) =>
        { usr := (syncUsers cfg env S ⟨T, [], freshBase T⟩).r, ops := st'.ops,
          store := st'.store, err := some e }
      | (st', none) =>
        match removeUsers env (syncUsers cfg env S ⟨T, [], freshBase T⟩).r.toDelete st' with
        | (st2, e) =>
          { usr := (syncUsers cfg env S ⟨T, [], freshBase T⟩).r, ops := st2.ops,
            store := st2.store, err := e } := rfl

theorem doSync_usr (cfg : Config) (env : Env) (S : SourceSnapshot) (T : TargetSnapshot) :
    (doSync cfg env S T).usr = (syncUsers cfg env S ⟨T, [], freshBase T⟩).r := by
  rw [doSync_eq]
  cases hg : syncGroups cfg env S (syncUsers cfg env S ⟨T, [], freshBase T⟩).r
      (syncUsers cfg env S ⟨T, [], freshBase T⟩).st with
  | mk st' e =>
    cases e with
    | some err => rfl
    | none =>
      cases hr : removeUsers env (syncUsers cfg env S ⟨T, [], freshBase T⟩).r.toDelete st' with
      | mk st2 e2 => rfl

/-- The full trace splits into a prefix free of `DeleteUser` and a suffix of
nothing but `DeleteUser` calls for pending-deletion users. -/
theorem doSync_ops_split (cfg : Config) (env : Env) (S : SourceSnapshot)
    (T : TargetSnapshot) :
    ∃ pre dels, (doSync cfg env S T).ops = pre ++ dels ∧
      (∀ op ∈ pre, ∀ u, op ≠ Op.deleteUser u) ∧
      (∀ op ∈ dels, ∃ u ∈ (doSync cfg env S T).usr.toDelete, op = Op.deleteUser u) := by
  rw [doSync_eq]
  obtain ⟨δu, hu, hpu⟩ := syncUsers_ops cfg env S ⟨T, [], freshBase T⟩
  obtain ⟨δg, hg, hpg⟩ := syncGroups_ops cfg env S
    (syncUsers cfg env S ⟨T, [], freshBase T⟩).r (syncUsers cfg env S ⟨T, [], freshBase T⟩).st
  have hpre : ∀ op ∈ δu ++ δg, ∀ u, op ≠ Op.deleteUser u := by
    intro op hop u
    rcases List.mem_append.mp hop with h | h
    · obtain ⟨v, _, rfl, _⟩ := hpu op h
      simp
    · rcases hpg op h with ⟨g, _, _, rfl⟩ | ⟨m, rfl⟩ | ⟨u', g', rfl⟩ | ⟨g, _, _, rfl⟩ <;> simp
  cases hgr : syncGroups cfg env S (syncUsers cfg env S ⟨T, [], freshBase T⟩).r
      (syncUsers cfg env S ⟨T, [], freshBase T⟩).st with
  | mk st' e =>
    rw [hgr] at hg
    simp only at hg
    cases e with
    | some err =>
      refine ⟨δu ++ δg, [], ?_, hpre, by simp⟩
      simp only
      rw [hg, hu]
      simp
    | none =>
      simp only
      obtain ⟨δd, hd, hpd⟩ := removeUsers_ops env
        (syncUsers cfg env S ⟨T, [], freshBase T⟩).r.toDelete st'
      cases hrr : removeUsers env (syncUsers cfg env S ⟨T, [], freshBase T⟩).r.toDelete st' with
      | mk st2 e2 =>
        rw [hrr] at hd
        simp only at hd
        refine ⟨δu ++ δg, δd, ?_, hpre, ?_⟩
        · simp only
          rw [hd, hg, hu]
          simp
        · intro op hop
          obtain ⟨v, hv, rfl⟩ := hpd op hop
          exact ⟨v, hv, rfl⟩

/-- C6: in every run, the pending user deletions are issued strictly after
everything else (in particular after all group and membership reconciliation),
and a user marked for deletion is still present in the username index consumed
by group and membership reconciliation. -/
theorem c6_delete_after_full_pass (cfg : Config) (env : Env) (S : SourceSnapshot)
    (T : TargetSnapshot) :
    (∃ pre dels, (doSync cfg env S T).ops = pre ++ dels ∧
      (∀ op ∈ pre, ∀ u, op ≠ Op.deleteUser u) ∧
      (∀ op ∈ dels, ∃ u ∈ (doSync cfg env S T).usr.toDelete, op = Op.deleteUser u)) ∧
    (∀ w ∈ (doSync cfg env S T).usr.toDelete,
      ∃ k, lookupA (doSync cfg env S T).usr.index k = some w) := by
  refine ⟨doSync_ops_split cfg env S T, ?_⟩
  rw [doSync_usr]
  exact syncUsers_toDelete_in_index cfg env S ⟨T, [], freshBase T⟩

/-- Provenance of every mutating call a run issues. -/
theorem doSync_ops_provenance (cfg : Config) (env : Env) (S : SourceSnapshot)
    (T : TargetSnapshot) :
    ∀ op ∈ (doSync cfg env S T).ops,
      (∃ u ∈ S.users, op = Op.createUser (newUserFor u) ∧
        ignoreUser cfg u.primaryEmail = false ∧ u.suspended = false) ∨
      (∃ g ∈ S.groups, ignoreGroup cfg g.email = false ∧
        op = Op.createGroup g.name g.description) ∨
      (∃ m, op = Op.removeGroupMembership m) ∨
      (∃ u g, op = Op.addUserToGroup u g) ∨
      (∃ g, g ∈ T.groups ∧ lookupA (filteredIdx cfg S) g.displayName = none ∧
        op = Op.deleteGroup g) ∨
      (∃ w ∈ (doSync cfg env S T).usr.toDelete, op = Op.deleteUser w) := by
  rw [doSync_eq]
  obtain ⟨δu, hu, hpu⟩ := syncUsers_ops cfg env S ⟨T, [], freshBase T⟩
  obtain ⟨δg, hg, hpg⟩ := syncGroups_ops cfg env S
    (syncUsers cfg env S ⟨T, [], freshBase T⟩).r (syncUsers cfg env S ⟨T, [], freshBase T⟩).st
  have hTgroups : (syncUsers cfg env S ⟨T, [], freshBase T⟩).st.store.groups = T.groups :=
    (syncUsers_store cfg env S ⟨T, [], freshBase T⟩).1
  rw [hTgroups] at hpg
  have hcommon : ∀ op ∈ δu ++ δg,
      (∃ u ∈ S.users, op = Op.createUser (newUserFor u) ∧
        ignoreUser cfg u.primaryEmail = false ∧ u.suspended = false) ∨
      (∃ g ∈ S.groups, ignoreGroup cfg g.email = false ∧
        op = Op.createGroup g.name g.description) ∨
      (∃ m, op = Op.removeGroupMembership m) ∨
      (∃ u g, op = Op.addUserToGroup u g) ∨
      (∃ g, g ∈ T.groups ∧ lookupA (filteredIdx cfg S) g.displayName = none ∧
        op = Op.deleteGroup g) := by
    intro op hop
    rcases List.mem_append.mp hop with h | h
    · exact Or.inl (hpu op h)
    · rcases hpg op h with h1 | h1 | h1 | h1
      · exact Or.inr (Or.inl h1)
      · exact Or.inr (Or.inr (Or.inl h1))
      · exact Or.inr (Or.inr (Or.inr (Or.inl h1)))
      · exact Or.inr (Or.inr (Or.inr (Or.inr h1)))
  cases hgr : syncGroups cfg env S (syncUsers cfg env S ⟨T, [], freshBase T⟩).r
      (syncUsers cfg env S ⟨T, [], freshBase T⟩).st with
  | mk st' e =>
    rw [hgr] at hg
    simp only at hg
    cases e with
    | some err =>
      simp only
      intro op hop
      rw [hg, hu] at hop
      simp only [List.nil_append] at hop
      rcases hcommon op hop with h | h | h | h | h
      exacts [Or.inl h, Or.inr (Or.inl h), Or.inr (Or.inr (Or.inl h)),
        Or.inr (Or.inr (Or.inr (Or.inl h))),
        Or.inr (Or.inr (Or.inr (Or.inr (Or.inl h))))]
    | none =>
      simp only
      obtain ⟨δd, hd, hpd⟩ := removeUsers_ops env
        (syncUsers cfg env S ⟨T, [], freshBase T⟩).r.toDelete st'
      cases hrr : removeUsers env (syncUsers cfg env S ⟨T, [], freshBase T⟩).r.toDelete st' with
      | mk st2 e2 =>
        rw [hrr] at hd
        simp only at hd
        simp only
        intro op hop
        rw [hd, hg, hu] at hop
        simp only [List.nil_append] at hop
        rcases List.mem_append.mp hop with h | h
        · rcases hcommon op h with h1 | h1 | h1 | h1 | h1
          · exact Or.inl h1
          · exact Or.inr (Or.inl h1)
          · exact Or.inr (Or.inr (Or.inl h1))
          · exact Or.inr (Or.inr (Or.inr (Or.inl h1)))
          · exact Or.inr (Or.inr (Or.inr (Or.inr (Or.inl h1))))
        · obtain ⟨w, hw, rfl⟩ := hpd op h
          exact Or.inr (Or.inr (Or.inr (Or.inr (Or.inr ⟨w, hw, rfl⟩))))

theorem ignoreUser_iff_mem (cfg : Config) (x : String) :
    ignoreUser cfg x = true ↔ x ∈ cfg.ignoreUsers := by
  simp [ignoreUser]

theorem ignoreGroup_iff_mem (cfg : Config) (x : String) :
    ignoreGroup cfg x = true ↔ x ∈ cfg.ignoreGroups := by
  simp [ignoreGroup]

/-- Entries surviving the deletion loop were already in the working index. -/
theorem deletionLoop_lookup_sub (ggIndex : List (String × AdminGroup))
    (aws : List AwsGroup) (k : String) (g : AwsGroup) :
    ∀ acc : List AwsGroup × List (String × AwsGroup),
      lookupA (aws.foldl (deletionStep ggIndex) acc).2 k = some g →
      lookupA acc.2 k = some g := by
  induction aws with
  | nil => intro acc h; exact h
  | cons a rest ih =>
    intro acc h
    have h1 := ih (deletionStep ggIndex acc a) h
    unfold deletionStep at h1
    cases hlk : lookupA ggIndex a.displayName with
    | some w =>
      rw [hlk] at h1
      exact h1
    | none =>
      rw [hlk] at h1
      simp only at h1
      by_cases hk : k = a.displayName
      · subst hk
        rw [lookupA_eraseA_self] at h1
        exact Option.noConfusion h1
      · rw [lookupA_eraseA_ne _ _ _ hk] at h1
        exact h1

/-- Keys of the initial target-group index name listed target groups. -/
theorem buildGroupsIndex_keys (l : List AwsGroup) (k : String)
    (h : lookupA (buildGroupsIndex l) k ≠ none) :
    ∃ a ∈ l, a.displayName = k := by
  have hforall : ∀ p ∈ buildGroupsIndex l, p.2 ∈ l ∧ p.1 = p.2.displayName := by
    suffices hh : ∀ m, (∀ p ∈ m, p.2 ∈ l ∧ p.1 = p.2.displayName) →
        ∀ p ∈ l.foldl (fun m g => insertA m g.displayName g) m,
          p.2 ∈ l ∧ p.1 = p.2.displayName by
      exact hh [] (by simp)
    have hgen : ∀ (sub : List AwsGroup), (∀ a ∈ sub, a ∈ l) →
        ∀ m, (∀ p ∈ m, p.2 ∈ l ∧ p.1 = p.2.displayName) →
        ∀ p ∈ sub.foldl (fun m g => insertA m g.displayName g) m,
          p.2 ∈ l ∧ p.1 = p.2.displayName := by
      intro sub
      induction sub with
      | nil => intro _ m hm; simpa using hm
      | cons a rest ih =>
        intro hsub m hm
        simp only [List.foldl_cons]
        refine ih (fun x hx => hsub x (List.mem_cons_of_mem _ hx)) _ ?_
        exact insertA_forall hm ⟨hsub a (List.mem_cons_self _ _), rfl⟩
    intro m hm
    exact hgen l (fun a ha => ha) m hm
  cases hlk : lookupA (buildGroupsIndex l) k with
  | none => exact absurd hlk h
  | some g =>
    have := hforall (k, g) (mem_of_lookupA hlk)
    exact ⟨g, this.1, this.2.symm⟩

/-- C7: reconciling one group's memberships issues every
`RemoveGroupMembership` call strictly before every `AddUserToGroup` call: the
emitted trace is a block of removals followed by a block of additions into the
group, so no intermediate state holds a duplicate active membership. -/
theorem c7_removals_before_additions (env : Env) (S : SourceSnapshot)
    (usr : UserSyncResult) (gg : Option AdminGroup) (g : AwsGroup) (st : St) :
    ∃ (rems : List GroupMembership) (adds : List AwsUser),
      (syncMembershipsForGroup env S usr gg g st).1.ops =
        st.ops ++ rems.map Op.removeGroupMembership ++
          adds.map (fun u => Op.addUserToGroup u g) :=
  syncMembershipsForGroup_ops env S usr gg g st

/-- C10: the group ignore check compares the configured entries against the
source group's *email* by exact string equality, while indexing and creation
are keyed by the group's *name*, and target-group deletion candidacy is keyed
by *display name* alone: a group with an ignored email is skipped entirely
(whatever its name), and a group with a non-ignored email is indexed under its
name and created when that name is missing (even if the name is ignored). -/
theorem c10_group_ignore_keys_on_email (cfg : Config) (env : Env)
    (s : GroupPhaseState) (g : AdminGroup) :
    (ignoreGroup cfg g.email = true ↔ g.email ∈ cfg.ignoreGroups) ∧
    (g.email ∈ cfg.ignoreGroups → groupCreateStep cfg env s g = s) ∧
    (g.email ∉ cfg.ignoreGroups →
      (groupCreateStep cfg env s g).ggIndex = insertA s.ggIndex g.name g ∧
      (groupCreateStep cfg env s g).st.ops = s.st.ops ++
        (if lookupA s.gIndex g.name = none
          then [Op.createGroup g.name g.description] else [])) ∧
    (∀ (gg : List (String × AdminGroup)) (aws : List AwsGroup)
        (gi : List (String × AwsGroup)) (tg : AwsGroup),
      tg ∈ (deletionPhase gg aws gi).1 ↔
        tg ∈ aws ∧ lookupA gg tg.displayName = none) := by
  refine ⟨ignoreGroup_iff_mem cfg g.email, ?_, ?_, deletionPhase_mem⟩
  · intro hmem
    have hig : ignoreGroup cfg g.email = true := (ignoreGroup_iff_mem cfg g.email).mpr hmem
    simp [groupCreateStep, hig]
  · intro hmem
    have hig : ignoreGroup cfg g.email = false := by
      rw [← Bool.not_eq_true, ignoreGroup_iff_mem]
      exact hmem
    rcases groupCreateStep_cases cfg env s g with ⟨h1, _⟩ | ⟨_, ⟨w, hlk⟩, he⟩ |
      ⟨_, hlk, _, he⟩ | ⟨_, hlk, _, he⟩
    · rw [hig] at h1
      exact Bool.noConfusion h1
    · rw [he]
      constructor
      · rfl
      · rw [hlk]
        simp
    · rw [he]
      exact ⟨rfl, by rw [hlk]; simp⟩
    · rw [he]
      exact ⟨rfl, by rw [hlk]; simp⟩

/-- Witness for C10 at concrete inputs: a source group whose email is ignored
is skipped although its name is not ignored, and one whose name is ignored but
whose email is not is still indexed and created. -/
theorem c10_witness :
    (groupCreateStep ⟨[], ["e@x"]⟩ envOk ⟨[], [], ⟨⟨[], [], []⟩, [], 1⟩⟩ ⟨"G", "e@x", "d"⟩ =
      ⟨[], [], ⟨⟨[], [], []⟩, [], 1⟩⟩) ∧
    ((groupCreateStep ⟨[], ["N"]⟩ envOk ⟨[], [], ⟨⟨[], [], []⟩, [], 1⟩⟩ ⟨"N", "ok@x", "d"⟩).ggIndex =
        [("N", ⟨"N", "ok@x", "d"⟩)] ∧
      (groupCreateStep ⟨[], ["N"]⟩ envOk ⟨[], [], ⟨⟨[], [], []⟩, [], 1⟩⟩ ⟨"N", "ok@x", "d"⟩).st.ops =
        [Op.createGroup "N" "d"]) := by
  constructor
  · exact (c10_group_ignore_keys_on_email ⟨[], ["e@x"]⟩ envOk
      ⟨[], [], ⟨⟨[], [], []⟩, [], 1⟩⟩ ⟨"G", "e@x", "d"⟩).2.1 (by decide)
  · have h := (c10_group_ignore_keys_on_email ⟨[], ["N"]⟩ envOk
      ⟨[], [], ⟨⟨[], [], []⟩, [], 1⟩⟩ ⟨"N", "ok@x", "d"⟩).2.2.1 (by decide)
    constructor
    · rw [h.1]
      rfl
    · rw [h.2]
      rfl

/-- C8: for a non-ignored, non-suspended source user absent from the working
index, the user requested for creation has display name equal to given and
family name joined by one space, exactly one primary work email equal to the
username, and exactly one external id with issuer Google; on success the
returned entity with the target-assigned id is inserted into both maps, and on
failure the loop continues with both maps unchanged. -/
theorem c8_new_user_construction (cfg : Config) (env : Env) (s : UserPhaseState)
    (u : GoogleUser) (hig : ignoreUser cfg u.primaryEmail = false)
    (hsusp : u.suspended = false)
    (habs : lookupA s.r.index u.primaryEmail = none) :
    (newUserFor u).userName = u.primaryEmail ∧
    (newUserFor u).displayName = u.givenName ++ " " ++ u.familyName ∧
    (newUserFor u).emails = [{ primary := true, type := "work", value := u.primaryEmail }] ∧
    (newUserFor u).externalIds = [{ id := u.id, issuer := "Google" }] ∧
    (activeStep cfg env s u).st.ops = s.st.ops ++ [Op.createUser (newUserFor u)] ∧
    (env.createUserFails u.primaryEmail = true →
      (activeStep cfg env s u).r.index = s.r.index ∧
      (activeStep cfg env s u).r.indexByUserId = s.r.indexByUserId) ∧
    (env.createUserFails u.primaryEmail = false →
      (activeStep cfg env s u).r.index =
        insertA s.r.index u.primaryEmail { newUserFor u with userId := s.st.nextId } ∧
      (activeStep cfg env s u).r.indexByUserId =
        insertA s.r.indexByUserId s.st.nextId { newUserFor u with userId := s.st.nextId }) := by
  refine ⟨rfl, rfl, rfl, rfl, ?_, ?_, ?_⟩
  · by_cases hf : env.createUserFails u.primaryEmail
    · simp [activeStep, hig, habs, hsusp, hf]
    · simp [activeStep, hig, habs, hsusp, hf]
  · intro hf
    simp [activeStep, hig, habs, hsusp, hf]
  · intro hf
    simp [activeStep, hig, habs, hsusp, hf]

/-- Witness for C8 at a concrete input: the constructed user and the map
insertion on successful creation. -/
theorem c8_witness :
    (newUserFor ⟨"a@x", "A", "B", false, "g1"⟩).displayName = "A B" ∧
    (activeStep ⟨[], []⟩ envOk ⟨⟨[], [], []⟩, ⟨⟨[], [], []⟩, [], 1⟩⟩
        ⟨"a@x", "A", "B", false, "g1"⟩).r.index =
      insertA [] "a@x" { newUserFor ⟨"a@x", "A", "B", false, "g1"⟩ with userId := 1 } := by
  have h := c8_new_user_construction ⟨[], []⟩ envOk ⟨⟨[], [], []⟩, ⟨⟨[], [], []⟩, [], 1⟩⟩
    ⟨"a@x", "A", "B", false, "g1"⟩ (by decide) (by decide) (by decide)
  exact ⟨h.2.1.trans (by decide), (h.2.2.2.2.2.2 (by decide)).1⟩

/-- C5: the code bug at a failing input.  A target membership whose member
identifier is not of the user-id variant makes the reconciler panic (the
failed type assertion is followed by a dereference of its nil result): the
membership is not marked for removal, no removal is issued, and the whole run
fails with the panic instead of continuing. -/
theorem c5_member_variant_panics :
    syncMembershipsForGroup envOk
        ⟨[], [], [⟨"G", "g@x", "d"⟩], []⟩ ⟨[], [], []⟩
        (some ⟨"G", "g@x", "d"⟩) ⟨1, "G", "d"⟩
        ⟨⟨[], [⟨1, "G", "d"⟩], [⟨2, 1, MemberId.other⟩]⟩, [], 3⟩ =
      (⟨⟨[], [⟨1, "G", "d"⟩], [⟨2, 1, MemberId.other⟩]⟩, [], 3⟩, some SyncErr.panic) ∧
    (doSync ⟨[], []⟩ envOk ⟨[], [], [⟨"G", "g@x", "d"⟩], []⟩
        ⟨[], [⟨1, "G", "d"⟩], [⟨2, 1, MemberId.other⟩]⟩).err = some SyncErr.panic ∧
    (doSync ⟨[], []⟩ envOk ⟨[], [], [⟨"G", "g@x", "d"⟩], []⟩
        ⟨[], [⟨1, "G", "d"⟩], [⟨2, 1, MemberId.other⟩]⟩).ops = [] := by
  refine ⟨?_, ?_, ?_⟩ <;> rfl

/-- C4 counterexample: invoked with an absent source group, the membership
reconciler does not complete normally treating the source membership as empty
(it would then remove the group's one target membership); it dereferences the
absent group and the run dies with a panic, the store untouched and no
removal issued. -/
theorem c4_counterexample :
    syncMembershipsForGroup envOk ⟨[], [], [], []⟩ ⟨[], [], []⟩ none
        ⟨1, "G", "d"⟩ ⟨⟨[], [⟨1, "G", "d"⟩], [⟨2, 1, MemberId.userId 7⟩]⟩, [], 3⟩ =
      (⟨⟨[], [⟨1, "G", "d"⟩], [⟨2, 1, MemberId.userId 7⟩]⟩, [], 3⟩, some SyncErr.panic) := by
  rfl

/-- C4 amended: the absent-source-group case never arises.  Every group left
in the working index after the deletion pass (the groups membership
reconciliation is invoked on) has its display name present in the filtered
Google-group index, so the source-group argument the loop passes is never
`none`. -/
theorem c4_amended_source_group_present (cfg : Config) (env : Env)
    (S : SourceSnapshot) (st : St) :
    ∀ k g, lookupA (deletionPhase
        (groupCreatePhase cfg env S (buildGroupsIndex st.store.groups) st).ggIndex
        st.store.groups
        (groupCreatePhase cfg env S (buildGroupsIndex st.store.groups) st).gIndex).2 k =
        some g →
      (lookupA (groupCreatePhase cfg env S (buildGroupsIndex st.store.groups) st).ggIndex
        g.displayName).isSome = true := by
  have hgcp : groupCreatePhase cfg env S (buildGroupsIndex st.store.groups) st =
      S.groups.foldl (groupCreateStep cfg env)
        ⟨buildGroupsIndex st.store.groups, [], st⟩ := rfl
  rw [hgcp]
  intro k g hk
  have h0kv : GroupKV (buildGroupsIndex st.store.groups) := buildGroupsIndex_kv _
  have hloop := groupCreateLoop_gIndex cfg env S.groups (buildGroupsIndex st.store.groups)
    ⟨buildGroupsIndex st.store.groups, [], st⟩ h0kv (fun k h => Or.inl h)
  have hs1 : lookupA (S.groups.foldl (groupCreateStep cfg env)
      ⟨buildGroupsIndex st.store.groups, [], st⟩).gIndex k = some g :=
    deletionLoop_lookup_sub _ st.store.groups k g _ hk
  have hdisp : g.displayName = k := hloop.1 k g hs1
  have horig := hloop.2 k (by rw [hs1]; exact fun h => Option.noConfusion h)
  rcases horig with hgi0 | hgg
  · obtain ⟨a, ha, hak⟩ := buildGroupsIndex_keys st.store.groups k hgi0
    by_cases hggk : lookupA (S.groups.foldl (groupCreateStep cfg env)
        ⟨buildGroupsIndex st.store.groups, [], st⟩).ggIndex k = none
    · exfalso
      have herased := deletionPhase_idx_erased
        (S.groups.foldl (groupCreateStep cfg env)
          ⟨buildGroupsIndex st.store.groups, [], st⟩).ggIndex
        st.store.groups
        (S.groups.foldl (groupCreateStep cfg env)
          ⟨buildGroupsIndex st.store.groups, [], st⟩).gIndex
        a ha (by rw [hak]; exact hggk)
      rw [hak] at herased
      rw [herased] at hk
      exact Option.noConfusion hk
    · rw [hdisp]
      exact Option.isSome_iff_ne_none.mpr hggk
  · rw [hdisp]
    exact Option.isSome_iff_ne_none.mpr hgg

/-- Witness for C4's amended statement at a concrete input. -/
theorem c4_amended_witness :
    (lookupA (groupCreatePhase ⟨[], []⟩ envOk ⟨[], [], [⟨"G", "g@x", "d"⟩], []⟩
        (buildGroupsIndex [⟨1, "G", "d"⟩])
        ⟨⟨[], [⟨1, "G", "d"⟩], []⟩, [], 2⟩).ggIndex "G").isSome = true := by
  have h := c4_amended_source_group_present ⟨[], []⟩ envOk ⟨[], [], [⟨"G", "g@x", "d"⟩], []⟩
    ⟨⟨[], [⟨1, "G", "d"⟩], []⟩, [], 2⟩ "G" ⟨1, "G", "d"⟩ (by decide)
  exact h

/-- C3 counterexample: with source group `G` ignored by email, the target
group `G` is deleted although its display name does have an entry in the
unfiltered source-group index -- the deletion set is computed against the
filtered index, not the unfiltered one. -/
theorem c3_counterexample :
    Op.deleteGroup ⟨1, "G", "d"⟩ ∈
      (doSync ⟨[], ["e"]⟩ envOk ⟨[], [], [⟨"G", "e", "d"⟩], []⟩
        ⟨[], [⟨1, "G", "d"⟩], []⟩).ops ∧
    (lookupA (specUnfilteredGroupIndex ⟨[], [], [⟨"G", "e", "d"⟩], []⟩) "G").isSome = true := by
  exact ⟨by decide, by decide⟩

/-- C3 amended: a listed target group is marked for deletion (and its name
removed from the working index) exactly when its display name has no entry in
the *filtered* source-group index, so the ignore-list filter influences
deletion as well as creation. -/
theorem c3_amended_deletion_by_filtered_index (cfg : Config) (env : Env)
    (S : SourceSnapshot) (st : St) :
    (∀ g, g ∈ (deletionPhase
        (groupCreatePhase cfg env S (buildGroupsIndex st.store.groups) st).ggIndex
        st.store.groups
        (groupCreatePhase cfg env S (buildGroupsIndex st.store.groups) st).gIndex).1 ↔
      g ∈ st.store.groups ∧ lookupA (filteredIdx cfg S) g.displayName = none) ∧
    (∀ g ∈ st.store.groups, lookupA (filteredIdx cfg S) g.displayName = none →
      lookupA (deletionPhase
        (groupCreatePhase cfg env S (buildGroupsIndex st.store.groups) st).ggIndex
        st.store.groups
        (groupCreatePhase cfg env S (buildGroupsIndex st.store.groups) st).gIndex).2
        g.displayName = none) := by
  have hgg := groupCreatePhase_ggIndex cfg env S (buildGroupsIndex st.store.groups) st
  constructor
  · intro g
    rw [deletionPhase_mem, hgg]
  · intro g hg h
    rw [← hgg] at h
    exact deletionPhase_idx_erased _ _ _ g hg h

/-- Witness for C3's amended statement at a concrete input: the ignored-email
group's target twin is in the deletion set. -/
theorem c3_amended_witness :
    (⟨1, "G", "d"⟩ : AwsGroup) ∈
      (deletionPhase
        (groupCreatePhase ⟨[], ["e"]⟩ envOk ⟨[], [], [⟨"G", "e", "d"⟩], []⟩
          (buildGroupsIndex [⟨1, "G", "d"⟩]) ⟨⟨[], [⟨1, "G", "d"⟩], []⟩, [], 2⟩).ggIndex
        [⟨1, "G", "d"⟩]
        (groupCreatePhase ⟨[], ["e"]⟩ envOk ⟨[], [], [⟨"G", "e", "d"⟩], []⟩
          (buildGroupsIndex [⟨1, "G", "d"⟩]) ⟨⟨[], [⟨1, "G", "d"⟩], []⟩, [], 2⟩).gIndex).1 := by
  refine ((c3_amended_deletion_by_filtered_index ⟨[], ["e"]⟩ envOk
    ⟨[], [], [⟨"G", "e", "d"⟩], []⟩ ⟨⟨[], [⟨1, "G", "d"⟩], []⟩, [], 2⟩).1
    ⟨1, "G", "d"⟩).mpr ⟨by decide, by decide⟩

/-- C2 counterexample: with username `u@x` and group name `G` both on the
ignore lists, a run still deletes the tombstoned ignored user and deletes the
target group named `G` (the tombstone pass and the group deletion pass never
consult the ignore lists). -/
theorem c2_counterexample :
    "u@x" ∈ (Config.mk ["u@x"] ["G"]).ignoreUsers ∧
    "G" ∈ (Config.mk ["u@x"] ["G"]).ignoreGroups ∧
    Op.deleteUser ⟨"u@x", 1, "U V", "U", "V", [], []⟩ ∈
      (doSync ⟨["u@x"], ["G"]⟩ envOk ⟨[⟨"u@x", "U", "V", false, "i"⟩], [], [], []⟩
        ⟨[⟨"u@x", 1, "U V", "U", "V", [], []⟩], [⟨2, "G", "d"⟩], []⟩).ops ∧
    Op.deleteGroup ⟨2, "G", "d"⟩ ∈
      (doSync ⟨["u@x"], ["G"]⟩ envOk ⟨[⟨"u@x", "U", "V", false, "i"⟩], [], [], []⟩
        ⟨[⟨"u@x", 1, "U V", "U", "V", [], []⟩], [⟨2, "G", "d"⟩], []⟩).ops := by
  refine ⟨by decide, by decide, by decide, by decide⟩

/-- C2 amended: the ignore lists do exclude ignored usernames from creation
and from the suspension-driven deletion path (an ignored username can only be
deleted through a tombstone), and group creation is excluded by ignored group
*email*; but the tombstone pass and the group-deletion pass never consult the
ignore lists, so deletions of ignored entities can still be issued. -/
theorem c2_amended_ignore_exclusion (cfg : Config) (env : Env) (S : SourceSnapshot)
    (T : TargetSnapshot) :
    (∀ e ∈ cfg.ignoreUsers,
      (∀ u, Op.createUser u ∈ (doSync cfg env S T).ops → u.userName ≠ e) ∧
      (∀ u, Op.deleteUser u ∈ (doSync cfg env S T).ops → u.userName = e →
        ∃ d ∈ S.deletedUsers, d.primaryEmail = e)) ∧
    (∀ n d, Op.createGroup n d ∈ (doSync cfg env S T).ops →
      ∃ g ∈ S.groups, g.name = n ∧ g.description = d ∧ ignoreGroup cfg g.email = false) ∧
    (∀ g, Op.deleteGroup g ∈ (doSync cfg env S T).ops →
      g ∈ T.groups ∧ lookupA (filteredIdx cfg S) g.displayName = none) := by
  refine ⟨?_, ?_, ?_⟩
  · intro e he
    constructor
    · intro u hu hname
      rcases doSync_ops_provenance cfg env S T _ hu with ⟨v, _, hop, hig, _⟩ |
        ⟨g, _, _, hop⟩ | ⟨m, hop⟩ | ⟨v, g, hop⟩ | ⟨g, _, _, hop⟩ | ⟨w, _, hop⟩
      · have huv : u = newUserFor v := by
          injection hop
        have : v.primaryEmail = e := by
          rw [← hname, huv]
          rfl
        rw [this] at hig
        rw [(ignoreUser_iff_mem cfg e).mpr he] at hig
        exact Bool.noConfusion hig
      · exact Op.noConfusion hop
      · exact Op.noConfusion hop
      · exact Op.noConfusion hop
      · exact Op.noConfusion hop
      · exact Op.noConfusion hop
    · intro u hu hname
      rcases doSync_ops_provenance cfg env S T _ hu with ⟨v, _, hop, _, _⟩ |
        ⟨g, _, _, hop⟩ | ⟨m, hop⟩ | ⟨v, g, hop⟩ | ⟨g, _, _, hop⟩ | ⟨w, hw, hop⟩
      · exact Op.noConfusion hop
      · exact Op.noConfusion hop
      · exact Op.noConfusion hop
      · exact Op.noConfusion hop
      · exact Op.noConfusion hop
      · have huw : u = w := by injection hop
        subst huw
        rw [doSync_usr] at hw
        rcases syncUsers_toDelete cfg env S ⟨T, [], freshBase T⟩ u hw with
          ⟨d, hd, hde⟩ | ⟨a, _, hig, _, hae⟩
        · exact ⟨d, hd, by rw [← hde, hname]⟩
        · exfalso
          rw [← hae, hname, (ignoreUser_iff_mem cfg e).mpr he] at hig
          exact Bool.noConfusion hig
  · intro n d hop
    rcases doSync_ops_provenance cfg env S T _ hop with ⟨v, _, h1, _, _⟩ |
      ⟨g, hg, hig, h1⟩ | ⟨m, h1⟩ | ⟨v, g, h1⟩ | ⟨g, _, _, h1⟩ | ⟨w, _, h1⟩
    · exact Op.noConfusion h1
    · have hn : g.name = n ∧ g.description = d := by
        constructor <;> injection h1 <;> simp_all
      exact ⟨g, hg, hn.1, hn.2, hig⟩
    · exact Op.noConfusion h1
    · exact Op.noConfusion h1
    · exact Op.noConfusion h1
    · exact Op.noConfusion h1
  · intro g hop
    rcases doSync_ops_provenance cfg env S T _ hop with ⟨v, _, h1, _, _⟩ |
      ⟨g', _, _, h1⟩ | ⟨m, h1⟩ | ⟨v, g', h1⟩ | ⟨g', hg', hlk, h1⟩ | ⟨w, _, h1⟩
    · exact Op.noConfusion h1
    · exact Op.noConfusion h1
    · exact Op.noConfusion h1
    · exact Op.noConfusion h1
    · have : g = g' := by injection h1
      subst this
      exact ⟨hg', hlk⟩
    · exact Op.noConfusion h1

/-- Witness for C2's amended statement at a concrete input: the one deletion
of the ignored user `u@x` is tombstone-driven. -/
theorem c2_amended_witness :
    ∃ d ∈ ([⟨"u@x", "U", "V", false, "i"⟩] : List GoogleUser),
      d.primaryEmail = "u@x" := by
  exact ((c2_amended_ignore_exclusion ⟨["u@x"], []⟩ envOk
      ⟨[⟨"u@x", "U", "V", false, "i"⟩], [], [], []⟩
      ⟨[⟨"u@x", 1, "U V", "U", "V", [], []⟩], [], []⟩).1 "u@x" (by decide)).2
    ⟨"u@x", 1, "U V", "U", "V", [], []⟩ (by decide) rfl

/-- C9 counterexample: for a user on the ignore list whose username matches a
tombstone against an existing target user and also appears active-suspended,
the target user is appended only once (the suspension path is skipped by the
ignore check), and only one `DeleteUser` is issued -- so the claim's universal
statement fails as written. -/
theorem c9_counterexample :
    (doSync ⟨["d@x"], []⟩ envOk
        ⟨[⟨"d@x", "D", "E", false, "i"⟩], [⟨"d@x", "D", "E", true, "i"⟩], [], []⟩
        ⟨[⟨"d@x", 1, "D E", "D", "E", [], []⟩], [], []⟩).usr.toDelete =
      [⟨"d@x", 1, "D E", "D", "E", [], []⟩] ∧
    (doSync ⟨["d@x"], []⟩ envOk
        ⟨[⟨"d@x", "D", "E", false, "i"⟩], [⟨"d@x", "D", "E", true, "i"⟩], [], []⟩
        ⟨[⟨"d@x", 1, "D E", "D", "E", [], []⟩], [], []⟩).ops =
      [Op.deleteUser ⟨"d@x", 1, "D E", "D", "E", [], []⟩] := by
  exact ⟨by decide, by decide⟩

/-! The generalized C9 development (helpers and the amended theorem) sits at
the end of the file, after the tombstone-loop completeness lemma it uses. -/

/-! ## Toward idempotence: association-list and index characterizations -/

theorem lookupA_of_mem_nodup {κ α : Type} [DecidableEq κ] {m : List (κ × α)}
    {k : κ} {v : α} (hn : (keysA m).Nodup) (h : (k, v) ∈ m) :
    lookupA m k = some v := by
  induction m with
  | nil => simp at h
  | cons p rest ih =>
    obtain ⟨k', v'⟩ := p
    simp only [keysA, List.map_cons, List.nodup_cons] at hn
    rcases List.mem_cons.mp h with h1 | h1
    · rw [← h1]
      simp [lookupA]
    · have hk : k' ≠ k := by
        intro he
        subst he
        exact hn.1 (List.mem_map.mpr ⟨(k', v), h1, rfl⟩)
      rw [lookupA_cons, if_neg hk]
      exact ih hn.2 h1

theorem mem_valuesA {κ α : Type} {m : List (κ × α)} {v : α} :
    v ∈ valuesA m ↔ ∃ k, (k, v) ∈ m := by
  constructor
  · intro h
    obtain ⟨p, hp, he⟩ := List.mem_map.mp h
    exact ⟨p.1, by rwa [← he, Prod.mk.eta]⟩
  · rintro ⟨k, hk⟩
    exact List.mem_map.mpr ⟨(k, v), hk, rfl⟩

/-- An association list with no duplicate keys is a permutation of any of its
entries consed onto the erasure of that entry's key. -/
theorem perm_cons_eraseA {κ α : Type} [DecidableEq κ] {m : List (κ × α)}
    {k : κ} {v : α} (hn : (keysA m).Nodup) (h : lookupA m k = some v) :
    List.Perm m ((k, v) :: eraseA m k) := by
  induction m with
  | nil => simp [lookupA] at h
  | cons p rest ih =>
    obtain ⟨k₀, v₀⟩ := p
    simp only [keysA, List.map_cons, List.nodup_cons] at hn
    by_cases hk : k₀ = k
    · subst hk
      rw [lookupA_cons, if_pos rfl, Option.some.injEq] at h
      subst h
      rw [eraseA_cons_self, eraseA_of_not_mem hn.1]
    · rw [lookupA_cons, if_neg hk] at h
      rw [eraseA_cons_ne _ _ _ _ hk]
      exact (List.Perm.cons _ (ih hn.2 h)).trans (List.Perm.swap _ _ _)

/-- Two association lists with no duplicate keys and identical lookups are
permutations of each other. -/
theorem lookupA_ext_perm {κ α : Type} [DecidableEq κ] :
    ∀ (m₁ m₂ : List (κ × α)), (keysA m₁).Nodup → (keysA m₂).Nodup →
    (∀ k, lookupA m₁ k = lookupA m₂ k) → List.Perm m₁ m₂ := by
  intro m₁
  induction m₁ with
  | nil =>
    intro m₂ _ hn₂ hext
    cases m₂ with
    | nil => exact List.Perm.refl _
    | cons p rest =>
      obtain ⟨k, v⟩ := p
      have := hext k
      simp [lookupA] at this
  | cons p rest ih =>
    intro m₂ hn₁ hn₂ hext
    obtain ⟨k, v⟩ := p
    simp only [keysA, List.map_cons, List.nodup_cons] at hn₁
    have hm₂ : (k, v) ∈ m₂ := by
      refine mem_of_lookupA ?_
      rw [← hext k]
      simp [lookupA]
    have hperm₂ : List.Perm m₂ ((k, v) :: eraseA m₂ k) :=
      perm_cons_eraseA hn₂ (lookupA_of_mem_nodup hn₂ hm₂)
    refine (List.Perm.cons (k, v) (ih (eraseA m₂ k) hn₁.2 (keysA_eraseA_nodup hn₂) ?_)).trans
      hperm₂.symm
    intro k'
    by_cases hk : k' = k
    · subst hk
      have h1 : lookupA rest k' = none := by
        rw [lookupA_eq_none_iff]
        exact hn₁.1
      rw [h1, lookupA_eraseA_self]
    · have h1 := hext k'
      rw [lookupA_cons, if_neg (fun he => hk he.symm)] at h1
      rw [h1, lookupA_eraseA_ne _ _ _ hk]

/-- Lookup in a filtered association list (no duplicate keys). -/
theorem lookupA_filter {κ α : Type} [DecidableEq κ] (q : κ × α → Bool) :
    ∀ (m : List (κ × α)), (keysA m).Nodup → ∀ k,
      lookupA (m.filter q) k =
        (lookupA m k).bind (fun v => if q (k, v) = true then some v else none) := by
  intro m
  induction m with
  | nil => intro _ k; simp [lookupA]
  | cons p rest ih =>
    intro hn k
    obtain ⟨k', v'⟩ := p
    simp only [keysA, List.map_cons, List.nodup_cons] at hn
    rw [List.filter_cons]
    by_cases hq : q (k', v')
    · rw [if_pos hq]
      by_cases hk : k' = k
      · subst hk
        simp [lookupA, hq]
      · rw [lookupA_cons, if_neg hk, lookupA_cons, if_neg hk]
        exact ih hn.2 k
    · rw [if_neg hq]
      by_cases hk : k' = k
      · subst hk
        have hnone : lookupA rest k' = none := by
          rw [lookupA_eq_none_iff]
          exact hn.1
        have : lookupA (rest.filter q) k' = none := by
          rw [lookupA_eq_none_iff]
          intro hmem
          apply hn.1
          simp only [keysA] at hmem ⊢
          obtain ⟨pp, hpp, he⟩ := List.mem_map.mp hmem
          exact List.mem_map.mpr ⟨pp, List.mem_of_mem_filter hpp, he⟩
        rw [this, lookupA_cons, if_pos rfl]
        simp only [Option.some_bind]
        rw [if_neg (by simpa using hq)]
      · rw [lookupA_cons, if_neg hk]
        exact ih hn.2 k

theorem uFold_untouched (l : List AwsUser) :
    ∀ (r : UserSyncResult) (n : String) (v : Nat),
      (n ∉ userNames l →
        lookupA (l.foldl (fun r u =>
          { r with index := insertA r.index u.userName u
                   indexByUserId := insertA r.indexByUserId u.userId u }) r).index n =
          lookupA r.index n) ∧
      (v ∉ userIds l →
        lookupA (l.foldl (fun r u =>
          { r with index := insertA r.index u.userName u
                   indexByUserId := insertA r.indexByUserId u.userId u }) r).indexByUserId v =
          lookupA r.indexByUserId v) := by
  induction l with
  | nil => intro r n v; exact ⟨fun _ => rfl, fun _ => rfl⟩
  | cons u rest ih =>
    intro r n v
    constructor
    · intro hn
      simp only [userNames, List.map_cons, List.mem_cons] at hn
      push_neg at hn
      simp only [List.foldl_cons]
      rw [(ih _ n v).1 (by simpa [userNames] using hn.2)]
      simp only
      rw [lookupA_insertA_ne _ _ _ _ hn.1]
    · intro hv
      simp only [userIds, List.map_cons, List.mem_cons] at hv
      push_neg at hv
      simp only [List.foldl_cons]
      rw [(ih _ n v).2 (by simpa [userIds] using hv.2)]
      simp only
      rw [lookupA_insertA_ne _ _ _ _ hv.1]

theorem buildUserIndex_entries (l : List AwsUser) :
    (∀ p ∈ (buildUserIndex l).index, p.2 ∈ l ∧ p.1 = p.2.userName) ∧
    (∀ p ∈ (buildUserIndex l).indexByUserId, p.2 ∈ l ∧ p.1 = p.2.userId) := by
  suffices h : ∀ (sub : List AwsUser), (∀ a ∈ sub, a ∈ l) →
      ∀ r : UserSyncResult,
      (∀ p ∈ r.index, p.2 ∈ l ∧ p.1 = p.2.userName) →
      (∀ p ∈ r.indexByUserId, p.2 ∈ l ∧ p.1 = p.2.userId) →
      (∀ p ∈ (sub.foldl (fun r u =>
          { r with index := insertA r.index u.userName u
                   indexByUserId := insertA r.indexByUserId u.userId u }) r).index,
        p.2 ∈ l ∧ p.1 = p.2.userName) ∧
      (∀ p ∈ (sub.foldl (fun r u =>
          { r with index := insertA r.index u.userName u
                   indexByUserId := insertA r.indexByUserId u.userId u }) r).indexByUserId,
        p.2 ∈ l ∧ p.1 = p.2.userId) by
    exact h l (fun a ha => ha) ⟨[], [], []⟩ (by simp) (by simp)
  intro sub
  induction sub with
  | nil => intro _ r h1 h2; exact ⟨h1, h2⟩
  | cons u rest ih =>
    intro hsub r h1 h2
    simp only [List.foldl_cons]
    refine ih (fun a ha => hsub a (List.mem_cons_of_mem _ ha)) _ ?_ ?_
    · exact insertA_forall h1 ⟨hsub u (List.mem_cons_self _ _), rfl⟩
    · exact insertA_forall h2 ⟨hsub u (List.mem_cons_self _ _), rfl⟩

theorem uFold_hit_isSome (l : List AwsUser) :
    ∀ (r : UserSyncResult) (u : AwsUser), u ∈ l →
      lookupA (l.foldl (fun r u =>
        { r with index := insertA r.index u.userName u
                 indexByUserId := insertA r.indexByUserId u.userId u }) r).index
        u.userName ≠ none ∧
      lookupA (l.foldl (fun r u =>
        { r with index := insertA r.index u.userName u
                 indexByUserId := insertA r.indexByUserId u.userId u }) r).indexByUserId
        u.userId ≠ none := by
  induction l with
  | nil => intro r u hu; simp at hu
  | cons x rest ih =>
    intro r u hu
    simp only [List.foldl_cons]
    rcases List.mem_cons.mp hu with h1 | h1
    · subst h1
      constructor
      · have hmono : ∀ (rr : List AwsUser) (r' : UserSyncResult) (n : String),
            lookupA r'.index n ≠ none →
            lookupA (rr.foldl (fun r u =>
              { r with index := insertA r.index u.userName u
                       indexByUserId := insertA r.indexByUserId u.userId u }) r').index n ≠
              none := by
          intro rr
          induction rr with
          | nil => intro r' n h; exact h
          | cons y rest' ih' =>
            intro r' n h
            simp only [List.foldl_cons]
            exact ih' _ n (lookupA_insertA_ne_none _ _ h)
        refine hmono rest _ u.userName ?_
        simp
      · have hmono : ∀ (rr : List AwsUser) (r' : UserSyncResult) (v : Nat),
            lookupA r'.indexByUserId v ≠ none →
            lookupA (rr.foldl (fun r u =>
              { r with index := insertA r.index u.userName u
                       indexByUserId := insertA r.indexByUserId u.userId u }) r').indexByUserId
              v ≠ none := by
          intro rr
          induction rr with
          | nil => intro r' v h; exact h
          | cons y rest' ih' =>
            intro r' v h
            simp only [List.foldl_cons]
            exact ih' _ v (lookupA_insertA_ne_none _ _ h)
        refine hmono rest _ u.userId ?_
        simp
    · exact ih _ u h1

/-- The index of a full target listing is defined at exactly the listed
usernames (and the id index at the listed ids). -/
theorem buildUserIndex_names (l : List AwsUser) (n : String) :
    lookupA (buildUserIndex l).index n ≠ none ↔ n ∈ userNames l := by
  constructor
  · intro h
    cases hlk : lookupA (buildUserIndex l).index n with
    | none => exact absurd hlk h
    | some u =>
      have := (buildUserIndex_entries l).1 (n, u) (mem_of_lookupA hlk)
      simp only [userNames]
      exact List.mem_map.mpr ⟨u, this.1, this.2.symm⟩
  · intro h
    simp only [userNames] at h
    obtain ⟨u, hu, he⟩ := List.mem_map.mp h
    subst he
    exact (uFold_hit_isSome l ⟨[], [], []⟩ u hu).1

theorem buildUserIndex_ids (l : List AwsUser) (v : Nat) :
    lookupA (buildUserIndex l).indexByUserId v ≠ none ↔ v ∈ userIds l := by
  constructor
  · intro h
    cases hlk : lookupA (buildUserIndex l).indexByUserId v with
    | none => exact absurd hlk h
    | some u =>
      have := (buildUserIndex_entries l).2 (v, u) (mem_of_lookupA hlk)
      simp only [userIds]
      exact List.mem_map.mpr ⟨u, this.1, this.2.symm⟩
  · intro h
    simp only [userIds] at h
    obtain ⟨u, hu, he⟩ := List.mem_map.mp h
    subst he
    exact (uFold_hit_isSome l ⟨[], [], []⟩ u hu).2

/-- With distinct usernames, the index maps each listed user's name to that
user. -/
theorem buildUserIndex_lookup_iff (l : List AwsUser) (hnn : (userNames l).Nodup)
    (n : String) (u : AwsUser) :
    lookupA (buildUserIndex l).index n = some u ↔ u ∈ l ∧ u.userName = n := by
  constructor
  · intro h
    have := (buildUserIndex_entries l).1 (n, u) (mem_of_lookupA h)
    exact ⟨this.1, this.2.symm⟩
  · rintro ⟨hu, rfl⟩
    suffices hh : ∀ (sub : List AwsUser) (r : UserSyncResult), (userNames sub).Nodup →
        u ∈ sub →
        lookupA (sub.foldl (fun r u =>
          { r with index := insertA r.index u.userName u
                   indexByUserId := insertA r.indexByUserId u.userId u }) r).index
          u.userName = some u by
      exact hh l ⟨[], [], []⟩ hnn hu
    intro sub
    induction sub with
    | nil => intro r _ hm; simp at hm
    | cons x rest ih =>
      intro r hnd hm
      simp only [userNames, List.map_cons, List.nodup_cons] at hnd
      simp only [List.foldl_cons]
      rcases List.mem_cons.mp hm with h1 | h1
      · subst h1
        rw [(uFold_untouched rest _ u.userName 0).1 (by simpa [userNames] using hnd.1)]
        simp
      · exact ih _ hnd.2 h1

theorem buildUserIndex_lookupId_iff (l : List AwsUser) (hni : (userIds l).Nodup)
    (v : Nat) (u : AwsUser) :
    lookupA (buildUserIndex l).indexByUserId v = some u ↔ u ∈ l ∧ u.userId = v := by
  constructor
  · intro h
    have := (buildUserIndex_entries l).2 (v, u) (mem_of_lookupA h)
    exact ⟨this.1, this.2.symm⟩
  · rintro ⟨hu, rfl⟩
    suffices hh : ∀ (sub : List AwsUser) (r : UserSyncResult), (userIds sub).Nodup →
        u ∈ sub →
        lookupA (sub.foldl (fun r u =>
          { r with index := insertA r.index u.userName u
                   indexByUserId := insertA r.indexByUserId u.userId u }) r).indexByUserId
          u.userId = some u by
      exact hh l ⟨[], [], []⟩ hni hu
    intro sub
    induction sub with
    | nil => intro r _ hm; simp at hm
    | cons x rest ih =>
      intro r hnd hm
      simp only [userIds, List.map_cons, List.nodup_cons] at hnd
      simp only [List.foldl_cons]
      rcases List.mem_cons.mp hm with h1 | h1
      · subst h1
        rw [(uFold_untouched rest _ "" u.userId).2 (by simpa [userIds] using hnd.1)]
        simp
      · exact ih _ hnd.2 h1

/-- With distinct usernames and user ids, the two index maps of a fresh
listing agree with each other. -/
theorem buildUserIndex_perfect (l : List AwsUser) (hnn : (userNames l).Nodup)
    (hni : (userIds l).Nodup) : PerfectIdx (buildUserIndex l) := by
  refine ⟨buildUserIndex_kv l, ?_, ?_⟩
  · intro k w hw
    have h1 := (buildUserIndex_lookup_iff l hnn k w).mp hw
    exact (buildUserIndex_lookupId_iff l hni w.userId w).mpr ⟨h1.1, rfl⟩
  · intro v w hw
    have h1 := (buildUserIndex_lookupId_iff l hni v w).mp hw
    exact (buildUserIndex_lookup_iff l hnn w.userName w).mpr ⟨h1.1, rfl⟩

/-! ## Toward idempotence: the desired-membership map -/

theorem buildMemberList_fold_lookup (usr : UserSyncResult) :
    ∀ (l : List String) (acc : List (String × AwsUser)) (n : String),
      lookupA (l.foldl (fun ml m =>
        match lookupA usr.index m with
        | some val => insertA ml m val
        | none => ml) acc) n =
      if n ∈ l ∧ (lookupA usr.index n).isSome = true
        then lookupA usr.index n else lookupA acc n := by
  intro l
  induction l with
  | nil =>
    intro acc n
    simp
  | cons x rest ih =>
    intro acc n
    simp only [List.foldl_cons]
    rw [ih]
    by_cases hmem : n ∈ rest ∧ (lookupA usr.index n).isSome = true
    · rw [if_pos hmem, if_pos ⟨List.mem_cons_of_mem _ hmem.1, hmem.2⟩]
    · rw [if_neg hmem]
      by_cases hx : n = x
      · subst hx
        cases hlk : lookupA usr.index n with
        | some v =>
          simp only
          rw [if_pos ⟨List.mem_cons_self _ _, rfl⟩]
          simp
        | none =>
          simp only
          rw [if_neg ?_]
          intro hcon
          simp at hcon
      · cases hlk : lookupA usr.index x with
        | some v =>
          simp only
          rw [lookupA_insertA_ne _ _ _ _ hx]
          rw [if_neg ?_]
          intro hcon
          rcases List.mem_cons.mp hcon.1 with h1 | h1
          · exact hx h1
          · exact hmem ⟨h1, hcon.2⟩
        | none =>
          simp only
          rw [if_neg ?_]
          intro hcon
          rcases List.mem_cons.mp hcon.1 with h1 | h1
          · exact hx h1
          · exact hmem ⟨h1, hcon.2⟩

/-- The desired-membership map holds exactly the listed member emails that
resolve in the username index, each mapped to its index entry. -/
theorem buildMemberList_lookup (S : SourceSnapshot) (usr : UserSyncResult)
    (gg : AdminGroup) (n : String) (u : AwsUser) :
    lookupA (buildMemberList S usr gg) n = some u ↔
      n ∈ memberEmails S gg ∧ lookupA usr.index n = some u := by
  unfold buildMemberList
  rw [buildMemberList_fold_lookup usr _ [] n]
  by_cases hc : n ∈ memberEmails S gg ∧ (lookupA usr.index n).isSome = true
  · rw [if_pos (by exact ⟨hc.1, hc.2⟩)]
    constructor
    · intro h
      exact ⟨hc.1, h⟩
    · intro h
      exact h.2
  · rw [if_neg (by exact hc)]
    simp only [lookupA_nil, false_iff]
    constructor
    · intro h
      exact Option.noConfusion h
    · intro h
      exact absurd ⟨h.1, by rw [h.2]; rfl⟩ hc

theorem buildMemberList_good (S : SourceSnapshot) (usr : UserSyncResult)
    (gg : AdminGroup) : MLGood usr (buildMemberList S usr gg) := by
  intro n u h
  exact ((buildMemberList_lookup S usr gg n u).mp h).2

theorem buildMemberList_nodup (S : SourceSnapshot) (usr : UserSyncResult)
    (gg : AdminGroup) : (keysA (buildMemberList S usr gg)).Nodup := by
  unfold buildMemberList
  suffices h : ∀ (l : List String) (acc : List (String × AwsUser)),
      (keysA acc).Nodup →
      (keysA (l.foldl (fun ml m =>
        match lookupA usr.index m with
        | some val => insertA ml m val
        | none => ml) acc)).Nodup by
    exact h _ [] (by simp [keysA])
  intro l
  induction l with
  | nil => intro acc h; exact h
  | cons x rest ih =>
    intro acc h
    simp only [List.foldl_cons]
    cases hlk : lookupA usr.index x with
    | some v =>
      simp only
      exact ih _ (keysA_insertA_nodup h)
    | none =>
      simp only
      exact ih _ h

/-! ## Toward idempotence: the membership diff loop -/

theorem eraseA_lookup_sub {κ α : Type} [DecidableEq κ] {m : List (κ × α)}
    {k k' : κ} {v : α} (h : lookupA (eraseA m k) k' = some v) :
    lookupA m k' = some v := by
  by_cases hk : k' = k
  · subst hk
    rw [lookupA_eraseA_self] at h
    exact Option.noConfusion h
  · rwa [lookupA_eraseA_ne _ _ _ hk] at h

/-- On a membership listing that already agrees with the desired member list,
the diff loop marks nothing for removal and consumes the whole desired map. -/
theorem diff_noop (usr : UserSyncResult) (hperf : PerfectIdx usr) :
    ∀ (ms : List GroupMembership) (ml : List (String × AwsUser))
      (toDel0 : List GroupMembership),
      (keysA ml).Nodup → MLGood usr ml →
      List.Perm (midsOf ms) ((valuesA ml).map (fun u => MemberId.userId u.userId)) →
      ms.foldl (diffStep usr) (some (toDel0, ml)) = some (toDel0, []) := by
  intro ms
  induction ms with
  | nil =>
    intro ml toDel0 hn hgood hperm
    have h1 : (valuesA ml).map (fun u => MemberId.userId u.userId) = [] :=
      List.perm_nil.mp hperm.symm
    have hml : ml = [] := List.map_eq_nil_iff.mp (List.map_eq_nil_iff.mp h1)
    rw [hml]
    rfl
  | cons m ms' ih =>
    intro ml toDel0 hn hgood hperm
    have hmem : m.memberId ∈ (valuesA ml).map (fun u => MemberId.userId u.userId) :=
      hperm.mem_iff.mp (by simp [midsOf])
    obtain ⟨u', hu', hmid⟩ := List.mem_map.mp hmem
    obtain ⟨n, hn'⟩ := mem_valuesA.mp hu'
    have hlku : lookupA ml n = some u' := lookupA_of_mem_nodup hn hn'
    have hidx : lookupA usr.index n = some u' := hgood n u' hlku
    have hname : u'.userName = n := hperf.1.1 n u' hidx
    have hbyid : lookupA usr.indexByUserId u'.userId = some u' := hperf.2.1 n u' hidx
    have hstep : diffStep usr (some (toDel0, ml)) m = some (toDel0, eraseA ml n) := by
      unfold diffStep
      rw [← hmid]
      simp only
      rw [hbyid]
      simp only
      rw [hname, hlku]
      simp
    simp only [List.foldl_cons, hstep]
    refine ih (eraseA ml n) toDel0 (keysA_eraseA_nodup hn)
      (fun n' u hlk => hgood n' u (eraseA_lookup_sub hlk)) ?_
    have hv2 : List.Perm ((valuesA ml).map (fun u => MemberId.userId u.userId))
        (m.memberId :: (valuesA (eraseA ml n)).map (fun u => MemberId.userId u.userId)) := by
      have h2 := (valuesA_perm_of_lookup hn hlku).map (fun u => MemberId.userId u.userId)
      simp only [List.map_cons] at h2
      rw [hmid] at h2
      exact h2
    have h3 : List.Perm (m.memberId :: midsOf ms')
        (m.memberId :: (valuesA (eraseA ml n)).map (fun u => MemberId.userId u.userId)) := by
      refine List.Perm.trans ?_ (hperm.trans hv2)
      simp [midsOf]
    exact List.Perm.cons_inv h3

/-- General shape of the diff loop: it partitions the listing into confirmed
memberships and a removal set, consuming from the desired map exactly the
member identifiers it confirms. -/
theorem diff_general (usr : UserSyncResult) (hperf : PerfectIdx usr) :
    ∀ (ms : List GroupMembership) (ml : List (String × AwsUser))
      (toDel0 : List GroupMembership),
      (keysA ml).Nodup → MLGood usr ml → AllUserId ms →
      ∃ (toDel kept : List GroupMembership) (ml' : List (String × AwsUser)),
        ms.foldl (diffStep usr) (some (toDel0, ml)) = some (toDel0 ++ toDel, ml') ∧
        List.Perm ms (kept ++ toDel) ∧
        (keysA ml').Nodup ∧
        (∀ n u, lookupA ml' n = some u → lookupA ml n = some u) ∧
        List.Perm (midsOf kept ++ (valuesA ml').map (fun u => MemberId.userId u.userId))
          ((valuesA ml).map (fun u => MemberId.userId u.userId)) := by
  intro ms
  induction ms with
  | nil =>
    intro ml toDel0 hn hgood _
    exact ⟨[], [], ml, by simp, by simp, hn, fun n u h => h, by simp [midsOf]⟩
  | cons m ms' ih =>
    intro ml toDel0 hn hgood hall
    obtain ⟨v, hvm⟩ := hall m (List.mem_cons_self _ _)
    have hall' : AllUserId ms' := fun x hx => hall x (List.mem_cons_of_mem _ hx)
    cases hbyid : lookupA usr.indexByUserId v with
    | none =>
      have hstep : diffStep usr (some (toDel0, ml)) m = some (toDel0 ++ [m], ml) := by
        unfold diffStep
        rw [hvm]
        simp only
        rw [hbyid]
      obtain ⟨toDel₁, kept₁, ml', hfold, hplist, hn', hsub, hmids⟩ :=
        ih ml (toDel0 ++ [m]) hn hgood hall'
      refine ⟨m :: toDel₁, kept₁, ml', ?_, ?_, hn', hsub, hmids⟩
      · simp only [List.foldl_cons, hstep, hfold]
        rw [List.append_assoc]
        rfl
      · refine (List.Perm.cons m hplist).trans ?_
        exact List.perm_middle.symm
    | some user =>
      have huser : user.userId = v := hperf.1.2 v user hbyid
      have hidxuser : lookupA usr.index user.userName = some user := hperf.2.2 v user hbyid
      cases hlkml : lookupA ml user.userName with
      | none =>
        have herase : eraseA ml user.userName = ml :=
          eraseA_of_not_mem (lookupA_eq_none_iff.mp hlkml)
        have hstep : diffStep usr (some (toDel0, ml)) m = some (toDel0 ++ [m], ml) := by
          unfold diffStep
          rw [hvm]
          simp only
          rw [hbyid]
          simp only
          rw [hlkml, herase]
          simp
        obtain ⟨toDel₁, kept₁, ml', hfold, hplist, hn', hsub, hmids⟩ :=
          ih ml (toDel0 ++ [m]) hn hgood hall'
        refine ⟨m :: toDel₁, kept₁, ml', ?_, ?_, hn', hsub, hmids⟩
        · simp only [List.foldl_cons, hstep, hfold]
          rw [List.append_assoc]
          rfl
        · refine (List.Perm.cons m hplist).trans ?_
          exact List.perm_middle.symm
      | some u' =>
        have hidxu2 : lookupA usr.index user.userName = some u' := hgood _ _ hlkml
        have hue : u' = user := by
          rw [hidxuser] at hidxu2
          exact (Option.some.inj hidxu2).symm
        subst hue
        have hstep : diffStep usr (some (toDel0, ml)) m =
            some (toDel0, eraseA ml u'.userName) := by
          unfold diffStep
          rw [hvm]
          simp only
          rw [hbyid]
          simp only
          rw [hlkml]
          simp
        obtain ⟨toDel₁, kept₁, ml'', hfold, hplist, hn', hsub, hmids⟩ :=
          ih (eraseA ml u'.userName) toDel0 (keysA_eraseA_nodup hn)
            (fun n u hlk => hgood n u (eraseA_lookup_sub hlk)) hall'
        refine ⟨toDel₁, m :: kept₁, ml'', ?_, ?_, hn', ?_, ?_⟩
        · simp only [List.foldl_cons, hstep, hfold]
        · exact List.Perm.cons m hplist
        · exact fun n u hlk => eraseA_lookup_sub (hsub n u hlk)
        · have h2 := (valuesA_perm_of_lookup hn hlkml).map
            (fun u => MemberId.userId u.userId)
          simp only [List.map_cons] at h2
          rw [huser, ← hvm] at h2
          have hfinal : List.Perm
              (midsOf (m :: kept₁) ++
                (valuesA ml'').map (fun u => MemberId.userId u.userId))
              (m.memberId ::
                (valuesA (eraseA ml u'.userName)).map (fun u => MemberId.userId u.userId)) := by
            simp only [midsOf, List.map_cons, List.cons_append]
            exact List.Perm.cons _ (by simpa [midsOf] using hmids)
          exact hfinal.trans h2.symm

/-! ## Toward idempotence: the mutation loops when every call succeeds -/

theorem applyRemovals_ok (l : List GroupMembership) :
    ∀ st : St,
      (applyRemovals envOk l st).2 = none ∧
      (applyRemovals envOk l st).1.ops = st.ops ++ l.map Op.removeGroupMembership ∧
      (applyRemovals envOk l st).1.nextId = st.nextId ∧
      (applyRemovals envOk l st).1.store.users = st.store.users ∧
      (applyRemovals envOk l st).1.store.groups = st.store.groups ∧
      (applyRemovals envOk l st).1.store.memberships =
        st.store.memberships.filter
          (fun m => decide (m.membershipId ∉ l.map (fun x => x.membershipId))) := by
  induction l with
  | nil =>
    intro st
    refine ⟨rfl, by simp [applyRemovals], rfl, rfl, rfl, ?_⟩
    simp [applyRemovals]
  | cons m rest ih =>
    intro st
    have hstep : applyRemovals envOk (m :: rest) st =
        applyRemovals envOk rest
          { store := { st.store with
              memberships := st.store.memberships.filter
                (fun x => !decide (x.membershipId = m.membershipId)) }
            ops := st.ops ++ [Op.removeGroupMembership m]
            nextId := st.nextId } := by
      conv_lhs => unfold applyRemovals
      simp [envOk]
    rw [hstep]
    obtain ⟨h1, h2, h3, h4, h5, h6⟩ := ih _
    refine ⟨h1, ?_, h3, h4, h5, ?_⟩
    · rw [h2]
      simp
    · rw [h6]
      simp only [List.filter_filter]
      refine List.filter_congr ?_
      intro x _
      by_cases hx : x.membershipId = m.membershipId
      · simp [hx]
      · simp [hx]

theorem applyAdditions_ok (g : AwsGroup) (l : List AwsUser) :
    ∀ st : St,
      (applyAdditions envOk g l st).2 = none ∧
      (applyAdditions envOk g l st).1.ops =
        st.ops ++ l.map (fun u => Op.addUserToGroup u g) ∧
      (applyAdditions envOk g l st).1.store.users = st.store.users ∧
      (applyAdditions envOk g l st).1.store.groups = st.store.groups ∧
      st.nextId ≤ (applyAdditions envOk g l st).1.nextId ∧
      ∃ newms : List GroupMembership,
        (applyAdditions envOk g l st).1.store.memberships =
          st.store.memberships ++ newms ∧
        newms.map (fun m => m.memberId) = l.map (fun u => MemberId.userId u.userId) ∧
        (∀ m ∈ newms, m.groupId = g.groupId ∧ st.nextId ≤ m.membershipId ∧
          m.membershipId < (applyAdditions envOk g l st).1.nextId) ∧
        (newms.map (fun m => m.membershipId)).Nodup := by
  induction l with
  | nil =>
    intro st
    exact ⟨rfl, by simp [applyAdditions], rfl, rfl, Nat.le_refl _, [],
      by simp [applyAdditions], by simp, by simp, by simp⟩
  | cons u rest ih =>
    intro st
    have hstep : applyAdditions envOk g (u :: rest) st =
        applyAdditions envOk g rest
          { store := { st.store with
              memberships := st.store.memberships ++
                [{ membershipId := st.nextId, groupId := g.groupId,
                   memberId := MemberId.userId u.userId }] }
            ops := st.ops ++ [Op.addUserToGroup u g]
            nextId := st.nextId + 1 } := by
      conv_lhs => unfold applyAdditions
      simp [envOk]
    rw [hstep]
    obtain ⟨h1, h2, h3, h4, h5, newms₁, hm1, hm2, hm3, hm4⟩ := ih _
    refine ⟨h1, ?_, h3, h4, ?_, ?_⟩
    · rw [h2]
      simp
    · exact Nat.le_of_lt (Nat.lt_of_lt_of_le (Nat.lt_succ_self _) h5)
    · refine ⟨GroupMembership.mk st.nextId g.groupId (MemberId.userId u.userId) :: newms₁,
        ?_, ?_, ?_, ?_⟩
      · rw [hm1]
        simp
      · simp only [List.map_cons, hm2]
      · intro m hm
        rcases List.mem_cons.mp hm with h | h
        · subst h
          exact ⟨rfl, Nat.le_refl _,
            Nat.lt_of_lt_of_le (Nat.lt_succ_self _) h5⟩
        · obtain ⟨ha, hb, hc⟩ := hm3 m h
          exact ⟨ha, Nat.le_of_lt (Nat.lt_of_lt_of_le (Nat.lt_succ_self _) hb), hc⟩
      · simp only [List.map_cons, List.nodup_cons]
        refine ⟨?_, hm4⟩
        intro hmem
        obtain ⟨m, hm, he⟩ := List.mem_map.mp hmem
        obtain ⟨_, hb, _⟩ := hm3 m hm
        rw [he] at hb
        exact Nat.not_succ_le_self st.nextId (Nat.le_trans (Nat.succ_le_succ (Nat.le_refl _)) hb)

theorem groupDeleteLoop_ok (l : List AwsGroup) :
    ∀ st : St,
      (groupDeleteLoop envOk l st).2 = none ∧
      (groupDeleteLoop envOk l st).1.ops = st.ops ++ l.map Op.deleteGroup ∧
      (groupDeleteLoop envOk l st).1.nextId = st.nextId ∧
      (groupDeleteLoop envOk l st).1.store.users = st.store.users ∧
      (groupDeleteLoop envOk l st).1.store.groups =
        st.store.groups.filter
          (fun x => decide (x.groupId ∉ l.map (fun y => y.groupId))) ∧
      (groupDeleteLoop envOk l st).1.store.memberships =
        st.store.memberships.filter
          (fun m => decide (m.groupId ∉ l.map (fun y => y.groupId))) := by
  induction l with
  | nil =>
    intro st
    exact ⟨rfl, by simp [groupDeleteLoop], rfl, rfl, by simp [groupDeleteLoop],
      by simp [groupDeleteLoop]⟩
  | cons a rest ih =>
    intro st
    have hstep : groupDeleteLoop envOk (a :: rest) st =
        groupDeleteLoop envOk rest
          { store := { st.store with
              groups := st.store.groups.filter (fun x => !decide (x.groupId = a.groupId))
              memberships := st.store.memberships.filter
                (fun m => !decide (m.groupId = a.groupId)) }
            ops := st.ops ++ [Op.deleteGroup a]
            nextId := st.nextId } := by
      conv_lhs => unfold groupDeleteLoop
      simp [envOk]
    rw [hstep]
    obtain ⟨h1, h2, h3, h4, h5, h6⟩ := ih _
    refine ⟨h1, ?_, h3, h4, ?_, ?_⟩
    · rw [h2]
      simp
    · rw [h5]
      simp only [List.filter_filter]
      refine List.filter_congr ?_
      intro x _
      by_cases hx : x.groupId = a.groupId <;> simp [hx]
    · rw [h6]
      simp only [List.filter_filter]
      refine List.filter_congr ?_
      intro x _
      by_cases hx : x.groupId = a.groupId <;> simp [hx]

theorem removeUsers_ok (l : List AwsUser) :
    ∀ st : St,
      (removeUsers envOk l st).2 = none ∧
      (removeUsers envOk l st).1.ops = st.ops ++ l.map Op.deleteUser ∧
      (removeUsers envOk l st).1.nextId = st.nextId ∧
      (removeUsers envOk l st).1.store.groups = st.store.groups ∧
      (removeUsers envOk l st).1.store.users =
        st.store.users.filter
          (fun x => decide (x.userId ∉ l.map (fun y => y.userId))) ∧
      (removeUsers envOk l st).1.store.memberships =
        st.store.memberships.filter
          (fun m => decide (m.memberId ∉ l.map (fun y => MemberId.userId y.userId))) := by
  induction l with
  | nil =>
    intro st
    exact ⟨rfl, by simp [removeUsers], rfl, rfl, by simp [removeUsers],
      by simp [removeUsers]⟩
  | cons a rest ih =>
    intro st
    have hstep : removeUsers envOk (a :: rest) st =
        removeUsers envOk rest
          { store := { st.store with
              users := st.store.users.filter (fun x => !decide (x.userId = a.userId))
              memberships := st.store.memberships.filter
                (fun m => !decide (m.memberId = MemberId.userId a.userId)) }
            ops := st.ops ++ [Op.deleteUser a]
            nextId := st.nextId } := by
      conv_lhs => unfold removeUsers
      simp [envOk]
    rw [hstep]
    obtain ⟨h1, h2, h3, h4, h5, h6⟩ := ih _
    refine ⟨h1, ?_, h3, h4, ?_, ?_⟩
    · rw [h2]
      simp
    · rw [h5]
      simp only [List.filter_filter]
      refine List.filter_congr ?_
      intro x _
      by_cases hx : x.userId = a.userId <;> simp [hx]
    · rw [h6]
      simp only [List.filter_filter]
      refine List.filter_congr ?_
      intro x _
      by_cases hx : x.memberId = MemberId.userId a.userId <;> simp [hx]


/-! ## Toward idempotence: reconciling one group when every call succeeds -/

theorem perm_filter_out {α β : Type} [DecidableEq β] (f : α → β)
    (l kept toDel : List α) (hperm : List.Perm l (kept ++ toDel))
    (hnd : (l.map f).Nodup) :
    List.Perm (l.filter (fun x => decide (f x ∉ toDel.map f))) kept := by
  have hnd2 : ((kept ++ toDel).map f).Nodup := ((hperm.map f).nodup_iff).mp hnd
  rw [List.map_append, List.nodup_append] at hnd2
  have hkeep : kept.filter (fun x => decide (f x ∉ toDel.map f)) = kept := by
    rw [List.filter_eq_self]
    intro x hx
    simp only [decide_eq_true_eq]
    intro hmem
    exact hnd2.2.2 (List.mem_map_of_mem f hx) hmem
  have hdel : toDel.filter (fun x => decide (f x ∉ toDel.map f)) = [] := by
    rw [List.filter_eq_nil_iff]
    intro x hx
    simp only [decide_eq_true_eq, not_not]
    exact List.mem_map_of_mem f hx
  have h1 := hperm.filter (fun x => decide (f x ∉ toDel.map f))
  rw [List.filter_append, hkeep, hdel, List.append_nil] at h1
  exact h1

/-- Reconciling one group when every call succeeds: no error, users and groups
untouched, identifiers stay fresh and distinct, the group's memberships end up
matching its desired member list, and every other group's memberships are
untouched. -/
theorem syncMembershipsForGroup_ok (S : SourceSnapshot) (usr : UserSyncResult)
    (gg : AdminGroup) (g : AwsGroup) (st : St)
    (hperf : PerfectIdx usr)
    (hall : AllUserId st.store.memberships)
    (hnd : (st.store.memberships.map (fun m => m.membershipId)).Nodup)
    (hbound : ∀ m ∈ st.store.memberships, m.membershipId < st.nextId) :
    ∃ st' : St,
      syncMembershipsForGroup envOk S usr (some gg) g st = (st', none) ∧
      st'.store.users = st.store.users ∧
      st'.store.groups = st.store.groups ∧
      st.nextId ≤ st'.nextId ∧
      AllUserId st'.store.memberships ∧
      (st'.store.memberships.map (fun m => m.membershipId)).Nodup ∧
      (∀ m ∈ st'.store.memberships, m.membershipId < st'.nextId) ∧
      List.Perm (midsOf (msOf st'.store g.groupId))
        ((valuesA (buildMemberList S usr gg)).map (fun u => MemberId.userId u.userId)) ∧
      (∀ i, i ≠ g.groupId → msOf st'.store i = msOf st.store i) := by
  have hndK := buildMemberList_nodup S usr gg
  have hgood := buildMemberList_good S usr gg
  have hallA : AllUserId (st.store.memberships.filter (fun m => m.groupId == g.groupId)) :=
    fun m hm => hall m (List.mem_of_mem_filter hm)
  obtain ⟨toDel, kept, ml', hfold, hplist, hndml', hsub, hmids⟩ :=
    diff_general usr hperf (st.store.memberships.filter (fun m => m.groupId == g.groupId))
      (buildMemberList S usr gg) [] hndK hgood hallA
  obtain ⟨r1, r2, r3, r4, r5, r6⟩ := applyRemovals_ok toDel st
  rcases hA : applyRemovals envOk toDel st with ⟨st₁, e₁⟩
  rw [hA] at r1 r2 r3 r4 r5 r6
  have he1 : e₁ = none := r1
  subst he1
  have r2' : st₁.ops = st.ops ++ toDel.map Op.removeGroupMembership := r2
  have r3' : st₁.nextId = st.nextId := r3
  have r4' : st₁.store.users = st.store.users := r4
  have r5' : st₁.store.groups = st.store.groups := r5
  have r6' : st₁.store.memberships = st.store.memberships.filter
      (fun m => decide (m.membershipId ∉ toDel.map (fun x => x.membershipId))) := r6
  obtain ⟨a1, a2, a3, a4, a5, newms, am1, am2, am3, am4⟩ :=
    applyAdditions_ok g (valuesA ml') st₁
  rcases hB : applyAdditions envOk g (valuesA ml') st₁ with ⟨st₂, e₂⟩
  rw [hB] at a1 a2 a3 a4 a5 am1 am3
  have he2 : e₂ = none := a1
  subst he2
  have a3' : st₂.store.users = st₁.store.users := a3
  have a4' : st₂.store.groups = st₁.store.groups := a4
  have a5' : st₁.nextId ≤ st₂.nextId := a5
  have am1' : st₂.store.memberships = st₁.store.memberships ++ newms := am1
  have am2' : newms.map (fun m => m.memberId) =
      (valuesA ml').map (fun u => MemberId.userId u.userId) := am2
  have am3' : ∀ m ∈ newms, m.groupId = g.groupId ∧ st₁.nextId ≤ m.membershipId ∧
      m.membershipId < st₂.nextId := am3
  have am4' : (newms.map (fun m => m.membershipId)).Nodup := am4
  have heq : syncMembershipsForGroup envOk S usr (some gg) g st = (st₂, none) := by
    unfold syncMembershipsForGroup
    simp only
    rw [hfold]
    simp only [List.nil_append]
    rw [hA]
    simp only
    exact hB
  have hM : st₂.store.memberships =
      st.store.memberships.filter
        (fun m => decide (m.membershipId ∉ toDel.map (fun x => x.membershipId))) ++ newms := by
    rw [am1', r6']
  have hndA : ((st.store.memberships.filter (fun m => m.groupId == g.groupId)).map
      (fun m => m.membershipId)).Nodup :=
    List.Nodup.sublist ((List.filter_sublist _).map _) hnd
  refine ⟨st₂, heq, a3'.trans r4', a4'.trans r5', ?_, ?_, ?_, ?_, ?_, ?_⟩
  · rw [← r3']
    exact a5'
  · intro m hm
    rw [hM] at hm
    rcases List.mem_append.mp hm with h | h
    · exact hall m (List.mem_of_mem_filter h)
    · have hmm : m.memberId ∈ newms.map (fun m => m.memberId) := List.mem_map_of_mem _ h
      rw [am2'] at hmm
      obtain ⟨u, _, he⟩ := List.mem_map.mp hmm
      exact ⟨u.userId, he.symm⟩
  · rw [hM, List.map_append, List.nodup_append]
    refine ⟨List.Nodup.sublist ((List.filter_sublist _).map _) hnd, am4', ?_⟩
    intro a ha hb
    obtain ⟨m, hm, rfl⟩ := List.mem_map.mp ha
    obtain ⟨m', hm', he⟩ := List.mem_map.mp hb
    have h1 : m.membershipId < st.nextId := hbound m (List.mem_of_mem_filter hm)
    have h2 : st.nextId ≤ m.membershipId := by
      rw [← he, ← r3']
      exact (am3' m' hm').2.1
    exact Nat.lt_irrefl _ (Nat.lt_of_lt_of_le h1 h2)
  · intro m hm
    rw [hM] at hm
    rcases List.mem_append.mp hm with h | h
    · exact Nat.lt_of_lt_of_le (hbound m (List.mem_of_mem_filter h))
        (by rw [← r3']; exact a5')
    · exact (am3' m h).2.2
  · have hnewg : newms.filter (fun m => m.groupId == g.groupId) = newms := by
      rw [List.filter_eq_self]
      intro m hm
      have hg := (am3' m hm).1
      simp [hg]
    have hmsg : msOf st₂.store g.groupId =
        (st.store.memberships.filter (fun m => m.groupId == g.groupId)).filter
          (fun m => decide (m.membershipId ∉ toDel.map (fun x => x.membershipId))) ++ newms := by
      unfold msOf
      rw [hM, List.filter_append, hnewg]
      congr 1
      simp only [List.filter_filter]
      refine List.filter_congr ?_
      intro x _
      rw [Bool.and_comm]
    have hpk : List.Perm
        ((st.store.memberships.filter (fun m => m.groupId == g.groupId)).filter
          (fun m => decide (m.membershipId ∉ toDel.map (fun x => x.membershipId)))) kept :=
      perm_filter_out (fun m => m.membershipId) _ kept toDel hplist hndA
    rw [hmsg]
    refine List.Perm.trans ?_ hmids
    unfold midsOf
    rw [List.map_append]
    refine List.Perm.append (hpk.map _) ?_
    rw [am2']
  · intro i hi
    unfold msOf
    rw [hM, List.filter_append]
    have hnew0 : newms.filter (fun m => m.groupId == i) = [] := by
      rw [List.filter_eq_nil_iff]
      intro m hm
      have hg := (am3' m hm).1
      simp [hg]
      intro hc
      exact hi hc.symm
    rw [hnew0, List.append_nil]
    simp only [List.filter_filter]
    refine List.filter_congr ?_
    intro a ha
    by_cases hgi : a.groupId = i
    · have hP : a.membershipId ∉ toDel.map (fun x => x.membershipId) := by
        intro hmem
        obtain ⟨d, hd, hde⟩ := List.mem_map.mp hmem
        have hdA : d ∈ st.store.memberships.filter (fun m => m.groupId == g.groupId) :=
          hplist.mem_iff.mpr (List.mem_append.mpr (Or.inr hd))
        have hdg : d.groupId = g.groupId := by
          have := List.of_mem_filter hdA
          simpa using this
        have hda : d = a :=
          List.inj_on_of_nodup_map hnd (List.mem_of_mem_filter hdA) ha hde
        rw [hda, hgi] at hdg
        exact hi hdg
      simp [hgi, hP]
    · simp [hgi]

/-- The membership loop when every call succeeds: each listed group, looked up
in the Google-group index, ends with memberships matching its desired member
list; other groups' memberships are untouched; the store invariants carry
through. -/
theorem membershipLoop_ok (S : SourceSnapshot) (usr : UserSyncResult)
    (ggIndex : List (String × AdminGroup)) (hperf : PerfectIdx usr) :
    ∀ (l : List (String × AwsGroup)) (st : St),
      (∀ p ∈ l, (lookupA ggIndex p.2.displayName).isSome = true) →
      (l.map (fun p => p.2.groupId)).Nodup →
      AllUserId st.store.memberships →
      (st.store.memberships.map (fun m => m.membershipId)).Nodup →
      (∀ m ∈ st.store.memberships, m.membershipId < st.nextId) →
      ∃ st' : St,
        membershipLoop envOk S usr ggIndex l st = (st', none) ∧
        st'.store.users = st.store.users ∧
        st'.store.groups = st.store.groups ∧
        st.nextId ≤ st'.nextId ∧
        AllUserId st'.store.memberships ∧
        (st'.store.memberships.map (fun m => m.membershipId)).Nodup ∧
        (∀ m ∈ st'.store.memberships, m.membershipId < st'.nextId) ∧
        (∀ p ∈ l, ∃ gg, lookupA ggIndex p.2.displayName = some gg ∧
          List.Perm (midsOf (msOf st'.store p.2.groupId))
            ((valuesA (buildMemberList S usr gg)).map
              (fun u => MemberId.userId u.userId))) ∧
        (∀ i, i ∉ l.map (fun p => p.2.groupId) → msOf st'.store i = msOf st.store i) := by
  intro l
  induction l with
  | nil =>
    intro st _ _ hall hnd hbound
    exact ⟨st, rfl, rfl, rfl, Nat.le_refl _, hall, hnd, hbound, by simp,
      fun i _ => rfl⟩
  | cons p rest ih =>
    intro st hlk hndg hall hnd hbound
    obtain ⟨k, g⟩ := p
    have hlkp := hlk (k, g) (List.mem_cons_self _ _)
    obtain ⟨gg, hgg⟩ := Option.isSome_iff_exists.mp hlkp
    obtain ⟨st₁, heq1, hu1, hg1, hn1, hall1, hnd1, hbound1, hperm1, hoth1⟩ :=
      syncMembershipsForGroup_ok S usr gg g st hperf hall hnd hbound
    have hstep : membershipLoop envOk S usr ggIndex ((k, g) :: rest) st =
        membershipLoop envOk S usr ggIndex rest st₁ := by
      conv_lhs => unfold membershipLoop
      rw [hgg, heq1]
    have hlkr : ∀ p ∈ rest, (lookupA ggIndex p.2.displayName).isSome = true :=
      fun q hq => hlk q (List.mem_cons_of_mem _ hq)
    have hndg' : ((k, g).2.groupId ∉ rest.map (fun p => p.2.groupId)) ∧
        (rest.map (fun p => p.2.groupId)).Nodup := by
      simpa only [List.map_cons, List.nodup_cons] using hndg
    obtain ⟨st₂, heq2, hu2, hg2, hn2, hall2, hnd2, hbound2, hperm2, hoth2⟩ :=
      ih st₁ hlkr hndg'.2 hall1 hnd1 hbound1
    refine ⟨st₂, by rw [hstep]; exact heq2, hu2.trans hu1, hg2.trans hg1,
      Nat.le_trans hn1 hn2, hall2, hnd2, hbound2, ?_, ?_⟩
    · intro q hq
      rcases List.mem_cons.mp hq with h | h
      · subst h
        refine ⟨gg, hgg, ?_⟩
        have hgoth : msOf st₂.store g.groupId = msOf st₁.store g.groupId :=
          hoth2 g.groupId hndg'.1
        show List.Perm (midsOf (msOf st₂.store g.groupId)) _
        rw [hgoth]
        exact hperm1
      · exact hperm2 q h
    · intro i hi
      have hi1 : i ∉ rest.map (fun p => p.2.groupId) := by
        intro hc
        exact hi (by simp only [List.map_cons]; exact List.mem_cons_of_mem _ hc)
      have hig : i ≠ g.groupId := by
        intro hc
        refine hi ?_
        simp only [List.map_cons, hc]
        exact List.mem_cons_self _ _
      rw [hoth2 i hi1, hoth1 i hig]

/-- On a store whose memberships for the group already match the desired member
list, reconciling the group is a complete no-op. -/
theorem syncMembershipsForGroup_noop (S : SourceSnapshot) (usr : UserSyncResult)
    (gg : AdminGroup) (g : AwsGroup) (st : St)
    (hperf : PerfectIdx usr)
    (hmatch : List.Perm (midsOf (msOf st.store g.groupId))
      ((valuesA (buildMemberList S usr gg)).map (fun u => MemberId.userId u.userId))) :
    syncMembershipsForGroup envOk S usr (some gg) g st = (st, none) := by
  have hfold := diff_noop usr hperf
    (st.store.memberships.filter (fun m => m.groupId == g.groupId))
    (buildMemberList S usr gg) [] (buildMemberList_nodup S usr gg)
    (buildMemberList_good S usr gg) hmatch
  unfold syncMembershipsForGroup
  simp only
  rw [hfold]
  rfl

/-- On a store where every listed group's memberships already match, the
membership loop is a complete no-op. -/
theorem membershipLoop_noop (S : SourceSnapshot) (usr : UserSyncResult)
    (ggIndex : List (String × AdminGroup)) (hperf : PerfectIdx usr) :
    ∀ (l : List (String × AwsGroup)) (st : St),
      (∀ p ∈ l, ∃ gg, lookupA ggIndex p.2.displayName = some gg ∧
        List.Perm (midsOf (msOf st.store p.2.groupId))
          ((valuesA (buildMemberList S usr gg)).map
            (fun u => MemberId.userId u.userId))) →
      membershipLoop envOk S usr ggIndex l st = (st, none) := by
  intro l
  induction l with
  | nil => intro st _; rfl
  | cons p rest ih =>
    intro st h
    obtain ⟨k, g⟩ := p
    obtain ⟨gg, hgg, hperm⟩ := h (k, g) (List.mem_cons_self _ _)
    have hne := syncMembershipsForGroup_noop S usr gg g st hperf hperm
    conv_lhs => unfold membershipLoop
    rw [hgg, hne]
    exact ih st (fun q hq => h q (List.mem_cons_of_mem _ hq))



/-! ## Small association and freshness helpers -/

theorem lookupA_map_snd {κ α β : Type} [DecidableEq κ] (f : α → β) :
    ∀ (m : List (κ × α)) (k : κ),
      lookupA (m.map (fun p => (p.1, f p.2))) k = Option.map f (lookupA m k) := by
  intro m
  induction m with
  | nil => intro k; rfl
  | cons p rest ih =>
    intro k
    obtain ⟨k', v⟩ := p
    by_cases hk : k' = k
    · subst hk
      simp [lookupA]
    · simp [lookupA, hk, ih]

theorem valuesA_map_snd {κ α β : Type} (f : α → β) (m : List (κ × α)) :
    valuesA (m.map (fun p => (p.1, f p.2))) = (valuesA m).map f := by
  unfold valuesA
  rw [List.map_map, List.map_map]
  rfl

theorem keysA_map_snd {κ α β : Type} (f : α → β) (m : List (κ × α)) :
    keysA (m.map (fun p => (p.1, f p.2))) = keysA m := by
  unfold keysA
  rw [List.map_map]
  rfl

theorem valuesA_filter_snd {κ α : Type} (q : α → Bool) (m : List (κ × α)) :
    valuesA (m.filter (fun p => q p.2)) = (valuesA m).filter q := by
  induction m with
  | nil => rfl
  | cons p rest ih =>
    obtain ⟨k, v⟩ := p
    by_cases hq : q v
    · simp [valuesA, List.filter_cons, hq] at ih ⊢
      exact ih
    · have hq' : q v = false := by
        cases hh : q v
        · rfl
        · exact absurd hh hq
      simp [valuesA, List.filter_cons, hq'] at ih ⊢
      exact ih

theorem map_filter_comm {α β : Type} (f : α → β) (p : β → Bool) (l : List α) :
    (l.filter (fun a => p (f a))).map f = (l.map f).filter p := by
  induction l with
  | nil => rfl
  | cons a rest ih =>
    by_cases hp : p (f a)
    · simp [List.filter_cons, hp, ih]
    · have hp' : p (f a) = false := by
        cases hh : p (f a)
        · rfl
        · exact absurd hh hp
      simp [List.filter_cons, hp', ih]

theorem le_foldr_max (l : List Nat) : ∀ i ∈ l, i ≤ l.foldr max 0 := by
  induction l with
  | nil => intro i hi; cases hi
  | cons a rest ih =>
    intro i hi
    rcases List.mem_cons.mp hi with h | h
    · subst h
      exact Nat.le_max_left _ _
    · exact Nat.le_trans (ih i h) (Nat.le_max_right _ _)

theorem freshBase_users (T : TargetSnapshot) : ∀ u ∈ T.users, u.userId < freshBase T := by
  intro u hu
  have h1 : u.userId ∈ targetIds T := by
    unfold targetIds
    refine List.mem_append.mpr (Or.inl (List.mem_append.mpr (Or.inl (List.mem_append.mpr
      (Or.inl ?_)))))
    exact List.mem_map_of_mem _ hu
  exact Nat.lt_succ_of_le (le_foldr_max _ _ h1)

theorem freshBase_groups (T : TargetSnapshot) : ∀ g ∈ T.groups, g.groupId < freshBase T := by
  intro g hg
  have h1 : g.groupId ∈ targetIds T := by
    unfold targetIds
    refine List.mem_append.mpr (Or.inl (List.mem_append.mpr (Or.inl (List.mem_append.mpr
      (Or.inr ?_)))))
    exact List.mem_map_of_mem _ hg
  exact Nat.lt_succ_of_le (le_foldr_max _ _ h1)

theorem freshBase_memberships (T : TargetSnapshot) :
    ∀ m ∈ T.memberships, m.membershipId < freshBase T := by
  intro m hm
  have h1 : m.membershipId ∈ targetIds T := by
    unfold targetIds
    refine List.mem_append.mpr (Or.inl (List.mem_append.mpr (Or.inr ?_)))
    exact List.mem_map_of_mem _ hm
  exact Nat.lt_succ_of_le (le_foldr_max _ _ h1)



/-! ## Toward idempotence: the user phase under a successful environment -/

theorem nodup_append_singleton {α : Type} {l : List α} {x : α}
    (h : l.Nodup) (hx : x ∉ l) : (l ++ [x]).Nodup := by
  rw [List.nodup_append]
  exact ⟨h, List.nodup_singleton x, fun a ha hb => hx ((List.mem_singleton.mp hb) ▸ ha)⟩

/-- Every tombstone whose email resolves in the (loop-constant) index marks
the resolved user. -/
theorem tombstoneLoop_complete :
    ∀ (ds : List GoogleUser) (r : UserSyncResult) (d : GoogleUser) (w : AwsUser),
      d ∈ ds → lookupA r.index d.primaryEmail = some w →
      w ∈ (ds.foldl tombstoneStep r).toDelete := by
  intro ds
  induction ds with
  | nil => intro r d w hd _; cases hd
  | cons d0 rest ih =>
    intro r d w hd hlk
    simp only [List.foldl_cons]
    have hidx : (tombstoneStep r d0).index = r.index := by
      unfold tombstoneStep
      cases lookupA r.index d0.primaryEmail <;> rfl
    rcases List.mem_cons.mp hd with h | h
    · subst h
      have hstep : w ∈ (tombstoneStep r d).toDelete := by
        unfold tombstoneStep
        rw [hlk]
        simp
      obtain ⟨_, _, δ, hδ, _⟩ := tombstoneLoop_spec rest (tombstoneStep r d)
      rw [hδ]
      exact List.mem_append.mpr (Or.inl hstep)
    · refine ih (tombstoneStep r d0) d w h ?_
      rw [hidx]
      exact hlk

/-- Full invariant of the active-user loop under a successful environment:
index perfection, index-store agreement, store growth restricted to fresh
users named by active source listings, pending-deletion provenance, and
completeness of creation and of suspension-driven deletion marking. -/
theorem activeLoop_inv (cfg : Config) (S : SourceSnapshot) (orig : List AwsUser) :
    ∀ (us : List GoogleUser) (s : UserPhaseState) (newus : List AwsUser),
      (∀ u ∈ us, u ∈ S.users) →
      (us.map (fun u => u.primaryEmail)).Nodup →
      PerfectIdx s.r →
      (∀ n w, lookupA s.r.index n = some w → w.userId < s.st.nextId) →
      (∀ n w, lookupA (buildUserIndex orig).index n = some w →
        lookupA s.r.index n = some w) →
      IdxStore s.r s.st.store.users →
      s.st.store.users = orig ++ newus →
      (userNames s.st.store.users).Nodup →
      (userIds s.st.store.users).Nodup →
      (∀ u ∈ s.st.store.users, u.userId < s.st.nextId) →
      (∀ u ∈ newus, lookupA (buildUserIndex orig).index u.userName = none ∧
        ActiveListed cfg S u.userName ∧ ∀ v ∈ us, v.primaryEmail ≠ u.userName) →
      (∀ n w, lookupA s.r.index n = some w → w ∈ orig ∨
        w.userName ∈ userNames newus) →
      ∃ s' : UserPhaseState, us.foldl (activeStep cfg envOk) s = s' ∧
        ∃ (extra : List AwsUser) (δ : List AwsUser),
        PerfectIdx s'.r ∧
        (∀ n w, lookupA s'.r.index n = some w → w.userId < s'.st.nextId) ∧
        (∀ n w, lookupA (buildUserIndex orig).index n = some w →
          lookupA s'.r.index n = some w) ∧
        IdxStore s'.r s'.st.store.users ∧
        s'.st.store.users = orig ++ (newus ++ extra) ∧
        (userNames s'.st.store.users).Nodup ∧
        (userIds s'.st.store.users).Nodup ∧
        (∀ u ∈ s'.st.store.users, u.userId < s'.st.nextId) ∧
        (∀ u ∈ newus ++ extra, lookupA (buildUserIndex orig).index u.userName = none ∧
          ActiveListed cfg S u.userName) ∧
        (∀ n w, lookupA s'.r.index n = some w → w ∈ orig ∨
          w.userName ∈ userNames (newus ++ extra)) ∧
        (∀ u ∈ extra, s.st.nextId ≤ u.userId) ∧
        s.st.nextId ≤ s'.st.nextId ∧
        s'.r.toDelete = s.r.toDelete ++ δ ∧
        (∀ w ∈ δ, w ∈ orig ∧ SuspListed cfg S w.userName) ∧
        (∀ gu ∈ us, ignoreUser cfg gu.primaryEmail = false → gu.suspended = false →
          gu.primaryEmail ∈ userNames s'.st.store.users) ∧
        (∀ gu ∈ us, ignoreUser cfg gu.primaryEmail = false → gu.suspended = true →
          (lookupA s.r.index gu.primaryEmail).isSome = true →
          ∃ w ∈ s'.r.toDelete, w.userName = gu.primaryEmail) := by
  intro us
  induction us with
  | nil =>
    intro s newus _ _ hperf hfr hmono hIdx heq hnn hni hbnd hnew h8
    refine ⟨s, rfl, [], [], hperf, hfr, hmono, hIdx, by rw [List.append_nil]; exact heq,
      hnn, hni, hbnd, ?_, ?_, by simp, Nat.le_refl _, by simp, by simp, by simp, by simp⟩
    · intro u hu
      rw [List.append_nil] at hu
      exact ⟨(hnew u hu).1, (hnew u hu).2.1⟩
    · intro n w h
      rcases h8 n w h with h1 | h1
      · exact Or.inl h1
      · rw [List.append_nil]
        exact Or.inr h1
  | cons u rest ih =>
    intro s newus hsub hnd hperf hfr hmono hIdx heq hnn hni hbnd hnew h8
    have hsub' : ∀ v ∈ rest, v ∈ S.users := fun v hv => hsub v (List.mem_cons_of_mem _ hv)
    have hnd' : (rest.map (fun u => u.primaryEmail)).Nodup := by
      simp only [List.map_cons, List.nodup_cons] at hnd
      exact hnd.2
    have hndh : u.primaryEmail ∉ rest.map (fun u => u.primaryEmail) := by
      simp only [List.map_cons, List.nodup_cons] at hnd
      exact hnd.1
    simp only [List.foldl_cons]
    rcases activeStep_cases cfg envOk s u with ⟨hig, he⟩ |
      ⟨hig, w, hlk, ⟨hs, he⟩ | ⟨hs, he⟩⟩ |
      ⟨hig, hlk, ⟨hs, he⟩ | ⟨hs, hf, he⟩ | ⟨hs, hf, he⟩⟩
    · -- ignored: no change
      rw [he]
      obtain ⟨s', hfold, extra, δ, c1, c2, c3, c4, c5, c6, c7, c8, c9, c10, c11, c12, c13, c14, c15, c16⟩ := ih s newus hsub' hnd' hperf hfr hmono hIdx heq
        hnn hni hbnd
        (fun v hv => ⟨(hnew v hv).1, (hnew v hv).2.1,
          fun w hw => (hnew v hv).2.2 w (List.mem_cons_of_mem _ hw)⟩) h8
      refine ⟨s', hfold, extra, δ, c1, c2, c3, c4, c5,
        c6, c7, c8, c9,
        c10, c11, c12,
        c13, c14, ?_, ?_⟩
      · intro gu hgu hgi hgs
        rcases List.mem_cons.mp hgu with h1 | h1
        · subst h1
          rw [hgi] at hig
          exact absurd hig (by simp)
        · exact c15 gu h1 hgi hgs
      · intro gu hgu hgi hgs hsome
        rcases List.mem_cons.mp hgu with h1 | h1
        · subst h1
          rw [hgi] at hig
          exact absurd hig (by simp)
        · exact c16 gu h1 hgi hgs hsome
    · -- found, suspended: mark for deletion
      have hwname : w.userName = u.primaryEmail := hperf.1.1 _ _ hlk
      have hworig : w ∈ orig := by
        rcases h8 _ _ hlk with h1 | h1
        · exact h1
        · exfalso
          obtain ⟨v, hv, hve⟩ := List.mem_map.mp h1
          exact (hnew v hv).2.2 u (List.mem_cons_self _ _) (by rw [hve, hwname])
      have hwsusp : SuspListed cfg S w.userName :=
        ⟨u, hsub u (List.mem_cons_self _ _), hig, hs, hwname.symm⟩
      rw [he]
      obtain ⟨s', hfold, extra, δ, c1, c2, c3, c4, c5, c6, c7, c8, c9, c10, c11, c12, c13, c14, c15, c16⟩ := ih
        { s with r := { s.r with toDelete := s.r.toDelete ++ [w] } } newus hsub' hnd'
        hperf hfr hmono hIdx heq hnn hni hbnd
        (fun v hv => ⟨(hnew v hv).1, (hnew v hv).2.1,
          fun w' hw => (hnew v hv).2.2 w' (List.mem_cons_of_mem _ hw)⟩) h8
      refine ⟨s', hfold, extra, [w] ++ δ, c1, c2, c3, c4,
        c5, c6, c7, c8,
        c9, c10, c11,
        c12, ?_, ?_, ?_, ?_⟩
      · rw [c13]
        simp
      · intro w' hw'
        rcases List.mem_append.mp hw' with h1 | h1
        · rw [List.mem_singleton.mp h1]
          exact ⟨hworig, hwsusp⟩
        · exact c14 w' h1
      · intro gu hgu hgi hgs
        rcases List.mem_cons.mp hgu with h1 | h1
        · subst h1
          rw [hgs] at hs
          exact absurd hs (by simp)
        · exact c15 gu h1 hgi hgs
      · intro gu hgu hgi hgs hsome
        rcases List.mem_cons.mp hgu with h1 | h1
        · subst h1
          refine ⟨w, ?_, hwname⟩
          rw [c13]
          simp
        · refine c16 gu h1 hgi hgs hsome
    · -- found, not suspended: no change
      rw [he]
      obtain ⟨s', hfold, extra, δ, c1, c2, c3, c4, c5, c6, c7, c8, c9, c10, c11, c12, c13, c14, c15, c16⟩ := ih s newus hsub' hnd' hperf hfr hmono hIdx heq
        hnn hni hbnd
        (fun v hv => ⟨(hnew v hv).1, (hnew v hv).2.1,
          fun w' hw => (hnew v hv).2.2 w' (List.mem_cons_of_mem _ hw)⟩) h8
      refine ⟨s', hfold, extra, δ, c1, c2, c3, c4, c5,
        c6, c7, c8, c9,
        c10, c11, c12,
        c13, c14, ?_, ?_⟩
      · intro gu hgu hgi hgs
        rcases List.mem_cons.mp hgu with h1 | h1
        · subst h1
          obtain ⟨u0, hu0, hname, _⟩ := hIdx.1 _ _ hlk
          have hmem : gu.primaryEmail ∈ userNames s.st.store.users := by
            simp only [userNames]
            exact List.mem_map.mpr ⟨u0, hu0, hname⟩
          have hgrow : userNames s.st.store.users ⊆ userNames s'.st.store.users := by
            rw [heq, c5]
            intro a ha
            simp only [userNames, List.map_append] at ha ⊢
            rcases List.mem_append.mp ha with h2 | h2
            · exact List.mem_append.mpr (Or.inl h2)
            · exact List.mem_append.mpr (Or.inr (List.mem_append.mpr (Or.inl h2)))
          exact hgrow hmem
        · exact c15 gu h1 hgi hgs
      · intro gu hgu hgi hgs hsome
        rcases List.mem_cons.mp hgu with h1 | h1
        · subst h1
          rw [hgs] at hs
          exact absurd hs (by simp)
        · exact c16 gu h1 hgi hgs hsome
    · -- absent, suspended: no change
      rw [he]
      obtain ⟨s', hfold, extra, δ, c1, c2, c3, c4, c5, c6, c7, c8, c9, c10, c11, c12, c13, c14, c15, c16⟩ := ih s newus hsub' hnd' hperf hfr hmono hIdx heq
        hnn hni hbnd
        (fun v hv => ⟨(hnew v hv).1, (hnew v hv).2.1,
          fun w' hw => (hnew v hv).2.2 w' (List.mem_cons_of_mem _ hw)⟩) h8
      refine ⟨s', hfold, extra, δ, c1, c2, c3, c4, c5,
        c6, c7, c8, c9,
        c10, c11, c12,
        c13, c14, ?_, ?_⟩
      · intro gu hgu hgi hgs
        rcases List.mem_cons.mp hgu with h1 | h1
        · subst h1
          rw [hgs] at hs
          exact absurd hs (by simp)
        · exact c15 gu h1 hgi hgs
      · intro gu hgu hgi hgs hsome
        rcases List.mem_cons.mp hgu with h1 | h1
        · subst h1
          rw [hlk] at hsome
          exact absurd hsome (by simp)
        · exact c16 gu h1 hgi hgs hsome
    · -- absent, active, creation fails: impossible under envOk
      exfalso
      simp [envOk] at hf
    · -- absent, active, creation succeeds
      rw [he]
      have hByIdNone : lookupA s.r.indexByUserId s.st.nextId = none := by
        cases hx : lookupA s.r.indexByUserId s.st.nextId with
        | none => rfl
        | some w0 =>
          have h1 := hperf.2.2 _ _ hx
          have h2 := hperf.1.2 _ _ hx
          have h3 := hfr _ _ h1
          rw [h2] at h3
          exact absurd h3 (Nat.lt_irrefl _)
      have hNameNotStore : ∀ u0 ∈ s.st.store.users, u0.userName ≠ u.primaryEmail := by
        intro u0 hu0 hne
        obtain ⟨w0, hw0, _⟩ := hIdx.2 u0 hu0
        rw [hne, hlk] at hw0
        exact Option.noConfusion hw0
      have haddName : ({ newUserFor u with userId := s.st.nextId } : AwsUser).userName =
          u.primaryEmail := rfl
      have hstoredName : (storedUser { newUserFor u with userId := s.st.nextId }).userName =
          u.primaryEmail := rfl
      have hstoredId : (storedUser { newUserFor u with userId := s.st.nextId }).userId =
          s.st.nextId := rfl
      have hperf2 : PerfectIdx { s.r with
          index := insertA s.r.index u.primaryEmail
            { newUserFor u with userId := s.st.nextId }
          indexByUserId := insertA s.r.indexByUserId s.st.nextId
            { newUserFor u with userId := s.st.nextId } } := by
        refine ⟨⟨?_, ?_⟩, ?_, ?_⟩
        · intro k w hw
          by_cases hk : k = u.primaryEmail
          · subst hk
            rw [lookupA_insertA_self] at hw
            rw [← Option.some.inj hw]
            rfl
          · rw [lookupA_insertA_ne _ _ _ _ hk] at hw
            exact hperf.1.1 k w hw
        · intro k w hw
          by_cases hk : k = s.st.nextId
          · subst hk
            rw [lookupA_insertA_self] at hw
            rw [← Option.some.inj hw]
          · rw [lookupA_insertA_ne _ _ _ _ hk] at hw
            exact hperf.1.2 k w hw
        · intro k w hw
          by_cases hk : k = u.primaryEmail
          · subst hk
            rw [lookupA_insertA_self] at hw
            rw [← Option.some.inj hw]
            simp only
            rw [lookupA_insertA_self]
          · rw [lookupA_insertA_ne _ _ _ _ hk] at hw
            have hid : w.userId < s.st.nextId := hfr k w hw
            rw [lookupA_insertA_ne _ _ _ _ (Nat.ne_of_lt hid)]
            exact hperf.2.1 k w hw
        · intro v w hw
          by_cases hk : v = s.st.nextId
          · subst hk
            rw [lookupA_insertA_self] at hw
            rw [← Option.some.inj hw]
            rw [haddName, lookupA_insertA_self]
          · rw [lookupA_insertA_ne _ _ _ _ hk] at hw
            have hold := hperf.2.2 v w hw
            have hne : w.userName ≠ u.primaryEmail := by
              intro hcon
              rw [hcon, hlk] at hold
              exact Option.noConfusion hold
            rw [lookupA_insertA_ne _ _ _ _ hne]
            exact hold
      obtain ⟨s', hfold, extra, δ, c1, c2, c3, c4, c5, c6, c7, c8, c9, c10, c11, c12, c13, c14, c15, c16⟩ := ih
        { r := { s.r with
            index := insertA s.r.index u.primaryEmail
              { newUserFor u with userId := s.st.nextId }
            indexByUserId := insertA s.r.indexByUserId s.st.nextId
              { newUserFor u with userId := s.st.nextId } }
          st := { store := { s.st.store with
                    users := s.st.store.users ++
                      [storedUser { newUserFor u with userId := s.st.nextId }] }
                  ops := s.st.ops ++ [Op.createUser (newUserFor u)]
                  nextId := s.st.nextId + 1 } }
        (newus ++ [storedUser { newUserFor u with userId := s.st.nextId }])
        hsub' hnd' hperf2
        (by
          intro n w hw
          simp only at hw ⊢
          by_cases hk : n = u.primaryEmail
          · subst hk
            rw [lookupA_insertA_self] at hw
            rw [← Option.some.inj hw]
            exact Nat.lt_succ_self _
          · rw [lookupA_insertA_ne _ _ _ _ hk] at hw
            exact Nat.lt_succ_of_lt (hfr n w hw))
        (by
          intro n w hw
          simp only
          have hold := hmono n w hw
          have hne : n ≠ u.primaryEmail := by
            intro hcon
            rw [hcon, hlk] at hold
            exact Option.noConfusion hold
          rw [lookupA_insertA_ne _ _ _ _ hne]
          exact hold)
        (by
          constructor
          · intro n w hw
            simp only at hw ⊢
            by_cases hk : n = u.primaryEmail
            · subst hk
              rw [lookupA_insertA_self] at hw
              refine ⟨storedUser { newUserFor u with userId := s.st.nextId },
                List.mem_append.mpr (Or.inr (List.mem_singleton.mpr rfl)), hstoredName, ?_⟩
              exact congrArg (fun x => x.userId) (Option.some.inj hw)
            · rw [lookupA_insertA_ne _ _ _ _ hk] at hw
              obtain ⟨u0, hu0, hn0, hi0⟩ := hIdx.1 n w hw
              exact ⟨u0, List.mem_append.mpr (Or.inl hu0), hn0, hi0⟩
          · intro u0 hu0
            simp only at hu0 ⊢
            rcases List.mem_append.mp hu0 with h1 | h1
            · obtain ⟨w0, hw0, hi0⟩ := hIdx.2 u0 h1
              refine ⟨w0, ?_, hi0⟩
              rw [lookupA_insertA_ne _ _ _ _ (hNameNotStore u0 h1)]
              exact hw0
            · rw [List.mem_singleton.mp h1]
              exact ⟨{ newUserFor u with userId := s.st.nextId },
                lookupA_insertA_self _ _ _, rfl⟩)
        (by
          simp only
          rw [heq, List.append_assoc])
        (by
          simp only [userNames, List.map_append]
          refine nodup_append_singleton ?_ ?_
          · exact hnn
          · intro hcon
            simp only [userNames] at hcon
            obtain ⟨u0, hu0, he0⟩ := List.mem_map.mp hcon
            exact hNameNotStore u0 hu0 (by exact he0))
        (by
          simp only [userIds, List.map_append]
          refine nodup_append_singleton ?_ ?_
          · exact hni
          · intro hcon
            obtain ⟨u0, hu0, he0⟩ := List.mem_map.mp hcon
            have hc0 := hbnd u0 hu0
            rw [he0] at hc0
            exact Nat.lt_irrefl _ hc0)
        (by
          intro u0 hu0
          simp only at hu0 ⊢
          rcases List.mem_append.mp hu0 with h1 | h1
          · exact Nat.lt_succ_of_lt (hbnd u0 h1)
          · rw [List.mem_singleton.mp h1]
            exact Nat.lt_succ_self _)
        (by
          intro v hv
          rcases List.mem_append.mp hv with h1 | h1
          · exact ⟨(hnew v h1).1, (hnew v h1).2.1,
              fun w' hw => (hnew v h1).2.2 w' (List.mem_cons_of_mem _ hw)⟩
          · rw [List.mem_singleton.mp h1]
            refine ⟨?_, ?_, ?_⟩
            · rw [hstoredName]
              cases hx : lookupA (buildUserIndex orig).index u.primaryEmail with
              | none => rfl
              | some w0 =>
                have hc0 := hmono _ _ hx
                rw [hlk] at hc0
                exact Option.noConfusion hc0
            · rw [hstoredName]
              exact ⟨u, hsub u (List.mem_cons_self _ _), hig, hs, rfl⟩
            · intro w' hw'
              have hmm : w'.primaryEmail ∈ rest.map (fun u => u.primaryEmail) :=
                List.mem_map_of_mem _ hw'
              intro hcon
              rw [hstoredName] at hcon
              rw [hcon] at hmm
              exact hndh hmm)
        (by
          intro n w hw
          simp only at hw
          by_cases hk : n = u.primaryEmail
          · subst hk
            rw [lookupA_insertA_self] at hw
            refine Or.inr ?_
            rw [← Option.some.inj hw]
            simp only [userNames, List.map_append]
            refine List.mem_append.mpr (Or.inr ?_)
            exact List.mem_map.mpr ⟨storedUser { newUserFor u with userId := s.st.nextId },
              List.mem_singleton.mpr rfl, rfl⟩
          · rw [lookupA_insertA_ne _ _ _ _ hk] at hw
            rcases h8 n w hw with h1 | h1
            · exact Or.inl h1
            · refine Or.inr ?_
              simp only [userNames, List.map_append]
              exact List.mem_append.mpr (Or.inl h1))
      refine ⟨s', hfold,
        [storedUser { newUserFor u with userId := s.st.nextId }] ++ extra, δ,
        c1, c2, c3, c4, ?_, c6, c7,
        c8, ?_, ?_, ?_, ?_, ?_, c14, ?_, ?_⟩
      · rw [c5, List.append_assoc]
      · intro v hv
        refine c9 v ?_
        rw [← List.append_assoc] at hv
        exact hv
      · intro n w hw
        rcases c10 n w hw with h1 | h1
        · exact Or.inl h1
        · refine Or.inr ?_
          rw [← List.append_assoc]
          exact h1
      · intro v hv
        rcases List.mem_append.mp hv with h1 | h1
        · rw [List.mem_singleton.mp h1]
          exact Nat.le_refl _
        · exact Nat.le_trans (Nat.le_succ _) (c11 v h1)
      · exact Nat.le_trans (Nat.le_succ _) c12
      · exact c13
      · intro gu hgu hgi hgs
        rcases List.mem_cons.mp hgu with h1 | h1
        · rw [h1, c5]
          exact List.mem_map.mpr ⟨storedUser { newUserFor u with userId := s.st.nextId },
            List.mem_append.mpr (Or.inr (List.mem_append.mpr (Or.inl (List.mem_append.mpr
              (Or.inr (List.mem_singleton.mpr rfl)))))), rfl⟩
        · exact c15 gu h1 hgi hgs
      · intro gu hgu hgi hgs hsome
        rcases List.mem_cons.mp hgu with h1 | h1
        · subst h1
          rw [hlk] at hsome
          exact absurd hsome (by simp)
        · refine c16 gu h1 hgi hgs ?_
          simp only
          by_cases hk : gu.primaryEmail = u.primaryEmail
          · rw [hk, lookupA_insertA_self]
            rfl
          · rw [lookupA_insertA_ne _ _ _ _ hk]
            exact hsome



/-- `SyncUsers` under a successful environment, on a store with distinct
usernames and user ids: the index stays perfect and in step with the store,
the store gains exactly the created users, and pending deletions are sound
and complete for tombstoned and suspended listings. -/
theorem syncUsers_ok (cfg : Config) (S : SourceSnapshot) (st : St)
    (hnn : (userNames st.store.users).Nodup)
    (hni : (userIds st.store.users).Nodup)
    (hbnd : ∀ u ∈ st.store.users, u.userId < st.nextId)
    (hS : (S.users.map (fun u => u.primaryEmail)).Nodup) :
    ∃ fs : UserPhaseState, syncUsers cfg envOk S st = fs ∧
      ∃ extra : List AwsUser,
      PerfectIdx fs.r ∧
      IdxStore fs.r fs.st.store.users ∧
      fs.st.store.groups = st.store.groups ∧
      fs.st.store.memberships = st.store.memberships ∧
      fs.st.store.users = st.store.users ++ extra ∧
      (userNames fs.st.store.users).Nodup ∧
      (userIds fs.st.store.users).Nodup ∧
      (∀ u ∈ fs.st.store.users, u.userId < fs.st.nextId) ∧
      (∀ u ∈ extra, lookupA (buildUserIndex st.store.users).index u.userName = none ∧
        ActiveListed cfg S u.userName) ∧
      (∀ n w, lookupA fs.r.index n = some w → w ∈ st.store.users ∨
        w.userName ∈ userNames extra) ∧
      (∀ u ∈ extra, st.nextId ≤ u.userId) ∧
      st.nextId ≤ fs.st.nextId ∧
      (∀ w ∈ fs.r.toDelete, w ∈ st.store.users ∧
        (Tombstoned S w.userName ∨ SuspListed cfg S w.userName)) ∧
      (∀ gu ∈ S.users, ignoreUser cfg gu.primaryEmail = false → gu.suspended = false →
        gu.primaryEmail ∈ userNames fs.st.store.users) ∧
      (∀ gu ∈ S.users, ignoreUser cfg gu.primaryEmail = false → gu.suspended = true →
        gu.primaryEmail ∈ userNames st.store.users →
        ∃ w ∈ fs.r.toDelete, w.userName = gu.primaryEmail) ∧
      (∀ d ∈ S.deletedUsers, d.primaryEmail ∈ userNames st.store.users →
        ∃ w ∈ fs.r.toDelete, w.userName = d.primaryEmail) := by
  obtain ⟨hi, hb, δt, ht, hpt⟩ :=
    tombstoneLoop_spec S.deletedUsers (buildUserIndex st.store.users)
  have hperf0 := buildUserIndex_perfect st.store.users hnn hni
  have hperf1 : PerfectIdx (S.deletedUsers.foldl tombstoneStep
      (buildUserIndex st.store.users)) := by
    refine ⟨⟨?_, ?_⟩, ?_, ?_⟩
    · intro k w hw
      rw [hi] at hw
      exact hperf0.1.1 k w hw
    · intro k w hw
      rw [hb] at hw
      exact hperf0.1.2 k w hw
    · intro k w hw
      rw [hi] at hw
      rw [hb]
      exact hperf0.2.1 k w hw
    · intro v w hw
      rw [hb] at hw
      rw [hi]
      exact hperf0.2.2 v w hw
  obtain ⟨s', hfold, extra, δ, c1, c2, c3, c4, c5, c6, c7, c8, c9, c10, c11, c12, c13, c14, c15, c16⟩ := activeLoop_inv cfg S st.store.users S.users
    { r := S.deletedUsers.foldl tombstoneStep (buildUserIndex st.store.users), st := st }
    [] (fun u hu => hu) hS hperf1
    (by
      intro n w hw
      simp only at hw ⊢
      rw [hi] at hw
      have := (buildUserIndex_lookup_iff st.store.users hnn n w).mp hw
      exact hbnd w this.1)
    (by
      intro n w hw
      simp only
      rw [hi]
      exact hw)
    (by
      constructor
      · intro n w hw
        simp only at hw
        rw [hi] at hw
        have := (buildUserIndex_lookup_iff st.store.users hnn n w).mp hw
        exact ⟨w, this.1, this.2, rfl⟩
      · intro u hu
        simp only
        refine ⟨u, ?_, rfl⟩
        rw [hi]
        exact (buildUserIndex_lookup_iff st.store.users hnn u.userName u).mpr ⟨hu, rfl⟩)
    (List.append_nil _).symm hnn hni hbnd (by intro u hu; cases hu)
    (by
      intro n w hw
      simp only at hw
      rw [hi] at hw
      exact Or.inl ((buildUserIndex_lookup_iff st.store.users hnn n w).mp hw).1)
  have hrun : syncUsers cfg envOk S st = s' := by
    rw [syncUsers_eq]
    exact hfold
  have hst1 := syncUsers_store cfg envOk S st
  rw [hrun] at hst1
  have htd : s'.r.toDelete = δt ++ δ := by
    rw [c13]
    simp only
    rw [ht, buildUserIndex_toDelete]
    rfl
  refine ⟨s', hrun, extra, c1, c4, hst1.1, hst1.2, ?_, c6,
    c7, c8, ?_, ?_, ?_, ?_, ?_, ?_, ?_, ?_⟩
  · rw [c5]
    rfl
  · intro u hu
    exact c9 u (by rw [List.nil_append]; exact hu)
  · intro n w hw
    rcases c10 n w hw with h1 | h1
    · exact Or.inl h1
    · rw [List.nil_append] at h1
      exact Or.inr h1
  · exact c11
  · exact c12
  · intro w hw
    rw [htd] at hw
    rcases List.mem_append.mp hw with h1 | h1
    · obtain ⟨d, hd, hlkd⟩ := hpt w h1
      have hkv := (buildUserIndex_lookup_iff st.store.users hnn d.primaryEmail w).mp hlkd
      exact ⟨hkv.1, Or.inl ⟨d, hd, hkv.2.symm⟩⟩
    · obtain ⟨hworig, hwsusp⟩ := c14 w h1
      exact ⟨hworig, Or.inr hwsusp⟩
  · exact c15
  · intro gu hgu hgi hgs hmem
    refine c16 gu hgu hgi hgs ?_
    simp only
    rw [hi]
    simp only [userNames] at hmem
    obtain ⟨u0, hu0, he0⟩ := List.mem_map.mp hmem
    rw [(buildUserIndex_lookup_iff st.store.users hnn gu.primaryEmail u0).mpr ⟨hu0, he0⟩]
    rfl
  · intro d hd hmem
    simp only [userNames] at hmem
    obtain ⟨u0, hu0, he0⟩ := List.mem_map.mp hmem
    have hlkd : lookupA (buildUserIndex st.store.users).index d.primaryEmail = some u0 :=
      (buildUserIndex_lookup_iff st.store.users hnn d.primaryEmail u0).mpr ⟨hu0, he0⟩
    have hmem1 : u0 ∈ (S.deletedUsers.foldl tombstoneStep
        (buildUserIndex st.store.users)).toDelete :=
      tombstoneLoop_complete S.deletedUsers (buildUserIndex st.store.users) d u0 hd hlkd
    rw [ht, buildUserIndex_toDelete, List.nil_append] at hmem1
    refine ⟨u0, ?_, he0⟩
    rw [htd]
    exact List.mem_append.mpr (Or.inl hmem1)

/-- With no tombstone or suspended listing matching a stored username and every
active listing already stored, the tombstone loop is the identity. -/
theorem tombstoneLoop_noop :
    ∀ (ds : List GoogleUser) (r : UserSyncResult),
      (∀ d ∈ ds, lookupA r.index d.primaryEmail = none) →
      ds.foldl tombstoneStep r = r := by
  intro ds
  induction ds with
  | nil => intro r _; rfl
  | cons d rest ih =>
    intro r h
    simp only [List.foldl_cons]
    have hstep : tombstoneStep r d = r := by
      unfold tombstoneStep
      rw [h d (List.mem_cons_self _ _)]
    rw [hstep]
    exact ih r (fun d' hd => h d' (List.mem_cons_of_mem _ hd))

theorem activeLoop_noop (cfg : Config) :
    ∀ (us : List GoogleUser) (s : UserPhaseState),
      (∀ u ∈ us, ignoreUser cfg u.primaryEmail = true ∨
        (u.suspended = false ∧ (lookupA s.r.index u.primaryEmail).isSome = true) ∨
        (u.suspended = true ∧ lookupA s.r.index u.primaryEmail = none)) →
      us.foldl (activeStep cfg envOk) s = s := by
  intro us
  induction us with
  | nil => intro s _; rfl
  | cons u rest ih =>
    intro s h
    simp only [List.foldl_cons]
    have hstep : activeStep cfg envOk s u = s := by
      rcases h u (List.mem_cons_self _ _) with h1 | ⟨h1, h2⟩ | ⟨h1, h2⟩
      · unfold activeStep
        rw [h1]
        simp
      · unfold activeStep
        obtain ⟨w, hw⟩ := Option.isSome_iff_exists.mp h2
        rw [hw, h1]
        cases hig : ignoreUser cfg u.primaryEmail <;> simp
      · unfold activeStep
        rw [h2, h1]
        cases hig : ignoreUser cfg u.primaryEmail <;> simp
    rw [hstep]
    exact ih s (fun v hv => h v (List.mem_cons_of_mem _ hv))


/-- With every active listing already stored and no tombstone or suspended
listing matching a stored username, `SyncUsers` changes nothing: it returns
the fresh index of the store with no pending deletions and issues no call. -/
theorem syncUsers_noop (cfg : Config) (S : SourceSnapshot) (st : St)
    (h1 : ∀ gu ∈ S.users, ignoreUser cfg gu.primaryEmail = false → gu.suspended = false →
      gu.primaryEmail ∈ userNames st.store.users)
    (h2 : ∀ gu ∈ S.users, ignoreUser cfg gu.primaryEmail = false → gu.suspended = true →
      gu.primaryEmail ∉ userNames st.store.users)
    (h3 : ∀ d ∈ S.deletedUsers, d.primaryEmail ∉ userNames st.store.users) :
    syncUsers cfg envOk S st = { r := buildUserIndex st.store.users, st := st } := by
  rw [syncUsers_eq]
  have htomb : S.deletedUsers.foldl tombstoneStep (buildUserIndex st.store.users) =
      buildUserIndex st.store.users := by
    refine tombstoneLoop_noop S.deletedUsers _ ?_
    intro d hd
    cases hx : lookupA (buildUserIndex st.store.users).index d.primaryEmail with
    | none => rfl
    | some w =>
      exact absurd ((buildUserIndex_names st.store.users d.primaryEmail).mp
        (by rw [hx]; exact fun h => Option.noConfusion h)) (h3 d hd)
  rw [htomb]
  refine activeLoop_noop cfg S.users _ ?_
  intro u hu
  by_cases hig : ignoreUser cfg u.primaryEmail
  · exact Or.inl hig
  · have hig' : ignoreUser cfg u.primaryEmail = false := by
      cases hx : ignoreUser cfg u.primaryEmail
      · rfl
      · exact absurd hx hig
    cases hs : u.suspended
    · refine Or.inr (Or.inl ⟨rfl, ?_⟩)
      have hmem := h1 u hu hig' hs
      have hne := (buildUserIndex_names st.store.users u.primaryEmail).mpr hmem
      simp only
      cases hx : lookupA (buildUserIndex st.store.users).index u.primaryEmail with
      | none => exact absurd hx hne
      | some w => rfl
    · refine Or.inr (Or.inr ⟨rfl, ?_⟩)
      simp only
      cases hx : lookupA (buildUserIndex st.store.users).index u.primaryEmail with
      | none => rfl
      | some w =>
        exact absurd ((buildUserIndex_names st.store.users u.primaryEmail).mp
          (by rw [hx]; exact fun h => Option.noConfusion h)) (h2 u hu hig' hs)

/-! ## Toward idempotence: the group phase -/

theorem gFold_mem (P : AwsGroup → Prop) :
    ∀ (l : List AwsGroup) (m : List (String × AwsGroup)),
      (∀ g ∈ l, P g) → (∀ k g, lookupA m k = some g → P g) →
      ∀ k g, lookupA (l.foldl (fun m g => insertA m g.displayName g) m) k = some g → P g := by
  intro l
  induction l with
  | nil => intro m _ hm k g; exact hm k g
  | cons a rest ih =>
    intro m hl hm k g
    simp only [List.foldl_cons]
    refine ih _ (fun g' hg => hl g' (List.mem_cons_of_mem _ hg)) ?_ k g
    intro k' g' hlk
    by_cases hk : k' = a.displayName
    · subst hk
      rw [lookupA_insertA_self] at hlk
      rw [← Option.some.inj hlk]
      exact hl a (List.mem_cons_self _ _)
    · rw [lookupA_insertA_ne _ _ _ _ hk] at hlk
      exact hm k' g' hlk

theorem gFold_untouched :
    ∀ (l : List AwsGroup) (m : List (String × AwsGroup)) (k : String),
      k ∉ groupNames l →
      lookupA (l.foldl (fun m g => insertA m g.displayName g) m) k = lookupA m k := by
  intro l
  induction l with
  | nil => intro m k _; rfl
  | cons a rest ih =>
    intro m k hk
    simp only [groupNames, List.map_cons, List.mem_cons] at hk
    simp only [List.foldl_cons]
    rw [ih _ k (by intro hc; exact hk (Or.inr (by simpa [groupNames] using hc)))]
    rw [lookupA_insertA_ne _ _ _ _ (fun hc => hk (Or.inl hc))]

/-- With distinct display names, the target-group index maps each listed
group's name to that group, and nothing else. -/
theorem buildGroupsIndex_lookup_iff (l : List AwsGroup)
    (hnn : (groupNames l).Nodup) (k : String) (g : AwsGroup) :
    lookupA (buildGroupsIndex l) k = some g ↔ g ∈ l ∧ g.displayName = k := by
  constructor
  · intro h
    have hmem : g ∈ l := gFold_mem (fun x => x ∈ l) l [] (fun x hx => hx)
      (fun k' g' hlk => by simp [lookupA] at hlk) k g h
    exact ⟨hmem, buildGroupsIndex_kv l k g h⟩
  · rintro ⟨hg, rfl⟩
    unfold buildGroupsIndex
    suffices hh : ∀ (sub : List AwsGroup) (m : List (String × AwsGroup)),
        (groupNames sub).Nodup → g ∈ sub →
        lookupA (sub.foldl (fun m g => insertA m g.displayName g) m) g.displayName =
          some g by
      exact hh l [] hnn hg
    intro sub
    induction sub with
    | nil => intro m _ hm; cases hm
    | cons x rest ih =>
      intro m hnd hm
      simp only [groupNames, List.map_cons, List.nodup_cons] at hnd
      simp only [List.foldl_cons]
      rcases List.mem_cons.mp hm with h1 | h1
      · subst h1
        rw [gFold_untouched rest _ g.displayName (by simpa [groupNames] using hnd.1)]
        simp
      · exact ih _ hnd.2 h1

theorem filteredIdx_grow (cfg : Config) :
    ∀ (gs : List AdminGroup) (m : List (String × AdminGroup)) (k : String),
      lookupA m k ≠ none →
      lookupA (gs.foldl
        (fun m g => if ignoreGroup cfg g.email then m else insertA m g.name g) m) k ≠
        none := by
  intro gs
  induction gs with
  | nil => intro m k h; exact h
  | cons g rest ih =>
    intro m k h
    simp only [List.foldl_cons]
    refine ih _ k ?_
    by_cases hig : ignoreGroup cfg g.email
    · rw [if_pos hig]
      exact h
    · rw [if_neg hig]
      exact lookupA_insertA_ne_none _ _ h

/-- Every non-ignored source group has an entry under its name in the filtered
Google-group index. -/
theorem filteredIdx_key (cfg : Config) (S : SourceSnapshot) :
    ∀ sg ∈ S.groups, ignoreGroup cfg sg.email = false →
      lookupA (filteredIdx cfg S) sg.name ≠ none := by
  unfold filteredIdx
  suffices hh : ∀ (gs : List AdminGroup) (m : List (String × AdminGroup)),
      ∀ sg ∈ gs, ignoreGroup cfg sg.email = false →
      lookupA (gs.foldl
        (fun m g => if ignoreGroup cfg g.email then m else insertA m g.name g) m)
        sg.name ≠ none by
    exact hh S.groups []
  intro gs
  induction gs with
  | nil => intro m sg h; cases h
  | cons g rest ih =>
    intro m sg hsg hig
    rcases List.mem_cons.mp hsg with h1 | h1
    · subst h1
      simp only [List.foldl_cons, hig, Bool.false_eq_true, if_false]
      refine filteredIdx_grow cfg rest _ sg.name ?_
      rw [lookupA_insertA_self]
      exact fun h => Option.noConfusion h
    · exact ih _ sg h1 hig

/-- In a well-keyed group index whose values come from a listing with distinct
group ids, entry-level group ids are distinct. -/
theorem entry_ids_nodup (m : List (String × AwsGroup)) (gs : List AwsGroup)
    (hk : (keysA m).Nodup) (hkv : GroupKV m)
    (hst : ∀ k g, lookupA m k = some g → g ∈ gs)
    (hids : (groupIds gs).Nodup) : (m.map (fun p => p.2.groupId)).Nodup := by
  have hmnd : m.Nodup := List.Nodup.of_map _ hk
  refine List.Nodup.map_on ?_ hmnd
  intro p hp q hq hpq
  have hlp : lookupA m p.1 = some p.2 := lookupA_of_mem_nodup hk (by
    cases p
    exact hp)
  have hlq : lookupA m q.1 = some q.2 := lookupA_of_mem_nodup hk (by
    cases q
    exact hq)
  have hgp : p.2 ∈ gs := hst _ _ hlp
  have hgq : q.2 ∈ gs := hst _ _ hlq
  have heq2 : p.2 = q.2 := List.inj_on_of_nodup_map hids hgp hgq hpq
  have hk1 : p.1 = q.1 := by
    rw [← hkv _ _ hlp, ← hkv _ _ hlq, heq2]
  cases p
  cases q
  simp only at heq2 hk1
  rw [heq2, hk1]

/-- The deletion loop only erases entries from the working index. -/
theorem deletionLoop_sublist (ggIndex : List (String × AdminGroup)) :
    ∀ (aws : List AwsGroup) (acc : List AwsGroup × List (String × AwsGroup)),
      List.Sublist (aws.foldl (deletionStep ggIndex) acc).2 acc.2 := by
  intro aws
  induction aws with
  | nil => intro acc; exact List.Sublist.refl _
  | cons a rest ih =>
    intro acc
    simp only [List.foldl_cons]
    refine List.Sublist.trans (ih (deletionStep ggIndex acc a)) ?_
    unfold deletionStep
    cases lookupA ggIndex a.displayName with
    | some w => exact List.Sublist.refl _
    | none => exact List.filter_sublist _


/-- The Google-group loop never loses a working-index key. -/
theorem groupCreateLoop_key_mono (cfg : Config) (env : Env) :
    ∀ (gs : List AdminGroup) (s : GroupPhaseState) (k : String),
      lookupA s.gIndex k ≠ none →
      lookupA (gs.foldl (groupCreateStep cfg env) s).gIndex k ≠ none := by
  intro gs
  induction gs with
  | nil => intro s k h; exact h
  | cons g rest ih =>
    intro s k h
    simp only [List.foldl_cons]
    refine ih _ k ?_
    rcases groupCreateStep_cases cfg env s g with ⟨_, he⟩ | ⟨_, _, he⟩ |
      ⟨_, _, _, he⟩ | ⟨_, _, _, he⟩ <;> rw [he]
    · exact h
    · exact h
    · exact h
    · exact lookupA_insertA_ne_none _ _ h

/-- Full invariant of the Google-group creation loop under a successful
environment: the working index and the store's group listing stay in step,
groups gain only fresh, source-named entries, and afterwards every non-ignored
processed source group has an entry under its name. -/
theorem groupCreateLoop_inv (cfg : Config) (S : SourceSnapshot) (orig : List AwsGroup) :
    ∀ (gs : List AdminGroup) (s : GroupPhaseState) (newgs : List AwsGroup),
      (∀ g ∈ gs, g ∈ S.groups) →
      GIdxStore s.gIndex s.st.store.groups →
      (keysA s.gIndex).Nodup →
      GroupKV s.gIndex →
      s.st.store.groups = orig ++ newgs →
      (groupNames s.st.store.groups).Nodup →
      (groupIds s.st.store.groups).Nodup →
      (∀ g ∈ s.st.store.groups, g.groupId < s.st.nextId) →
      (∀ g ∈ newgs, ∃ sg ∈ S.groups, ignoreGroup cfg sg.email = false ∧
        g.displayName = sg.name) →
      ∃ s' : GroupPhaseState, gs.foldl (groupCreateStep cfg envOk) s = s' ∧
        ∃ extra : List AwsGroup,
        GIdxStore s'.gIndex s'.st.store.groups ∧
        (keysA s'.gIndex).Nodup ∧
        GroupKV s'.gIndex ∧
        s'.st.store.groups = orig ++ (newgs ++ extra) ∧
        (groupNames s'.st.store.groups).Nodup ∧
        (groupIds s'.st.store.groups).Nodup ∧
        (∀ g ∈ s'.st.store.groups, g.groupId < s'.st.nextId) ∧
        (∀ g ∈ newgs ++ extra, ∃ sg ∈ S.groups, ignoreGroup cfg sg.email = false ∧
          g.displayName = sg.name) ∧
        s.st.nextId ≤ s'.st.nextId ∧
        (∀ sg ∈ gs, ignoreGroup cfg sg.email = false →
          lookupA s'.gIndex sg.name ≠ none) ∧
        s'.st.store.users = s.st.store.users ∧
        s'.st.store.memberships = s.st.store.memberships := by
  intro gs
  induction gs with
  | nil =>
    intro s newgs _ hIdx hkn hkv heq hnn hni hbnd hnew
    exact ⟨s, rfl, [], hIdx, hkn, hkv, by rw [List.append_nil]; exact heq, hnn, hni,
      hbnd, by rw [List.append_nil]; exact hnew, Nat.le_refl _, by simp, rfl, rfl⟩
  | cons g rest ih =>
    intro s newgs hsub hIdx hkn hkv heq hnn hni hbnd hnew
    have hsub' : ∀ g' ∈ rest, g' ∈ S.groups :=
      fun g' hg => hsub g' (List.mem_cons_of_mem _ hg)
    simp only [List.foldl_cons]
    rcases groupCreateStep_cases cfg envOk s g with ⟨hig, he⟩ | ⟨hig, hfound, he⟩ |
      ⟨hig, hlk, hf, he⟩ | ⟨hig, hlk, hf, he⟩
    · -- ignored
      rw [he]
      obtain ⟨s', hfold, extra, c1, c2, c3, c4, c5, c6, c7, c8, c9, c10, c11, c12⟩ := ih s newgs hsub' hIdx hkn hkv heq hnn hni hbnd hnew
      refine ⟨s', hfold, extra, c1, c2, c3, c4, c5,
        c6, c7, c8, c9, ?_,
        c11, c12⟩
      intro sg hsg hig'
      rcases List.mem_cons.mp hsg with h1 | h1
      · rw [h1] at hig'
        rw [hig'] at hig
        exact absurd hig (by simp)
      · exact c10 sg h1 hig'
    · -- present: only ggIndex changes
      rw [he]
      obtain ⟨s', hfold, extra, c1, c2, c3, c4, c5, c6, c7, c8, c9, c10, c11, c12⟩ := ih { s with ggIndex := insertA s.ggIndex g.name g }
        newgs hsub' hIdx hkn hkv heq hnn hni hbnd hnew
      refine ⟨s', hfold, extra, c1, c2, c3, c4, c5,
        c6, c7, c8, c9, ?_,
        c11, c12⟩
      intro sg hsg hig'
      rcases List.mem_cons.mp hsg with h1 | h1
      · rw [h1]
        have hkey : lookupA ({ s with ggIndex := insertA s.ggIndex g.name g } :
            GroupPhaseState).gIndex g.name ≠ none := by
          obtain ⟨w, hw⟩ := hfound
          simp only
          rw [hw]
          exact fun h => Option.noConfusion h
        have hmono := groupCreateLoop_key_mono cfg envOk rest
          { s with ggIndex := insertA s.ggIndex g.name g } g.name hkey
        rw [hfold] at hmono
        exact hmono
      · exact c10 sg h1 hig'
    · -- creation fails: impossible under envOk
      exfalso
      simp [envOk] at hf
    · -- created
      rw [he]
      have hNameNotStore : ∀ g0 ∈ s.st.store.groups, g0.displayName ≠ g.name := by
        intro g0 hg0 hne
        have hx := hIdx.2 g0 hg0
        rw [hne, hlk] at hx
        exact Option.noConfusion hx
      obtain ⟨s', hfold, extra, c1, c2, c3, c4, c5, c6, c7, c8, c9, c10, c11, c12⟩ := ih
        { gIndex := insertA s.gIndex g.name (AwsGroup.mk s.st.nextId g.name g.description)
          ggIndex := insertA s.ggIndex g.name g
          st := { store := { s.st.store with
                    groups := s.st.store.groups ++
                      [AwsGroup.mk s.st.nextId g.name g.description] }
                  ops := s.st.ops ++ [Op.createGroup g.name g.description]
                  nextId := s.st.nextId + 1 } }
        (newgs ++ [AwsGroup.mk s.st.nextId g.name g.description])
        hsub'
        (by
          constructor
          · intro k g' hg'
            simp only at hg' ⊢
            by_cases hk : k = g.name
            · subst hk
              rw [lookupA_insertA_self] at hg'
              rw [← Option.some.inj hg']
              exact List.mem_append.mpr (Or.inr (List.mem_singleton.mpr rfl))
            · rw [lookupA_insertA_ne _ _ _ _ hk] at hg'
              exact List.mem_append.mpr (Or.inl (hIdx.1 k g' hg'))
          · intro g' hg'
            simp only at hg' ⊢
            rcases List.mem_append.mp hg' with h1 | h1
            · rw [lookupA_insertA_ne _ _ _ _ (hNameNotStore g' h1)]
              exact hIdx.2 g' h1
            · rw [List.mem_singleton.mp h1]
              exact lookupA_insertA_self _ _ _)
        (keysA_insertA_nodup hkn)
        (by
          intro k g' hg'
          simp only at hg'
          by_cases hk : k = g.name
          · subst hk
            rw [lookupA_insertA_self] at hg'
            rw [← Option.some.inj hg']
          · rw [lookupA_insertA_ne _ _ _ _ hk] at hg'
            exact hkv k g' hg')
        (by
          simp only
          rw [heq, List.append_assoc])
        (by
          simp only [groupNames, List.map_append]
          refine nodup_append_singleton hnn ?_
          intro hcon
          obtain ⟨g0, hg0, he0⟩ := List.mem_map.mp hcon
          exact hNameNotStore g0 hg0 (by simpa using he0))
        (by
          simp only [groupIds, List.map_append]
          refine nodup_append_singleton hni ?_
          intro hcon
          obtain ⟨g0, hg0, he0⟩ := List.mem_map.mp hcon
          have hc0 := hbnd g0 hg0
          have he1 : g0.groupId = s.st.nextId := by simpa using he0
          rw [he1] at hc0
          exact Nat.lt_irrefl _ hc0)
        (by
          intro g0 hg0
          simp only at hg0 ⊢
          rcases List.mem_append.mp hg0 with h1 | h1
          · exact Nat.lt_succ_of_lt (hbnd g0 h1)
          · rw [List.mem_singleton.mp h1]
            exact Nat.lt_succ_self _)
        (by
          intro g0 hg0
          rcases List.mem_append.mp hg0 with h1 | h1
          · exact hnew g0 h1
          · rw [List.mem_singleton.mp h1]
            exact ⟨g, hsub g (List.mem_cons_self _ _), hig, rfl⟩)
      refine ⟨s', hfold, [AwsGroup.mk s.st.nextId g.name g.description] ++ extra,
        c1, c2, c3, ?_, c5, c6, c7,
        ?_, ?_, ?_, ?_, ?_⟩
      · rw [c4, List.append_assoc]
      · intro g0 hg0
        refine c8 g0 ?_
        rw [← List.append_assoc] at hg0
        exact hg0
      · exact Nat.le_trans (Nat.le_succ _) c9
      · intro sg hsg hig'
        rcases List.mem_cons.mp hsg with h1 | h1
        · rw [h1]
          have hkey : lookupA (insertA s.gIndex g.name
              (AwsGroup.mk s.st.nextId g.name g.description)) g.name ≠ none := by
            rw [lookupA_insertA_self]
            exact fun h => Option.noConfusion h
          have hmono := groupCreateLoop_key_mono cfg envOk rest
            { gIndex := insertA s.gIndex g.name
                (AwsGroup.mk s.st.nextId g.name g.description)
              ggIndex := insertA s.ggIndex g.name g
              st := { store := { s.st.store with
                        groups := s.st.store.groups ++
                          [AwsGroup.mk s.st.nextId g.name g.description] }
                      ops := s.st.ops ++ [Op.createGroup g.name g.description]
                      nextId := s.st.nextId + 1 } }
            g.name hkey
          rw [hfold] at hmono
          exact hmono
        · exact c10 sg h1 hig'
      · exact c11
      · exact c12


theorem buildGroupsIndex_keys_nodup (l : List AwsGroup) :
    (keysA (buildGroupsIndex l)).Nodup := by
  unfold buildGroupsIndex
  suffices h : ∀ (sub : List AwsGroup) (m : List (String × AwsGroup)),
      (keysA m).Nodup →
      (keysA (sub.foldl (fun m g => insertA m g.displayName g) m)).Nodup by
    exact h l [] (by simp [keysA])
  intro sub
  induction sub with
  | nil => intro m h; exact h
  | cons a rest ih =>
    intro m h
    simp only [List.foldl_cons]
    exact ih _ (keysA_insertA_nodup h)

/-- Filtering memberships by a predicate that holds on one group's memberships
leaves that group's memberships intact. -/
theorem msOf_filter_out (ms : List GroupMembership) (p : GroupMembership → Bool) (i : Nat)
    (h : ∀ m ∈ ms, m.groupId = i → p m = true) :
    (ms.filter p).filter (fun m => m.groupId == i) =
      ms.filter (fun m => m.groupId == i) := by
  simp only [List.filter_filter]
  refine List.filter_congr ?_
  intro m hm
  by_cases hx : m.groupId = i
  · simp [hx, h m hm hx]
  · simp [hx]

/-- `SyncGroups` under a successful environment: no error, users untouched,
groups end as exactly the survivors and creations named by the filtered
source index, and every remaining group's memberships match its desired
member list. -/
theorem syncGroups_ok (cfg : Config) (S : SourceSnapshot) (usr : UserSyncResult)
    (st : St)
    (hperf : PerfectIdx usr)
    (hgnn : (groupNames st.store.groups).Nodup)
    (hgni : (groupIds st.store.groups).Nodup)
    (hgbnd : ∀ g ∈ st.store.groups, g.groupId < st.nextId)
    (hall : AllUserId st.store.memberships)
    (hmnd : (st.store.memberships.map (fun m => m.membershipId)).Nodup)
    (hmbnd : ∀ m ∈ st.store.memberships, m.membershipId < st.nextId) :
    ∃ st₂ : St, syncGroups cfg envOk S usr st = (st₂, none) ∧
      st₂.store.users = st.store.users ∧
      st.nextId ≤ st₂.nextId ∧
      (groupNames st₂.store.groups).Nodup ∧
      (groupIds st₂.store.groups).Nodup ∧
      (∀ g ∈ st₂.store.groups, g.groupId < st₂.nextId) ∧
      (∀ g ∈ st₂.store.groups, lookupA (filteredIdx cfg S) g.displayName ≠ none) ∧
      (∀ sg ∈ S.groups, ignoreGroup cfg sg.email = false →
        sg.name ∈ groupNames st₂.store.groups) ∧
      AllUserId st₂.store.memberships ∧
      (st₂.store.memberships.map (fun m => m.membershipId)).Nodup ∧
      (∀ m ∈ st₂.store.memberships, m.membershipId < st₂.nextId) ∧
      (∀ g ∈ st₂.store.groups, ∃ gg,
        lookupA (filteredIdx cfg S) g.displayName = some gg ∧
        List.Perm (midsOf (msOf st₂.store g.groupId))
          ((valuesA (buildMemberList S usr gg)).map
            (fun u => MemberId.userId u.userId))) := by
  obtain ⟨s1, hfold, extra, hIdx1, hkn1, hkv1, hgeq1, hnn1, hni1, hbnd1, hnew1, hnle1,
      hcomp1, husers1, hmem1⟩ :=
    groupCreateLoop_inv cfg S st.store.groups S.groups
      { gIndex := buildGroupsIndex st.store.groups, ggIndex := [], st := st } []
      (fun g hg => hg)
      (by
        constructor
        · intro k g hg
          exact ((buildGroupsIndex_lookup_iff st.store.groups hgnn k g).mp hg).1
        · intro g hg
          exact (buildGroupsIndex_lookup_iff st.store.groups hgnn g.displayName g).mpr
            ⟨hg, rfl⟩)
      (buildGroupsIndex_keys_nodup st.store.groups)
      (buildGroupsIndex_kv st.store.groups)
      (List.append_nil _).symm hgnn hgni hgbnd (by intro g hg; cases hg)
  have hphase : groupCreatePhase cfg envOk S (buildGroupsIndex st.store.groups) st = s1 :=
    hfold
  have hgg1 : s1.ggIndex = filteredIdx cfg S := by
    rw [← hphase]
    exact groupCreatePhase_ggIndex cfg envOk S (buildGroupsIndex st.store.groups) st
  simp only [List.nil_append] at hgeq1 hnew1
  -- the deletion phase
  have hsub2 : List.Sublist
      (deletionPhase (filteredIdx cfg S) st.store.groups s1.gIndex).2 s1.gIndex :=
    deletionLoop_sublist (filteredIdx cfg S) st.store.groups ([], s1.gIndex)
  have hkn2 : (keysA (deletionPhase (filteredIdx cfg S)
      st.store.groups s1.gIndex).2).Nodup :=
    List.Nodup.sublist (hsub2.map _) hkn1
  have hentry2 : ∀ p ∈ (deletionPhase (filteredIdx cfg S) st.store.groups s1.gIndex).2,
      lookupA s1.gIndex p.1 = some p.2 := by
    intro p hp
    refine lookupA_of_mem_nodup hkn1 ?_
    obtain ⟨k, g⟩ := p
    exact hsub2.subset hp
  have hvals2 : ∀ p ∈ (deletionPhase (filteredIdx cfg S) st.store.groups s1.gIndex).2,
      p.2 ∈ s1.st.store.groups ∧ p.2.displayName = p.1 := by
    intro p hp
    have h1 := hentry2 p hp
    exact ⟨hIdx1.1 _ _ h1, hkv1 _ _ h1⟩
  have hlkM : ∀ p ∈ (deletionPhase (filteredIdx cfg S) st.store.groups s1.gIndex).2,
      (lookupA (filteredIdx cfg S) p.2.displayName).isSome = true := by
    intro p hp
    obtain ⟨hpg, hpk⟩ := hvals2 p hp
    rw [hgeq1] at hpg
    rcases List.mem_append.mp hpg with h1 | h1
    · cases hx : lookupA (filteredIdx cfg S) p.2.displayName with
      | some gg => rfl
      | none =>
        exfalso
        have herased := deletionPhase_idx_erased (filteredIdx cfg S) st.store.groups
          s1.gIndex p.2 h1 hx
        have hlk2 : lookupA (deletionPhase (filteredIdx cfg S)
            st.store.groups s1.gIndex).2 p.1 = some p.2 := by
          refine lookupA_of_mem_nodup hkn2 ?_
          obtain ⟨k, g⟩ := p
          exact hp
        rw [hpk] at herased
        rw [herased] at hlk2
        exact Option.noConfusion hlk2
    · obtain ⟨sg, hsg, hig, hname⟩ := hnew1 p.2 h1
      rw [hname]
      cases hx : lookupA (filteredIdx cfg S) sg.name with
      | some gg => rfl
      | none => exact absurd hx (filteredIdx_key cfg S sg hsg hig)
  have hideq : ∀ g₁ ∈ s1.st.store.groups, ∀ g₂ ∈ s1.st.store.groups,
      g₁.groupId = g₂.groupId → g₁ = g₂ := by
    intro g₁ h₁ g₂ h₂ he
    exact List.inj_on_of_nodup_map hni1 h₁ h₂ he
  have hndg2 : ((deletionPhase (filteredIdx cfg S) st.store.groups s1.gIndex).2.map
      (fun p => p.2.groupId)).Nodup := by
    refine List.Nodup.sublist (hsub2.map _) ?_
    exact entry_ids_nodup s1.gIndex s1.st.store.groups hkn1 hkv1
      (fun k g h => hIdx1.1 k g h) hni1
  -- the membership loop
  obtain ⟨stM, heqM, hMu, hMg, hMn, hMall, hMnd, hMbnd, hMperm, hMoth⟩ :=
    membershipLoop_ok S usr (filteredIdx cfg S) hperf
      (deletionPhase (filteredIdx cfg S) st.store.groups s1.gIndex).2 s1.st
      hlkM hndg2
      (by rw [hmem1]; exact hall)
      (by rw [hmem1]; exact hmnd)
      (by
        rw [hmem1]
        intro m hm
        exact Nat.lt_of_lt_of_le (hmbnd m hm) hnle1)
  -- the group-deletion loop
  obtain ⟨hD1, hD2, hD3, hD4, hD5, hD6⟩ :=
    groupDeleteLoop_ok (deletionPhase (filteredIdx cfg S) st.store.groups s1.gIndex).1 stM
  have hDeq : groupDeleteLoop envOk
      (deletionPhase (filteredIdx cfg S) st.store.groups s1.gIndex).1 stM =
      ((groupDeleteLoop envOk
        (deletionPhase (filteredIdx cfg S) st.store.groups s1.gIndex).1 stM).1, none) := by
    rw [← hD1]
  have hrun : syncGroups cfg envOk S usr st =
      ((groupDeleteLoop envOk
        (deletionPhase (filteredIdx cfg S) st.store.groups s1.gIndex).1 stM).1, none) := by
    rw [syncGroups_eq, hphase, hgg1, heqM]
    simp only
    exact hDeq
  -- survivors are exactly the groups whose name the filtered index holds
  have hsurv : ∀ g ∈ s1.st.store.groups,
      lookupA (filteredIdx cfg S) g.displayName ≠ none →
      g.groupId ∉ (deletionPhase (filteredIdx cfg S) st.store.groups s1.gIndex).1.map
        (fun y => y.groupId) := by
    intro g hg hlk hmemid
    obtain ⟨d, hd, hde⟩ := List.mem_map.mp hmemid
    have hdmem := (deletionPhase_mem (filteredIdx cfg S) st.store.groups s1.gIndex d).mp hd
    have hdg : d ∈ s1.st.store.groups := by
      rw [hgeq1]
      exact List.mem_append.mpr (Or.inl hdmem.1)
    have hced : d = g := hideq d hdg g hg hde
    rw [hced] at hdmem
    exact hlk hdmem.2
  have hkeep : ∀ g ∈ s1.st.store.groups,
      lookupA (filteredIdx cfg S) g.displayName ≠ none →
      g ∈ (groupDeleteLoop envOk
        (deletionPhase (filteredIdx cfg S) st.store.groups s1.gIndex).1
        stM).1.store.groups := by
    intro g hg hlk
    rw [hD5, hMg]
    refine List.mem_filter.mpr ⟨hg, ?_⟩
    simp only [decide_eq_true_eq]
    exact hsurv g hg hlk
  refine ⟨(groupDeleteLoop envOk
    (deletionPhase (filteredIdx cfg S) st.store.groups s1.gIndex).1 stM).1, hrun, ?_, ?_,
    ?_, ?_, ?_, ?_, ?_, ?_, ?_, ?_, ?_⟩
  · rw [hD4, hMu, husers1]
  · calc st.nextId ≤ s1.st.nextId := hnle1
      _ ≤ stM.nextId := hMn
      _ = _ := hD3.symm
  · rw [hD5, hMg]
    exact List.Nodup.sublist ((List.filter_sublist _).map _) hnn1
  · rw [hD5, hMg]
    exact List.Nodup.sublist ((List.filter_sublist _).map _) hni1
  · intro g hg
    rw [hD5, hMg] at hg
    rw [hD3]
    exact Nat.lt_of_lt_of_le (hbnd1 g (List.mem_of_mem_filter hg)) hMn
  · intro g hg
    rw [hD5, hMg] at hg
    have hgm := List.mem_of_mem_filter hg
    have hgid : g.groupId ∉ (deletionPhase (filteredIdx cfg S)
        st.store.groups s1.gIndex).1.map (fun y => y.groupId) := by
      have hx := List.of_mem_filter hg
      simpa using hx
    rw [hgeq1] at hgm
    rcases List.mem_append.mp hgm with h1 | h1
    · intro hx
      refine hgid ?_
      refine List.mem_map.mpr ⟨g, ?_, rfl⟩
      exact (deletionPhase_mem (filteredIdx cfg S) st.store.groups s1.gIndex g).mpr
        ⟨h1, hx⟩
    · obtain ⟨sg, hsg, hig, hname⟩ := hnew1 g h1
      rw [hname]
      exact filteredIdx_key cfg S sg hsg hig
  · intro sg hsg hig
    have hne := hcomp1 sg hsg hig
    cases hx : lookupA s1.gIndex sg.name with
    | none => exact absurd hx hne
    | some g₀ =>
      have hg₀ : g₀ ∈ s1.st.store.groups := hIdx1.1 _ _ hx
      have hg₀n : g₀.displayName = sg.name := hkv1 _ _ hx
      have hkept := hkeep g₀ hg₀ (by
        rw [hg₀n]
        exact filteredIdx_key cfg S sg hsg hig)
      simp only [groupNames]
      exact List.mem_map.mpr ⟨g₀, hkept, hg₀n⟩
  · intro m hm
    rw [hD6] at hm
    exact hMall m (List.mem_of_mem_filter hm)
  · rw [hD6]
    exact List.Nodup.sublist ((List.filter_sublist _).map _) hMnd
  · intro m hm
    rw [hD6] at hm
    rw [hD3]
    exact hMbnd m (List.mem_of_mem_filter hm)
  · intro g hg
    rw [hD5, hMg] at hg
    have hgm := List.mem_of_mem_filter hg
    have hgid : g.groupId ∉ (deletionPhase (filteredIdx cfg S)
        st.store.groups s1.gIndex).1.map (fun y => y.groupId) := by
      have hx := List.of_mem_filter hg
      simpa using hx
    have hlkne : lookupA (filteredIdx cfg S) g.displayName ≠ none := by
      rw [hgeq1] at hgm
      rcases List.mem_append.mp hgm with h1 | h1
      · intro hx
        refine hgid (List.mem_map.mpr ⟨g, ?_, rfl⟩)
        exact (deletionPhase_mem (filteredIdx cfg S) st.store.groups s1.gIndex g).mpr
          ⟨h1, hx⟩
      · obtain ⟨sg, hsg, hig, hname⟩ := hnew1 g h1
        rw [hname]
        exact filteredIdx_key cfg S sg hsg hig
    have hkept2 : lookupA (deletionPhase (filteredIdx cfg S)
        st.store.groups s1.gIndex).2 g.displayName = some g := by
      rw [deletionPhase_idx_kept (filteredIdx cfg S) st.store.groups s1.gIndex
        g.displayName hlkne]
      exact hIdx1.2 g hgm
    have hpmem : (g.displayName, g) ∈
        (deletionPhase (filteredIdx cfg S) st.store.groups s1.gIndex).2 :=
      mem_of_lookupA hkept2
    obtain ⟨gg, hgglk, hggperm⟩ := hMperm (g.displayName, g) hpmem
    refine ⟨gg, hgglk, ?_⟩
    have hmseq : msOf (groupDeleteLoop envOk
        (deletionPhase (filteredIdx cfg S) st.store.groups s1.gIndex).1
        stM).1.store g.groupId = msOf stM.store g.groupId := by
      unfold msOf
      rw [hD6]
      refine msOf_filter_out stM.store.memberships _ g.groupId ?_
      intro m _ hmg
      simp only [decide_eq_true_eq]
      rw [hmg]
      exact hgid
    rw [hmseq]
    exact hggperm


/-- When every non-ignored source group is already in the working index, the
Google-group loop changes neither the index nor the run state. -/
theorem groupCreateLoop_fix (cfg : Config) (env : Env) :
    ∀ (gs : List AdminGroup) (s : GroupPhaseState),
      (∀ g ∈ gs, ignoreGroup cfg g.email = true ∨ lookupA s.gIndex g.name ≠ none) →
      (gs.foldl (groupCreateStep cfg env) s).gIndex = s.gIndex ∧
      (gs.foldl (groupCreateStep cfg env) s).st = s.st := by
  intro gs
  induction gs with
  | nil => intro s _; exact ⟨rfl, rfl⟩
  | cons g rest ih =>
    intro s h
    simp only [List.foldl_cons]
    rcases groupCreateStep_cases cfg env s g with ⟨hig, he⟩ | ⟨hig, hfound, he⟩ |
      ⟨hig, hlk, hf, he⟩ | ⟨hig, hlk, hf, he⟩
    · rw [he]
      exact ih s (fun g' hg => h g' (List.mem_cons_of_mem _ hg))
    · rw [he]
      exact ih _ (fun g' hg => h g' (List.mem_cons_of_mem _ hg))
    · exfalso
      rcases h g (List.mem_cons_self _ _) with h1 | h1
      · rw [h1] at hig
        exact absurd hig (by simp)
      · exact h1 hlk
    · exfalso
      rcases h g (List.mem_cons_self _ _) with h1 | h1
      · rw [h1] at hig
        exact absurd hig (by simp)
      · exact h1 hlk

/-- When every listed target group is found in the Google-group index, the
deletion pass marks nothing and leaves the working index alone. -/
theorem deletionPhase_noop (ggIndex : List (String × AdminGroup)) :
    ∀ (aws : List AwsGroup) (gi : List (String × AwsGroup)),
      (∀ g ∈ aws, lookupA ggIndex g.displayName ≠ none) →
      deletionPhase ggIndex aws gi = ([], gi) := by
  suffices hh : ∀ (aws : List AwsGroup) (acc : List AwsGroup × List (String × AwsGroup)),
      (∀ g ∈ aws, lookupA ggIndex g.displayName ≠ none) →
      aws.foldl (deletionStep ggIndex) acc = acc by
    intro aws gi h
    exact hh aws ([], gi) h
  intro aws
  induction aws with
  | nil => intro acc _; rfl
  | cons a rest ih =>
    intro acc h
    simp only [List.foldl_cons]
    have hstep : deletionStep ggIndex acc a = acc := by
      unfold deletionStep
      cases hlk : lookupA ggIndex a.displayName with
      | some w => rfl
      | none => exact absurd hlk (h a (List.mem_cons_self _ _))
    rw [hstep]
    exact ih acc (fun g' hg => h g' (List.mem_cons_of_mem _ hg))

/-- On a store whose groups all carry filtered-index names with matching
memberships, and with every non-ignored source group already present,
`SyncGroups` is a complete no-op. -/
theorem syncGroups_noop (cfg : Config) (S : SourceSnapshot) (usr : UserSyncResult)
    (st : St)
    (hperf : PerfectIdx usr)
    (hgnn : (groupNames st.store.groups).Nodup)
    (hcomp : ∀ sg ∈ S.groups, ignoreGroup cfg sg.email = false →
      sg.name ∈ groupNames st.store.groups)
    (hkeepn : ∀ g ∈ st.store.groups, lookupA (filteredIdx cfg S) g.displayName ≠ none)
    (hmatch : ∀ g ∈ st.store.groups, ∃ gg,
      lookupA (filteredIdx cfg S) g.displayName = some gg ∧
      List.Perm (midsOf (msOf st.store g.groupId))
        ((valuesA (buildMemberList S usr gg)).map
          (fun u => MemberId.userId u.userId))) :
    syncGroups cfg envOk S usr st = (st, none) := by
  have hphase : groupCreatePhase cfg envOk S (buildGroupsIndex st.store.groups) st =
      S.groups.foldl (groupCreateStep cfg envOk)
        { gIndex := buildGroupsIndex st.store.groups, ggIndex := [], st := st } := rfl
  obtain ⟨hfix1, hfix2⟩ := groupCreateLoop_fix cfg envOk S.groups
    { gIndex := buildGroupsIndex st.store.groups, ggIndex := [], st := st }
    (by
      intro g hg
      by_cases hig : ignoreGroup cfg g.email
      · exact Or.inl hig
      · refine Or.inr ?_
        have hig' : ignoreGroup cfg g.email = false := by
          cases hx : ignoreGroup cfg g.email
          · rfl
          · exact absurd hx hig
        have hmem := hcomp g hg hig'
        simp only [groupNames] at hmem
        obtain ⟨g₀, hg₀, he₀⟩ := List.mem_map.mp hmem
        simp only
        rw [(buildGroupsIndex_lookup_iff st.store.groups hgnn g.name g₀).mpr ⟨hg₀, he₀⟩]
        exact fun h => Option.noConfusion h)
  have hgg : (groupCreatePhase cfg envOk S (buildGroupsIndex st.store.groups) st).ggIndex =
      filteredIdx cfg S :=
    groupCreatePhase_ggIndex cfg envOk S (buildGroupsIndex st.store.groups) st
  rw [hphase] at hgg
  have hdel : deletionPhase (filteredIdx cfg S) st.store.groups
      (buildGroupsIndex st.store.groups) = ([], buildGroupsIndex st.store.groups) :=
    deletionPhase_noop (filteredIdx cfg S) st.store.groups _ hkeepn
  have hml : membershipLoop envOk S usr (filteredIdx cfg S)
      (buildGroupsIndex st.store.groups) st = (st, none) := by
    refine membershipLoop_noop S usr (filteredIdx cfg S) hperf _ st ?_
    intro p hp
    have hlkp : lookupA (buildGroupsIndex st.store.groups) p.1 = some p.2 := by
      refine lookupA_of_mem_nodup (buildGroupsIndex_keys_nodup st.store.groups) ?_
      obtain ⟨k, g⟩ := p
      exact hp
    have hpmem := (buildGroupsIndex_lookup_iff st.store.groups hgnn p.1 p.2).mp hlkp
    exact hmatch p.2 hpmem.1
  rw [syncGroups_eq, hphase, hgg, hfix1, hfix2]
  simp only
  rw [hdel]
  simp only
  rw [hml]
  rfl


theorem midsOf_filter (q : MemberId → Bool) :
    ∀ ms : List GroupMembership,
      midsOf (ms.filter (fun m => q m.memberId)) = (midsOf ms).filter q := by
  intro ms
  induction ms with
  | nil => rfl
  | cons m rest ih =>
    by_cases hq : q m.memberId
    · simp only [midsOf, List.filter_cons, hq, if_true, List.map_cons] at ih ⊢
      rw [ih]
    · have hq' : q m.memberId = false := by
        cases hh : q m.memberId
        · rfl
        · exact absurd hh hq
      simp only [midsOf, List.filter_cons, hq', Bool.false_eq_true, if_false,
        List.map_cons] at ih ⊢
      rw [ih]

/-- Deleting the pending users turns the reconciled member-id multiset of a
group into exactly the desired member-id multiset recomputed from the
surviving store: run one's memberships, minus the deleted members, are run
two's desired memberships. -/
theorem memberList_translate (S : SourceSnapshot) (usr1 : UserSyncResult)
    (users1 : List AwsUser) (del : List AwsUser) (gg : AdminGroup)
    (hIS : IdxStore usr1 users1)
    (hnn1 : (userNames users1).Nodup) :
    List.Perm
      (((valuesA (buildMemberList S usr1 gg)).map
          (fun u => MemberId.userId u.userId)).filter
        (fun x => decide (x ∉ del.map (fun y => MemberId.userId y.userId))))
      ((valuesA (buildMemberList S
          (buildUserIndex (users1.filter
            (fun x => decide (x.userId ∉ del.map (fun y => y.userId))))) gg)).map
        (fun u => MemberId.userId u.userId)) := by
  have hkey1 := buildMemberList_nodup S usr1 gg
  have hkey2 := buildMemberList_nodup S
    (buildUserIndex (users1.filter
      (fun x => decide (x.userId ∉ del.map (fun y => y.userId))))) gg
  have hT1nn : (userNames (users1.filter
      (fun x => decide (x.userId ∉ del.map (fun y => y.userId))))).Nodup :=
    List.Nodup.sublist ((List.filter_sublist _).map _) hnn1
  have hB : ∀ n, Option.map (fun u => u.userId)
      (lookupA ((buildMemberList S usr1 gg).filter
        (fun p => decide (p.2.userId ∉ del.map (fun y => y.userId)))) n) =
      Option.map (fun u => u.userId)
        (lookupA (buildMemberList S
          (buildUserIndex (users1.filter
            (fun x => decide (x.userId ∉ del.map (fun y => y.userId))))) gg) n) := by
    intro n
    rw [lookupA_filter _ _ hkey1 n]
    cases hx : lookupA (buildMemberList S usr1 gg) n with
    | none =>
      cases hy : lookupA (buildMemberList S
          (buildUserIndex (users1.filter
            (fun x => decide (x.userId ∉ del.map (fun y => y.userId))))) gg) n with
      | none => rfl
      | some u₂ =>
        exfalso
        obtain ⟨hne, hidx2⟩ := (buildMemberList_lookup S _ gg n u₂).mp hy
        obtain ⟨hmem2, hname2⟩ := (buildUserIndex_lookup_iff _ hT1nn n u₂).mp hidx2
        obtain ⟨w, hw, _⟩ := hIS.2 u₂ (List.mem_of_mem_filter hmem2)
        rw [hname2] at hw
        have : lookupA (buildMemberList S usr1 gg) n = some w :=
          (buildMemberList_lookup S usr1 gg n w).mpr ⟨hne, hw⟩
        rw [hx] at this
        exact Option.noConfusion this
    | some u₁ =>
      obtain ⟨hne, hidx1⟩ := (buildMemberList_lookup S usr1 gg n u₁).mp hx
      by_cases hdel1 : u₁.userId ∈ del.map (fun y => y.userId)
      · rw [Option.some_bind]
        rw [if_neg (by simp [hdel1])]
        cases hy : lookupA (buildMemberList S
            (buildUserIndex (users1.filter
              (fun x => decide (x.userId ∉ del.map (fun y => y.userId))))) gg) n with
        | none => rfl
        | some u₂ =>
          exfalso
          obtain ⟨_, hidx2⟩ := (buildMemberList_lookup S _ gg n u₂).mp hy
          obtain ⟨hmem2, hname2⟩ := (buildUserIndex_lookup_iff _ hT1nn n u₂).mp hidx2
          have hnotdel : u₂.userId ∉ del.map (fun y => y.userId) := by
            have := List.of_mem_filter hmem2
            simpa using this
          obtain ⟨w, hw, hid⟩ := hIS.2 u₂ (List.mem_of_mem_filter hmem2)
          rw [hname2] at hw
          rw [hidx1] at hw
          have : u₁ = w := Option.some.inj hw
          rw [this, hid] at hdel1
          exact hnotdel hdel1
      · rw [Option.some_bind]
        rw [if_pos (by simp [hdel1])]
        obtain ⟨u, hu, hun, hui⟩ := hIS.1 n u₁ hidx1
        have humem : u ∈ users1.filter
            (fun x => decide (x.userId ∉ del.map (fun y => y.userId))) := by
          refine List.mem_filter.mpr ⟨hu, ?_⟩
          simp only [decide_eq_true_eq]
          rw [hui]
          exact hdel1
        have hidx2 : lookupA (buildUserIndex (users1.filter
            (fun x => decide (x.userId ∉ del.map (fun y => y.userId))))).index n =
            some u :=
          (buildUserIndex_lookup_iff _ hT1nn n u).mpr ⟨humem, hun⟩
        have hy : lookupA (buildMemberList S
            (buildUserIndex (users1.filter
              (fun x => decide (x.userId ∉ del.map (fun y => y.userId))))) gg) n =
            some u :=
          (buildMemberList_lookup S _ gg n u).mpr ⟨hne, hidx2⟩
        rw [hy]
        show some u₁.userId = some u.userId
        rw [hui]
  have hAB : ∀ n,
      lookupA (((buildMemberList S usr1 gg).filter
        (fun p => decide (p.2.userId ∉ del.map (fun y => y.userId)))).map
          (fun p => (p.1, p.2.userId))) n =
      lookupA ((buildMemberList S
        (buildUserIndex (users1.filter
          (fun x => decide (x.userId ∉ del.map (fun y => y.userId))))) gg).map
          (fun p => (p.1, p.2.userId))) n := by
    intro n
    rw [lookupA_map_snd, lookupA_map_snd]
    exact hB n
  have hAperm := lookupA_ext_perm _ _
    (by
      rw [keysA_map_snd]
      exact List.Nodup.sublist ((List.filter_sublist _).map _) hkey1)
    (by
      rw [keysA_map_snd]
      exact hkey2)
    hAB
  have hv := hAperm.map Prod.snd
  have hv2 : List.Perm
      ((valuesA ((buildMemberList S usr1 gg).filter
        (fun p => decide (p.2.userId ∉ del.map (fun y => y.userId))))).map
          (fun u => u.userId))
      ((valuesA (buildMemberList S
        (buildUserIndex (users1.filter
          (fun x => decide (x.userId ∉ del.map (fun y => y.userId))))) gg)).map
          (fun u => u.userId)) := by
    rw [← valuesA_map_snd, ← valuesA_map_snd]
    exact hv
  have hfinal := hv2.map MemberId.userId
  have hfc : ((valuesA (buildMemberList S usr1 gg)).filter
      (fun a => decide (MemberId.userId a.userId ∉
        del.map (fun y => MemberId.userId y.userId)))) =
      ((valuesA (buildMemberList S usr1 gg)).filter
        (fun u => decide (u.userId ∉ del.map (fun y => y.userId)))) := by
    refine List.filter_congr ?_
    intro u _
    refine decide_eq_decide.mpr ?_
    constructor
    · intro h hc2
      obtain ⟨y, hy, he⟩ := List.mem_map.mp hc2
      exact h (List.mem_map.mpr ⟨y, hy, by rw [he]⟩)
    · intro h hc2
      obtain ⟨y, hy, he⟩ := List.mem_map.mp hc2
      refine h (List.mem_map.mpr ⟨y, hy, ?_⟩)
      simpa using he
  have hc : ((valuesA (buildMemberList S usr1 gg)).map
      (fun u => MemberId.userId u.userId)).filter
        (fun x => decide (x ∉ del.map (fun y => MemberId.userId y.userId))) =
      ((valuesA ((buildMemberList S usr1 gg).filter
        (fun p => decide (p.2.userId ∉ del.map (fun y => y.userId))))).map
          (fun u => u.userId)).map MemberId.userId := by
    have hvf : valuesA ((buildMemberList S usr1 gg).filter
        (fun p => decide (p.2.userId ∉ del.map (fun y => y.userId)))) =
        (valuesA (buildMemberList S usr1 gg)).filter
          (fun u => decide (u.userId ∉ del.map (fun y => y.userId))) :=
      valuesA_filter_snd (fun u => decide (u.userId ∉ del.map (fun y => y.userId)))
        (buildMemberList S usr1 gg)
    rw [hvf]
    rw [List.map_map]
    rw [← map_filter_comm (fun u => MemberId.userId u.userId)
      (fun x => decide (x ∉ del.map (fun y => MemberId.userId y.userId)))
      (valuesA (buildMemberList S usr1 gg))]
    rw [hfc]
    rfl
  have hR : ((valuesA (buildMemberList S
      (buildUserIndex (users1.filter
        (fun x => decide (x.userId ∉ del.map (fun y => y.userId))))) gg)).map
        (fun u => u.userId)).map MemberId.userId =
      (valuesA (buildMemberList S
        (buildUserIndex (users1.filter
          (fun x => decide (x.userId ∉ del.map (fun y => y.userId))))) gg)).map
        (fun u => MemberId.userId u.userId) := by
    rw [List.map_map]
    rfl
  rw [hc, ← hR]
  exact hfinal

/-- A full run under a successful environment, on distinct-keyed snapshots with
no tombstoned active listing: it ends without error, and its output store is a
fixed point in the making -- every active listing stored, no suspended or
tombstoned name stored, all groups named by the filtered index (completely),
and every group's memberships matching the desired list as recomputed from the
output store itself. -/
theorem doSync_ok (cfg : Config) (S : SourceSnapshot) (T : TargetSnapshot)
    (hS : (S.users.map (fun u => u.primaryEmail)).Nodup)
    (hTomb : ∀ d ∈ S.deletedUsers, ¬ ActiveListed cfg S d.primaryEmail)
    (hAll : AllUserId T.memberships)
    (hTni : (userIds T.users).Nodup)
    (hTnn : (userNames T.users).Nodup)
    (hGni : (groupIds T.groups).Nodup)
    (hMnd : (T.memberships.map (fun m => m.membershipId)).Nodup)
    (hGnn : (groupNames T.groups).Nodup) :
    (doSync cfg envOk S T).err = none ∧
    (userNames (doSync cfg envOk S T).store.users).Nodup ∧
    (userIds (doSync cfg envOk S T).store.users).Nodup ∧
    (∀ gu ∈ S.users, ignoreUser cfg gu.primaryEmail = false → gu.suspended = false →
      gu.primaryEmail ∈ userNames (doSync cfg envOk S T).store.users) ∧
    (∀ gu ∈ S.users, ignoreUser cfg gu.primaryEmail = false → gu.suspended = true →
      gu.primaryEmail ∉ userNames (doSync cfg envOk S T).store.users) ∧
    (∀ d ∈ S.deletedUsers,
      d.primaryEmail ∉ userNames (doSync cfg envOk S T).store.users) ∧
    (groupNames (doSync cfg envOk S T).store.groups).Nodup ∧
    (∀ sg ∈ S.groups, ignoreGroup cfg sg.email = false →
      sg.name ∈ groupNames (doSync cfg envOk S T).store.groups) ∧
    (∀ g ∈ (doSync cfg envOk S T).store.groups,
      lookupA (filteredIdx cfg S) g.displayName ≠ none) ∧
    (∀ g ∈ (doSync cfg envOk S T).store.groups, ∃ gg,
      lookupA (filteredIdx cfg S) g.displayName = some gg ∧
      List.Perm (midsOf (msOf (doSync cfg envOk S T).store g.groupId))
        ((valuesA (buildMemberList S
          (buildUserIndex (doSync cfg envOk S T).store.users) gg)).map
          (fun u => MemberId.userId u.userId))) := by
  obtain ⟨fs, hfs, extra, hP, hIS, hG0, hM0, hU, hnn', hni', hbnd', hext, h8, hxfresh,
      hnle, htdS, hcompA, hcompS, hcompT⟩ :=
    syncUsers_ok cfg S { store := T, ops := [], nextId := freshBase T } hTnn hTni
      (freshBase_users T) hS
  obtain ⟨st₂, hrun2, hu2, hn2, hgn2, hgi2, hgb2, hgf2, hgc2, hall2, hmd2, hmb2, hmm2⟩ :=
    syncGroups_ok cfg S fs.r fs.st hP
      (by rw [hG0]; exact hGnn)
      (by rw [hG0]; exact hGni)
      (by
        rw [hG0]
        intro g hg
        exact Nat.lt_of_lt_of_le (freshBase_groups T g hg) hnle)
      (by rw [hM0]; exact hAll)
      (by rw [hM0]; exact hMnd)
      (by
        rw [hM0]
        intro m hm
        exact Nat.lt_of_lt_of_le (freshBase_memberships T m hm) hnle)
  obtain ⟨hR1, hR2, hR3, hR4, hR5, hR6⟩ := removeUsers_ok fs.r.toDelete st₂
  have hrem : removeUsers envOk fs.r.toDelete st₂ =
      ((removeUsers envOk fs.r.toDelete st₂).1, none) := by
    rw [← hR1]
  have hdo : doSync cfg envOk S T =
      { usr := fs.r,
        ops := (removeUsers envOk fs.r.toDelete st₂).1.ops,
        store := (removeUsers envOk fs.r.toDelete st₂).1.store, err := none } := by
    rw [doSync_eq, hfs, hrun2]
    simp only
    rw [hrem]
  have hT1u : (doSync cfg envOk S T).store.users =
      fs.st.store.users.filter
        (fun x => decide (x.userId ∉ fs.r.toDelete.map (fun y => y.userId))) := by
    rw [hdo]
    simp only
    rw [hR5, hu2]
  have hT1g : (doSync cfg envOk S T).store.groups = st₂.store.groups := by
    rw [hdo]
    simp only
    rw [hR4]
  have hT1m : (doSync cfg envOk S T).store.memberships =
      st₂.store.memberships.filter
        (fun m => decide (m.memberId ∉
          fs.r.toDelete.map (fun y => MemberId.userId y.userId))) := by
    rw [hdo]
    simp only
    rw [hR6]
  have hsurvive : ∀ u₀ ∈ fs.st.store.users,
      u₀.userId ∉ fs.r.toDelete.map (fun y => y.userId) →
      u₀.userName ∈ userNames (doSync cfg envOk S T).store.users := by
    intro u₀ hu₀ hid
    rw [hT1u]
    refine List.mem_map.mpr ⟨u₀, ?_, rfl⟩
    refine List.mem_filter.mpr ⟨hu₀, ?_⟩
    simp only [decide_eq_true_eq]
    exact hid
  refine ⟨by rw [hdo], ?_, ?_, ?_, ?_, ?_, ?_, ?_, ?_, ?_⟩
  · rw [hT1u]
    exact List.Nodup.sublist ((List.filter_sublist _).map _) hnn'
  · rw [hT1u]
    exact List.Nodup.sublist ((List.filter_sublist _).map _) hni'
  · intro gu hgu hgi hgs
    have hmem := hcompA gu hgu hgi hgs
    obtain ⟨u₀, hu₀, hname⟩ := List.mem_map.mp hmem
    have hid : u₀.userId ∉ fs.r.toDelete.map (fun y => y.userId) := by
      intro hc
      obtain ⟨w, hwdel, hwe⟩ := List.mem_map.mp hc
      obtain ⟨hworig, hwkind⟩ := htdS w hwdel
      rw [hU] at hu₀
      rcases List.mem_append.mp hu₀ with h1 | h1
      · have hwu : w = u₀ := List.inj_on_of_nodup_map hTni hworig h1 hwe
        rcases hwkind with ht | hsusp
        · obtain ⟨d, hd, hde⟩ := ht
          refine hTomb d hd ⟨gu, hgu, hgi, hgs, ?_⟩
          rw [hde, hwu, hname]
        · obtain ⟨gu', hgu', hgi', hgs', hge'⟩ := hsusp
          have hsame : gu'.primaryEmail = gu.primaryEmail := by
            rw [hge', hwu, hname]
          have hgg : gu' = gu := List.inj_on_of_nodup_map hS hgu' hgu hsame
          rw [hgg, hgs] at hgs'
          exact absurd hgs' (by simp)
      · have h2 : freshBase T ≤ u₀.userId := hxfresh u₀ h1
        have h3 : w.userId < freshBase T := freshBase_users T w hworig
        rw [hwe] at h3
        exact Nat.lt_irrefl _ (Nat.lt_of_lt_of_le h3 h2)
    rw [← hname]
    exact hsurvive u₀ hu₀ hid
  · intro gu hgu hgi hgs hmem'
    rw [hT1u] at hmem'
    obtain ⟨u₀, hu₀f, hname⟩ := List.mem_map.mp hmem'
    have hu₀ := List.mem_of_mem_filter hu₀f
    have hid : u₀.userId ∉ fs.r.toDelete.map (fun y => y.userId) := by
      have hx := List.of_mem_filter hu₀f
      simpa using hx
    rw [hU] at hu₀
    rcases List.mem_append.mp hu₀ with h1 | h1
    · have hmemT : gu.primaryEmail ∈ userNames T.users := by
        refine List.mem_map.mpr ⟨u₀, h1, hname⟩
      obtain ⟨w, hwdel, hwname⟩ := hcompS gu hgu hgi hgs hmemT
      have hworig := (htdS w hwdel).1
      have hwu : w = u₀ :=
        List.inj_on_of_nodup_map hTnn hworig h1 (by rw [hwname, hname])
      refine hid ?_
      rw [← hwu]
      exact List.mem_map.mpr ⟨w, hwdel, rfl⟩
    · obtain ⟨_, hAL⟩ := hext u₀ h1
      obtain ⟨gu', hgu', hgi', hgs', hge'⟩ := hAL
      have hsame : gu'.primaryEmail = gu.primaryEmail := by rw [hge', hname]
      have hgg : gu' = gu := List.inj_on_of_nodup_map hS hgu' hgu hsame
      rw [hgg, hgs] at hgs'
      exact absurd hgs' (by simp)
  · intro d hd hmem'
    rw [hT1u] at hmem'
    obtain ⟨u₀, hu₀f, hname⟩ := List.mem_map.mp hmem'
    have hu₀ := List.mem_of_mem_filter hu₀f
    have hid : u₀.userId ∉ fs.r.toDelete.map (fun y => y.userId) := by
      have hx := List.of_mem_filter hu₀f
      simpa using hx
    rw [hU] at hu₀
    rcases List.mem_append.mp hu₀ with h1 | h1
    · have hmemT : d.primaryEmail ∈ userNames T.users :=
        List.mem_map.mpr ⟨u₀, h1, hname⟩
      obtain ⟨w, hwdel, hwname⟩ := hcompT d hd hmemT
      have hworig := (htdS w hwdel).1
      have hwu : w = u₀ :=
        List.inj_on_of_nodup_map hTnn hworig h1 (by rw [hwname, hname])
      refine hid ?_
      rw [← hwu]
      exact List.mem_map.mpr ⟨w, hwdel, rfl⟩
    · obtain ⟨_, hAL⟩ := hext u₀ h1
      refine hTomb d hd ?_
      obtain ⟨gu', hgu', hgi', hgs', hge'⟩ := hAL
      exact ⟨gu', hgu', hgi', hgs', by rw [hge', hname]⟩
  · rw [hT1g]
    exact hgn2
  · intro sg hsg hig
    rw [hT1g]
    exact hgc2 sg hsg hig
  · intro g hg
    rw [hT1g] at hg
    exact hgf2 g hg
  · intro g hg
    rw [hT1g] at hg
    obtain ⟨gg, hgglk, hperm₁⟩ := hmm2 g hg
    refine ⟨gg, hgglk, ?_⟩
    have hmsf : msOf (doSync cfg envOk S T).store g.groupId =
        (msOf st₂.store g.groupId).filter
          (fun m => decide (m.memberId ∉
            fs.r.toDelete.map (fun y => MemberId.userId y.userId))) := by
      unfold msOf
      rw [hT1m]
      simp only [List.filter_filter]
      refine List.filter_congr ?_
      intro m _
      rw [Bool.and_comm]
    rw [hmsf]
    have hmids : midsOf ((msOf st₂.store g.groupId).filter
        (fun m => decide (m.memberId ∉
          fs.r.toDelete.map (fun y => MemberId.userId y.userId)))) =
        (midsOf (msOf st₂.store g.groupId)).filter
          (fun x => decide (x ∉
            fs.r.toDelete.map (fun y => MemberId.userId y.userId))) :=
      midsOf_filter
        (fun x => decide (x ∉ fs.r.toDelete.map (fun y => MemberId.userId y.userId)))
        (msOf st₂.store g.groupId)
    rw [hmids]
    refine List.Perm.trans (hperm₁.filter _) ?_
    have htr := memberList_translate S fs.r fs.st.store.users fs.r.toDelete gg hIS hnn'
    rw [← hT1u] at htr
    exact htr


/-- On a store that is already a fixed point of the reconciliation -- every
active listing stored, no suspended or tombstoned name stored, groups complete
for the filtered index, memberships matching -- a full run issues no call,
reports no error and leaves the store untouched. -/
theorem doSync_noop (cfg : Config) (S : SourceSnapshot) (T : TargetSnapshot)
    (hnn : (userNames T.users).Nodup)
    (hni : (userIds T.users).Nodup)
    (hgn : (groupNames T.groups).Nodup)
    (h1 : ∀ gu ∈ S.users, ignoreUser cfg gu.primaryEmail = false → gu.suspended = false →
      gu.primaryEmail ∈ userNames T.users)
    (h2 : ∀ gu ∈ S.users, ignoreUser cfg gu.primaryEmail = false → gu.suspended = true →
      gu.primaryEmail ∉ userNames T.users)
    (h3 : ∀ d ∈ S.deletedUsers, d.primaryEmail ∉ userNames T.users)
    (hcomp : ∀ sg ∈ S.groups, ignoreGroup cfg sg.email = false →
      sg.name ∈ groupNames T.groups)
    (hkeepn : ∀ g ∈ T.groups, lookupA (filteredIdx cfg S) g.displayName ≠ none)
    (hmatch : ∀ g ∈ T.groups, ∃ gg,
      lookupA (filteredIdx cfg S) g.displayName = some gg ∧
      List.Perm (midsOf (msOf T g.groupId))
        ((valuesA (buildMemberList S (buildUserIndex T.users) gg)).map
          (fun u => MemberId.userId u.userId))) :
    doSync cfg envOk S T =
      { usr := buildUserIndex T.users, ops := [], store := T, err := none } := by
  have hUeq : syncUsers cfg envOk S { store := T, ops := [], nextId := freshBase T } =
      { r := buildUserIndex T.users,
        st := { store := T, ops := [], nextId := freshBase T } } :=
    syncUsers_noop cfg S _ h1 h2 h3
  have hGeq : syncGroups cfg envOk S (buildUserIndex T.users)
      { store := T, ops := [], nextId := freshBase T } =
      ({ store := T, ops := [], nextId := freshBase T }, none) :=
    syncGroups_noop cfg S (buildUserIndex T.users) _
      (buildUserIndex_perfect T.users hnn hni) hgn hcomp hkeepn hmatch
  rw [doSync_eq, hUeq]
  simp only
  rw [hGeq]
  simp only
  rw [buildUserIndex_toDelete]
  rfl


/-- C1 counterexample: a run presented with a duplicate-email source listing
(one active, one suspended copy of the same address) over an empty target
creates and then deletes the user.  Its output store equals its input target,
so a consecutive second run is presented snapshots identical to the first's --
yet the run issues calls (and, being deterministic, so does the second):
"identical snapshots across two consecutive runs" does not imply zero
mutations. -/
theorem c1_counterexample :
    (doSync ⟨[], []⟩ envOk
      ⟨[], [⟨"a@x", "A", "B", false, "g1"⟩, ⟨"a@x", "A", "B", true, "g2"⟩], [], []⟩
      ⟨[], [], []⟩).store = ⟨[], [], []⟩ ∧
    (doSync ⟨[], []⟩ envOk
      ⟨[], [⟨"a@x", "A", "B", false, "g1"⟩, ⟨"a@x", "A", "B", true, "g2"⟩], [], []⟩
      ⟨[], [], []⟩).err = none ∧
    (doSync ⟨[], []⟩ envOk
      ⟨[], [⟨"a@x", "A", "B", false, "g1"⟩, ⟨"a@x", "A", "B", true, "g2"⟩], [], []⟩
      ⟨[], [], []⟩).ops ≠ [] ∧
    (doSync ⟨[], []⟩ envOk
      ⟨[], [⟨"a@x", "A", "B", false, "g1"⟩, ⟨"a@x", "A", "B", true, "g2"⟩], [], []⟩
      (doSync ⟨[], []⟩ envOk
        ⟨[], [⟨"a@x", "A", "B", false, "g1"⟩, ⟨"a@x", "A", "B", true, "g2"⟩], [], []⟩
        ⟨[], [], []⟩).store).ops ≠ [] := by
  exact ⟨by decide, by decide, by decide, by decide⟩

/-- C1 amended: convergence instead of literal idempotence.  When every
mutating call succeeds, the source listings carry no duplicate emails, no
tombstone names an active non-ignored listing, and the target snapshot's
users, groups and memberships carry distinct names and identifiers with
well-formed member ids, a first full run ends without error and a second full
run over the store the first run produced issues zero mutating calls, ends
without error, and leaves the store untouched. -/
theorem c1_amended_convergence (cfg : Config) (S : SourceSnapshot) (T : TargetSnapshot)
    (hS : (S.users.map (fun u => u.primaryEmail)).Nodup)
    (hTomb : ∀ d ∈ S.deletedUsers, ¬ ActiveListed cfg S d.primaryEmail)
    (hAll : AllUserId T.memberships)
    (hTni : (userIds T.users).Nodup)
    (hTnn : (userNames T.users).Nodup)
    (hGni : (groupIds T.groups).Nodup)
    (hMnd : (T.memberships.map (fun m => m.membershipId)).Nodup)
    (hGnn : (groupNames T.groups).Nodup) :
    (doSync cfg envOk S T).err = none ∧
    (doSync cfg envOk S (doSync cfg envOk S T).store).ops = [] ∧
    (doSync cfg envOk S (doSync cfg envOk S T).store).err = none ∧
    (doSync cfg envOk S (doSync cfg envOk S T).store).store =
      (doSync cfg envOk S T).store := by
  obtain ⟨herr, hnn1, hni1, hA, hB, hC, hgn1, hgcomp, hgkeep, hgmatch⟩ :=
    doSync_ok cfg S T hS hTomb hAll hTni hTnn hGni hMnd hGnn
  have h2 := doSync_noop cfg S (doSync cfg envOk S T).store hnn1 hni1 hgn1 hA hB hC
    hgcomp hgkeep hgmatch
  exact ⟨herr, by rw [h2], by rw [h2], by rw [h2]⟩

/-- Witness for C1's amended statement at a concrete input: one active user,
one group with that user as its member, empty target; the first run ends clean
and the second run issues nothing. -/
theorem c1_amended_witness :
    ((⟨[], [⟨"a@x", "A", "B", false, "g1"⟩], [⟨"G", "g@x", "d"⟩],
        [("g@x", "a@x")]⟩ : SourceSnapshot).users.map
      (fun u => u.primaryEmail)).Nodup ∧
    (doSync ⟨[], []⟩ envOk
      ⟨[], [⟨"a@x", "A", "B", false, "g1"⟩], [⟨"G", "g@x", "d"⟩], [("g@x", "a@x")]⟩
      ⟨[], [], []⟩).err = none ∧
    (doSync ⟨[], []⟩ envOk
      ⟨[], [⟨"a@x", "A", "B", false, "g1"⟩], [⟨"G", "g@x", "d"⟩], [("g@x", "a@x")]⟩
      (doSync ⟨[], []⟩ envOk
        ⟨[], [⟨"a@x", "A", "B", false, "g1"⟩], [⟨"G", "g@x", "d"⟩], [("g@x", "a@x")]⟩
        ⟨[], [], []⟩).store).ops = [] := by
  refine ⟨by decide, ?_, ?_⟩
  · exact (c1_amended_convergence ⟨[], []⟩
      ⟨[], [⟨"a@x", "A", "B", false, "g1"⟩], [⟨"G", "g@x", "d"⟩], [("g@x", "a@x")]⟩
      ⟨[], [], []⟩ (by decide) (by intro d hd; cases hd) (by intro m hm; cases hm)
      (by decide) (by decide) (by decide) (by decide) (by decide)).1
  · exact (c1_amended_convergence ⟨[], []⟩
      ⟨[], [⟨"a@x", "A", "B", false, "g1"⟩], [⟨"G", "g@x", "d"⟩], [("g@x", "a@x")]⟩
      ⟨[], [], []⟩ (by decide) (by intro d hd; cases hd) (by intro m hm; cases hm)
      (by decide) (by decide) (by decide) (by decide) (by decide)).2.1

/-! ## The generalized duplicate-pending-deletion development (C9) -/

/-- A single active-loop step only ever appends to the pending-deletion
list. -/
theorem activeStep_toDelete_append (cfg : Config) (env : Env) (s : UserPhaseState)
    (u : GoogleUser) :
    ∃ δ, (activeStep cfg env s u).r.toDelete = s.r.toDelete ++ δ := by
  rcases activeStep_cases cfg env s u with ⟨_, he⟩ | ⟨_, w, _, ⟨_, he⟩ | ⟨_, he⟩⟩ |
    ⟨_, _, ⟨_, he⟩ | ⟨_, _, he⟩ | ⟨_, _, he⟩⟩
  · exact ⟨[], by simp [he]⟩
  · exact ⟨[w], by simp [he]⟩
  · exact ⟨[], by simp [he]⟩
  · exact ⟨[], by simp [he]⟩
  · exact ⟨[], by simp [he]⟩
  · exact ⟨[], by simp [he]⟩

/-- The whole active-user loop only ever appends to the pending-deletion
list. -/
theorem activeLoop_toDelete_append (cfg : Config) (env : Env) :
    ∀ (us : List GoogleUser) (s : UserPhaseState),
      ∃ δ, (us.foldl (activeStep cfg env) s).r.toDelete = s.r.toDelete ++ δ := by
  intro us
  induction us with
  | nil => intro s; exact ⟨[], by simp⟩
  | cons u rest ih =>
    intro s
    obtain ⟨δ₀, h₀⟩ := activeStep_toDelete_append cfg env s u
    obtain ⟨δ₁, h₁⟩ := ih (activeStep cfg env s u)
    exact ⟨δ₀ ++ δ₁, by simp only [List.foldl_cons, h₁, h₀, List.append_assoc]⟩

/-- A listed active user that is suspended, not ignored, and resolved by the
running index gets the resolved target user appended to the pending-deletion
list by the active-user loop. -/
theorem activeLoop_susp_append (cfg : Config) (env : Env) :
    ∀ (us : List GoogleUser) (s : UserPhaseState) (a : GoogleUser) (w : AwsUser),
      a ∈ us → ignoreUser cfg a.primaryEmail = false → a.suspended = true →
      lookupA s.r.index a.primaryEmail = some w →
      ∃ δ, (us.foldl (activeStep cfg env) s).r.toDelete = s.r.toDelete ++ δ ∧ w ∈ δ := by
  intro us
  induction us with
  | nil => intro s a w ha _ _ _; cases ha
  | cons u rest ih =>
    intro s a w ha higa hsusp hlk
    simp only [List.foldl_cons]
    rcases List.mem_cons.mp ha with rfl | h
    · rcases activeStep_cases cfg env s a with ⟨hig, _⟩ |
        ⟨_, w', hlk', ⟨_, he⟩ | ⟨hs, _⟩⟩ | ⟨_, hnone, _⟩
      · rw [higa] at hig; exact Bool.noConfusion hig
      · rw [hlk] at hlk'
        have hww : w = w' := Option.some.inj hlk'
        obtain ⟨δ₁, h₁⟩ := activeLoop_toDelete_append cfg env rest (activeStep cfg env s a)
        refine ⟨w :: δ₁, ?_, List.mem_cons_self _ _⟩
        rw [h₁, he, hww]
        simp
      · rw [hsusp] at hs; exact Bool.noConfusion hs
      · rw [hlk] at hnone; exact Option.noConfusion hnone
    · have hlk2 : lookupA (activeStep cfg env s u).r.index a.primaryEmail = some w :=
        activeLoop_index_mono cfg env [u] s a.primaryEmail w hlk
      obtain ⟨δ₀, h₀⟩ := activeStep_toDelete_append cfg env s u
      obtain ⟨δ₁, h₁, hw⟩ := ih (activeStep cfg env s u) a w h higa hsusp hlk2
      exact ⟨δ₀ ++ δ₁, by rw [h₁, h₀, List.append_assoc], by simp [hw]⟩

/-- A `RemoveUsers` pass that finishes without error has issued one
`DeleteUser` per pending-deletion user, in order. -/
theorem removeUsers_complete (env : Env) :
    ∀ (l : List AwsUser) (st : St), (removeUsers env l st).2 = none →
      (removeUsers env l st).1.ops = st.ops ++ l.map Op.deleteUser := by
  intro l
  induction l with
  | nil => intro st _; simp [removeUsers]
  | cons u rest ih =>
    intro st herr
    unfold removeUsers at herr ⊢
    cases hf : env.deleteUserFails u.userId with
    | true => simp [hf] at herr
    | false =>
      simp only [hf, Bool.false_eq_true, if_false] at herr ⊢
      rw [ih _ herr]
      simp

/-- C9 amended (generalized): in any run -- any configuration, environment,
source snapshot and target snapshot -- containing a deleted-listing entry and
an active-listing entry marked suspended, both matching the username of a
non-ignored target user that the initial index resolves, `SyncUsers` appends
that target user to the pending-deletion list at least twice; and if the run
finishes without error, the final pass issues at least two `DeleteUser` calls
for that user, the later ones targeting an already-deleted user. -/
theorem c9_amended_duplicate_pending_deletion (cfg : Config) (env : Env)
    (S : SourceSnapshot) (T : TargetSnapshot) (w : AwsUser) (d a : GoogleUser)
    (hd : d ∈ S.deletedUsers) (ha : a ∈ S.users)
    (hdn : d.primaryEmail = w.userName) (han : a.primaryEmail = w.userName)
    (hsusp : a.suspended = true)
    (hig : ignoreUser cfg a.primaryEmail = false)
    (hlk : lookupA (buildUserIndex T.users).index w.userName = some w) :
    2 ≤ List.count w (doSync cfg env S T).usr.toDelete ∧
    ((doSync cfg env S T).err = none →
      2 ≤ List.count (Op.deleteUser w) (doSync cfg env S T).ops) := by
  have hcount : 2 ≤ List.count w
      (syncUsers cfg env S ⟨T, [], freshBase T⟩).r.toDelete := by
    obtain ⟨hi, _, _⟩ := tombstoneLoop_spec S.deletedUsers (buildUserIndex T.users)
    have hlkd : lookupA (buildUserIndex T.users).index d.primaryEmail = some w := by
      rw [hdn]; exact hlk
    have hwt : w ∈ (S.deletedUsers.foldl tombstoneStep (buildUserIndex T.users)).toDelete :=
      tombstoneLoop_complete S.deletedUsers (buildUserIndex T.users) d w hd hlkd
    have hlka : lookupA
        (S.deletedUsers.foldl tombstoneStep (buildUserIndex T.users)).index
        a.primaryEmail = some w := by
      rw [hi, han]; exact hlk
    obtain ⟨δ, hδ, hwδ⟩ := activeLoop_susp_append cfg env S.users
      { r := S.deletedUsers.foldl tombstoneStep (buildUserIndex T.users)
        st := ⟨T, [], freshBase T⟩ } a w ha hig hsusp hlka
    have hsu : (syncUsers cfg env S ⟨T, [], freshBase T⟩).r.toDelete =
        (S.users.foldl (activeStep cfg env)
          { r := S.deletedUsers.foldl tombstoneStep (buildUserIndex T.users)
            st := ⟨T, [], freshBase T⟩ }).r.toDelete := rfl
    rw [hsu, hδ, List.count_append]
    have h3 : (⟨S.deletedUsers.foldl tombstoneStep (buildUserIndex T.users),
          ⟨T, [], freshBase T⟩⟩ : UserPhaseState).r.toDelete =
        (S.deletedUsers.foldl tombstoneStep (buildUserIndex T.users)).toDelete := rfl
    rw [h3]
    have h1 : 0 < List.count w
        (S.deletedUsers.foldl tombstoneStep (buildUserIndex T.users)).toDelete :=
      List.count_pos_iff.mpr hwt
    have h2 : 0 < List.count w δ := List.count_pos_iff.mpr hwδ
    omega
  constructor
  · rw [doSync_usr]; exact hcount
  · intro herr
    rw [doSync_eq] at herr ⊢
    cases hg : syncGroups cfg env S (syncUsers cfg env S ⟨T, [], freshBase T⟩).r
        (syncUsers cfg env S ⟨T, [], freshBase T⟩).st with
    | mk st' e =>
      rw [hg] at herr
      cases e with
      | some err => exact Option.noConfusion herr
      | none =>
        have herr2 : (removeUsers env
            (syncUsers cfg env S ⟨T, [], freshBase T⟩).r.toDelete st').2 = none := herr
        have hops := removeUsers_complete env
          (syncUsers cfg env S ⟨T, [], freshBase T⟩).r.toDelete st' herr2
        show 2 ≤ List.count (Op.deleteUser w)
          (removeUsers env (syncUsers cfg env S ⟨T, [], freshBase T⟩).r.toDelete st').1.ops
        rw [hops, List.count_append]
        have hinj : Function.Injective Op.deleteUser := by
          intro x y hxy
          injection hxy with h1
        have hmap : List.count (Op.deleteUser w)
            ((syncUsers cfg env S ⟨T, [], freshBase T⟩).r.toDelete.map Op.deleteUser) =
            List.count w (syncUsers cfg env S ⟨T, [], freshBase T⟩).r.toDelete :=
          List.count_map_of_injective _ Op.deleteUser hinj w
        omega

/-- Witness for C9's amended statement at a concrete input. -/
theorem c9_amended_witness :
    2 ≤ List.count (⟨"d@x", 1, "D E", "D", "E", [], []⟩ : AwsUser)
        (doSync ⟨[], []⟩ envOk
          ⟨[⟨"d@x", "D", "E", false, "i"⟩], [⟨"d@x", "D", "E", true, "i"⟩], [], []⟩
          ⟨[⟨"d@x", 1, "D E", "D", "E", [], []⟩], [], []⟩).usr.toDelete ∧
    2 ≤ List.count (Op.deleteUser ⟨"d@x", 1, "D E", "D", "E", [], []⟩)
        (doSync ⟨[], []⟩ envOk
          ⟨[⟨"d@x", "D", "E", false, "i"⟩], [⟨"d@x", "D", "E", true, "i"⟩], [], []⟩
          ⟨[⟨"d@x", 1, "D E", "D", "E", [], []⟩], [], []⟩).ops := by
  have h := c9_amended_duplicate_pending_deletion ⟨[], []⟩ envOk
    ⟨[⟨"d@x", "D", "E", false, "i"⟩], [⟨"d@x", "D", "E", true, "i"⟩], [], []⟩
    ⟨[⟨"d@x", 1, "D E", "D", "E", [], []⟩], [], []⟩
    ⟨"d@x", 1, "D E", "D", "E", [], []⟩
    ⟨"d@x", "D", "E", false, "i"⟩ ⟨"d@x", "D", "E", true, "i"⟩
    (by decide) (by decide) (by decide) (by decide) (by decide) (by decide) (by decide)
  exact ⟨h.1, h.2 (by decide)⟩

end SSOSync
